import Mathlib

/-!
A shallow embedding of the virtual-memory core `vm.c` (RISC-V Sv39 three-level
page tables) of a small teaching kernel, together with proofs of the spec
claims about it.

Modelling conventions:
* Machine integers (`uint64`) are `Nat`; the source's bit-level macros
  (`PX`, `PA2PTE`, `PTE2PA`, `PTE_FLAGS`, `PGROUNDDOWN`, `PGROUNDUP`) are
  transcribed with `Nat` shift/mask operators exactly as written in `riscv.h`.
* Physical memory is a `VMState`: each page-aligned physical address carries a
  page-table view (`ptes`, 512 entries of 64 bits each) and a byte view
  (`bytes`, 4096 bytes).  `memset(p, 0, PGSIZE)` zeroes both views of `p`.
* The physical-page allocator `kalloc`/`kfree` (an external collaborator of
  the source unit) is a free list of page addresses; `kalloc` yields the head
  or the null page `0` when exhausted, matching the `== 0` checks in the code.
* `panic` is modelled by the `Res.panic` constructor of a result type; every
  other control path is `Res.ok`.
* `freewalk`'s recursion through memory carries explicit fuel; the source
  recursion depth is bounded by the fixed three-level tree shape, and every
  theorem about it supplies ample fuel.
-/

namespace VM

/-! ### Layout constants, from `riscv.h` -/

def PGSIZE : Nat := 4096

def PTE_V : Nat := 1
def PTE_R : Nat := 2
def PTE_W : Nat := 4
def PTE_X : Nat := 8
def PTE_U : Nat := 16

/-- `MAXVA = 1L << (9 + 9 + 9 + 12 - 1)` -/
def MAXVA : Nat := 1 <<< (9 + 9 + 9 + 12 - 1)

/-- `PX(level, va) = ((va >> (12 + 9*level)) & 0x1FF)` -/
def PX (level va : Nat) : Nat := (va >>> (12 + 9 * level)) &&& 0x1FF

/-- `PA2PTE(pa) = ((pa >> 12) << 10)` -/
def PA2PTE (pa : Nat) : Nat := (pa >>> 12) <<< 10

/-- `PTE2PA(pte) = ((pte >> 10) << 12)` -/
def PTE2PA (pte : Nat) : Nat := (pte >>> 10) <<< 12

/-- `PTE_FLAGS(pte) = (pte & 0x3FF)` -/
def PTE_FLAGS (pte : Nat) : Nat := pte &&& 0x3FF

/-- `PGROUNDDOWN(a) = a & ~(PGSIZE-1)`; on values below `2^64` this mask
clears the low 12 bits, i.e. subtracts `a % PGSIZE`. -/
def PGROUNDDOWN (a : Nat) : Nat := a - a % PGSIZE

/-- `PGROUNDUP(sz) = (sz + PGSIZE - 1) & ~(PGSIZE-1)` -/
def PGROUNDUP (sz : Nat) : Nat := PGROUNDDOWN (sz + PGSIZE - 1)

/-! ### Machine state and the external page allocator -/

/-- Physical memory and the allocator's free list.  A page at physical
address `p` is visible both as an array of 512 page-table entries
(`ptes p i`, `i < 512`) and as 4096 bytes (`bytes p o`, `o < 4096`);
`memset(p, 0, PGSIZE)` clears both views. -/
structure VMState where
  ptes : Nat → Nat → Nat
  bytes : Nat → Nat → Nat
  freeList : List Nat

/-- Store a single page-table entry: `pagetable[i] = v`. -/
def setPte (s : VMState) (p i v : Nat) : VMState :=
  { s with ptes := fun q j => if q = p ∧ j = i then v else s.ptes q j }

/-- `memset(p, 0, PGSIZE)`: zero the whole page, in both views. -/
def clearPage (s : VMState) (p : Nat) : VMState :=
  { s with ptes := fun q j => if q = p then 0 else s.ptes q j,
           bytes := fun q o => if q = p then 0 else s.bytes q o }

/-- `memmove(dst, src, n)` into page `p` at byte offset `off`, from the
kernel buffer `src` starting at index `srcOff`. -/
def writeBytes (s : VMState) (p off : Nat) (src : Nat → Nat) (srcOff n : Nat) : VMState :=
  { s with bytes := fun q o =>
      if q = p ∧ off ≤ o ∧ o < off + n then src (srcOff + (o - off)) else s.bytes q o }

/-- `memmove(dst, src, PGSIZE)` between whole pages (used by `uvmcopy`). -/
def copyPageBytes (s : VMState) (dst srcPg : Nat) : VMState :=
  { s with bytes := fun q o =>
      if q = dst ∧ o < PGSIZE then s.bytes srcPg o else s.bytes q o }

/-- `kalloc()`: pop the head of the free list, or return the null page `0`
when the allocator is exhausted. -/
def kalloc (s : VMState) : Nat × VMState :=
  match s.freeList with
  | [] => (0, s)
  | p :: rest => (p, { s with freeList := rest })

/-- `kfree(pa)`: push the page back on the free list. -/
def kfree (s : VMState) (pa : Nat) : VMState :=
  { s with freeList := pa :: s.freeList }

/-- Result of an operation that may `panic`.  A `panic` aborts the kernel;
`ok` carries the ordinary return value. -/
inductive Res (α : Type) where
  | ok : α → Res α
  | panic : Res α
deriving DecidableEq

/-! ### `walk`: the three-level translation primitive -/

/-- One upper level (2 or 1) of `walk`'s descent loop: follow a valid entry,
or, with `alloc` set, install a fresh zeroed page as an internal node.
Returns the child page-table address, or `none` for the `return 0` paths. -/
def walkStep (s : VMState) (p va : Nat) (alloc : Bool) (level : Nat) :
    Option Nat × VMState :=
  let pte := s.ptes p (PX level va)
  if pte &&& PTE_V ≠ 0 then
    (some (PTE2PA pte), s)
  else if alloc = false then
    (none, s)
  else
    let (pg, s1) := kalloc s
    if pg = 0 then
      (none, s1)
    else
      let s2 := clearPage s1 pg
      let s3 := setPte s2 p (PX level va) (PA2PTE pg ||| PTE_V)
      (some pg, s3)

/-- `walk(pagetable, va, alloc)`: return the location (page, index) of the
level-0 PTE for `va`, or `none` for the `return 0` paths; `panic` when
`va >= MAXVA`. -/
def walk (s : VMState) (pt va : Nat) (alloc : Bool) :
    Res (Option (Nat × Nat) × VMState) :=
  if va ≥ MAXVA then .panic
  else
    match walkStep s pt va alloc 2 with
    | (none, s1) => .ok (none, s1)
    | (some p1, s1) =>
      match walkStep s1 p1 va alloc 1 with
      | (none, s2) => .ok (none, s2)
      | (some p0, s2) => .ok (some (p0, PX 0 va), s2)

/-- `walkaddr(pagetable, va)`: user-facing lookup; `0` when out of range,
unmapped, invalid, or not user-accessible. -/
def walkaddr (s : VMState) (pt va : Nat) : Nat :=
  if va ≥ MAXVA then 0
  else
    match walk s pt va false with
    | .ok (some (p, i), _) =>
      let pte := s.ptes p i
      if pte &&& PTE_V = 0 then 0
      else if pte &&& PTE_U = 0 then 0
      else PTE2PA pte
    | _ => 0

/-! ### Mapping primitives: `mappages`, `uvmunmap` -/

/-- Body of `mappages`' `for(;;)` loop; `n` is the number of pages still to
map after the current one (`n = (last - a) / PGSIZE`). -/
def mapLoop (s : VMState) (pt a pa perm n : Nat) : Res (Int × VMState) :=
  match walk s pt a true with
  | .panic => .panic
  | .ok (none, s1) => .ok (-1, s1)
  | .ok (some (p, i), s1) =>
    if s1.ptes p i &&& PTE_V ≠ 0 then .panic
    else
      let s2 := setPte s1 p i (PA2PTE pa ||| perm ||| PTE_V)
      match n with
      | 0 => .ok (0, s2)
      | n' + 1 => mapLoop s2 pt (a + PGSIZE) (pa + PGSIZE) perm n'

/-- `mappages(pagetable, va, size, pa, perm)`; `panic` on `size == 0` and on
remap, `-1` when `walk` cannot allocate, `0` on success. -/
def mappages (s : VMState) (pt va size pa perm : Nat) : Res (Int × VMState) :=
  if size = 0 then .panic
  else mapLoop s pt (PGROUNDDOWN va) pa perm
    ((PGROUNDDOWN (va + size - 1) - PGROUNDDOWN va) / PGSIZE)

/-- Body of `uvmunmap`'s loop over `npages` pages starting at `a`. -/
def unmapLoop (s : VMState) (pt a : Nat) (do_free : Bool) (n : Nat) : Res VMState :=
  match n with
  | 0 => .ok s
  | n' + 1 =>
    match walk s pt a false with
    | .panic => .panic
    | .ok (none, _) => .panic
    | .ok (some (p, i), _) =>
      let pte := s.ptes p i
      if pte &&& PTE_V = 0 then .panic
      else if PTE_FLAGS pte = PTE_V then .panic
      else
        let s1 := if do_free then kfree s (PTE2PA pte) else s
        unmapLoop (setPte s1 p i 0) pt (a + PGSIZE) do_free n'

/-- `uvmunmap(pagetable, va, npages, do_free)`; `panic` on a misaligned `va`,
a missing path, an invalid entry, or a non-leaf entry. -/
def uvmunmap (s : VMState) (pt va npages : Nat) (do_free : Bool) : Res VMState :=
  if va % PGSIZE ≠ 0 then .panic
  else unmapLoop s pt va do_free npages

/-! ### User address-space lifecycle -/

/-- `uvmcreate()`: an empty, zeroed root page table, or `0` when out of
memory. -/
def uvmcreate (s : VMState) : Nat × VMState :=
  let (p, s1) := kalloc s
  if p = 0 then (0, s1)
  else (p, clearPage s1 p)

/-- `uvminit(pagetable, src, sz)`: seed the first process.  The source
ignores the results of `kalloc` and `mappages` here. -/
def uvminit (s : VMState) (pt : Nat) (src : Nat → Nat) (sz : Nat) : Res VMState :=
  if sz ≥ PGSIZE then .panic
  else
    let (mem, s1) := kalloc s
    let s2 := clearPage s1 mem
    match mappages s2 pt 0 PGSIZE mem (PTE_W ||| PTE_R ||| PTE_X ||| PTE_U) with
    | .panic => .panic
    | .ok (_, s3) => .ok (writeBytes s3 mem 0 src 0 sz)

/-- `uvmdealloc(pagetable, oldsz, newsz)`. -/
def uvmdealloc (s : VMState) (pt oldsz newsz : Nat) : Res (Nat × VMState) :=
  if newsz ≥ oldsz then .ok (oldsz, s)
  else if PGROUNDUP newsz < PGROUNDUP oldsz then
    match uvmunmap s pt (PGROUNDUP newsz)
        ((PGROUNDUP oldsz - PGROUNDUP newsz) / PGSIZE) true with
    | .panic => .panic
    | .ok s1 => .ok (newsz, s1)
  else .ok (newsz, s)

/-- Body of `uvmalloc`'s loop; `oldsz` is already page-rounded (the source
reassigns `oldsz = PGROUNDUP(oldsz)` before the loop), `a` the current page,
`n` the number of iterations left (`ceil((newsz - a) / PGSIZE)`). -/
def uvmallocLoop (pt oldsz newsz : Nat) (s : VMState) (a n : Nat) : Res (Nat × VMState) :=
  match n with
  | 0 => .ok (newsz, s)
  | n' + 1 =>
    let (mem, s1) := kalloc s
    if mem = 0 then
      match uvmdealloc s1 pt a oldsz with
      | .panic => .panic
      | .ok (_, s2) => .ok (0, s2)
    else
      let s2 := clearPage s1 mem
      match mappages s2 pt a PGSIZE mem (PTE_W ||| PTE_X ||| PTE_R ||| PTE_U) with
      | .panic => .panic
      | .ok (r, s3) =>
        if r ≠ 0 then
          match uvmdealloc (kfree s3 mem) pt a oldsz with
          | .panic => .panic
          | .ok (_, s5) => .ok (0, s5)
        else uvmallocLoop pt oldsz newsz s3 (a + PGSIZE) n'

/-- `uvmalloc(pagetable, oldsz, newsz)`: grow the process, returning the new
size, or `0` after rolling back on failure. -/
def uvmalloc (s : VMState) (pt oldsz newsz : Nat) : Res (Nat × VMState) :=
  if newsz < oldsz then .ok (oldsz, s)
  else
    uvmallocLoop pt (PGROUNDUP oldsz) newsz s (PGROUNDUP oldsz)
      ((newsz - PGROUNDUP oldsz + PGSIZE - 1) / PGSIZE)

/-! ### Recursive reclamation: `freewalk`, `uvmfree` -/

/-- `freewalk`'s entry loop over one table: `k` counts the entries still to
visit (`i = 512 - k` is the current index); `child` performs the recursive
`freewalk` call on a lower-level table.  A valid leaf entry is a `panic`; a
valid internal entry is recursed into and then its slot is cleared; after
the last entry the table's own page is freed. -/
def freewalkLoop (child : VMState → Nat → Res VMState) :
    Nat → VMState → Nat → Nat → Res VMState
  | 0, s, p, _ => .ok (kfree s p)
  | k + 1, s, p, i =>
    let pte := s.ptes p i
    if pte &&& PTE_V ≠ 0 then
      if pte &&& (PTE_R ||| PTE_W ||| PTE_X) = 0 then
        match child s (PTE2PA pte) with
        | .panic => .panic
        | .ok s1 => freewalkLoop child k (setPte s1 p i 0) p (i + 1)
      else .panic
    else freewalkLoop child k s p (i + 1)

/-- The recursion of `freewalk` through memory: `fuel` bounds the depth,
which for the real three-level structure never exceeds 3 — every theorem
below supplies ample fuel, and exhausted fuel is reported as `panic`. -/
def freewalkGo : Nat → VMState → Nat → Res VMState
  | 0, _, _ => .panic
  | fuel + 1, s, p => freewalkLoop (freewalkGo fuel) 512 s p 0

/-- `freewalk(pagetable)`. -/
def freewalk (fuel : Nat) (s : VMState) (p : Nat) : Res VMState :=
  freewalkGo fuel s p

/-- `uvmfree(pagetable, sz)`. -/
def uvmfree (fuel : Nat) (s : VMState) (pt sz : Nat) : Res VMState :=
  if sz > 0 then
    match uvmunmap s pt 0 (PGROUNDUP sz / PGSIZE) true with
    | .panic => .panic
    | .ok s1 => freewalk fuel s1 pt
  else freewalk fuel s pt

/-- Body of `uvmcopy`'s loop; `i` is the current virtual address, `n` the
number of iterations left. -/
def uvmcopyLoop (old new : Nat) (s : VMState) (i n : Nat) : Res (Int × VMState) :=
  match n with
  | 0 => .ok (0, s)
  | n' + 1 =>
    match walk s old i false with
    | .panic => .panic
    | .ok (none, _) => .panic
    | .ok (some (p, j), _) =>
      let pte := s.ptes p j
      if pte &&& PTE_V = 0 then .panic
      else
        let pa := PTE2PA pte
        let flags := PTE_FLAGS pte
        let (mem, s1) := kalloc s
        if mem = 0 then
          match uvmunmap s1 new 0 (i / PGSIZE) true with
          | .panic => .panic
          | .ok s2 => .ok (-1, s2)
        else
          let s2 := copyPageBytes s1 mem pa
          match mappages s2 new i PGSIZE mem flags with
          | .panic => .panic
          | .ok (r, s3) =>
            if r ≠ 0 then
              match uvmunmap (kfree s3 mem) new 0 (i / PGSIZE) true with
              | .panic => .panic
              | .ok s4 => .ok (-1, s4)
            else uvmcopyLoop old new s3 (i + PGSIZE) n'

/-- `uvmcopy(old, new, sz)`. -/
def uvmcopy (s : VMState) (old new sz : Nat) : Res (Int × VMState) :=
  uvmcopyLoop old new s 0 ((sz + PGSIZE - 1) / PGSIZE)

/-- `uvmclear(pagetable, va)`: clear the user-accessible flag in place
(`*pte &= ~PTE_U` on a 64-bit entry). -/
def uvmclear (s : VMState) (pt va : Nat) : Res VMState :=
  match walk s pt va false with
  | .panic => .panic
  | .ok (none, _) => .panic
  | .ok (some (p, i), s1) =>
    .ok (setPte s1 p i (s1.ptes p i &&& (2 ^ 64 - 1 - PTE_U)))

/-! ### Kernel-user copy layer -/

/-- `copyout(pagetable, dstva, src, len)`: the kernel buffer is the byte
function `src` read from index `srcOff`. -/
def copyout (s : VMState) (pt dstva : Nat) (src : Nat → Nat) (srcOff len : Nat) :
    Int × VMState :=
  if len = 0 then (0, s)
  else
    let va0 := PGROUNDDOWN dstva
    let pa0 := walkaddr s pt va0
    if pa0 = 0 then (-1, s)
    else
      let n := min (PGSIZE - (dstva - va0)) len
      copyout (writeBytes s pa0 (dstva - va0) src srcOff n) pt (va0 + PGSIZE)
        src (srcOff + n) (len - n)
termination_by len
decreasing_by
  simp only [PGROUNDDOWN, PGSIZE]
  omega

/-- `copyin(pagetable, dst, srcva, len)`: the kernel destination is returned
as the list of bytes written to it. -/
def copyin (s : VMState) (pt srcva len : Nat) : Int × List Nat :=
  if len = 0 then (0, [])
  else
    let va0 := PGROUNDDOWN srcva
    let pa0 := walkaddr s pt va0
    if pa0 = 0 then (-1, [])
    else
      let n := min (PGSIZE - (srcva - va0)) len
      let chunk := (List.range n).map fun k => s.bytes pa0 (srcva - va0 + k)
      let r := copyin s pt (va0 + PGSIZE) (len - n)
      (r.1, chunk ++ r.2)
termination_by len
decreasing_by
  simp only [PGROUNDDOWN, PGSIZE]
  omega

/-- `copyinstr`'s inner byte loop within one page: scan up to `n` bytes of
page `pa0` from offset `off`; returns the bytes written to `dst` (the
terminator included when found), the `got_null` flag, and the number of
`--max` decrements performed (the null byte is copied without one, the
`break` coming first). -/
def scanPage (s : VMState) (pa0 : Nat) : Nat → Nat → List Nat × Bool × Nat
  | _, 0 => ([], false, 0)
  | off, n + 1 =>
    if s.bytes pa0 off = 0 then ([0], true, 0)
    else
      let r := scanPage s pa0 (off + 1) n
      (s.bytes pa0 off :: r.1, r.2.1, r.2.2 + 1)

/-- `copyinstr(pagetable, dst, srcva, max)`: the kernel destination is the
returned list of bytes. -/
def copyinstr (s : VMState) (pt srcva max : Nat) : Int × List Nat :=
  if max = 0 then (-1, [])
  else
    let va0 := PGROUNDDOWN srcva
    let pa0 := walkaddr s pt va0
    if pa0 = 0 then (-1, [])
    else
      let n := min (PGSIZE - (srcva - va0)) max
      let t := scanPage s pa0 (srcva - va0) n
      if h : t.2.1 = true then (0, t.1)
      else
        let r := copyinstr s pt (va0 + PGSIZE) (max - t.2.2)
        (r.1, t.1 ++ r.2)
termination_by max
decreasing_by
  rename_i hmax _
  have key : ∀ (t : VMState) (P n off : Nat), (scanPage t P off n).2.1 = false →
      (scanPage t P off n).2.2 = n := by
    intro t P n
    induction n with
    | zero => intro off _; rfl
    | succ n ih =>
      intro off hh
      by_cases hb : t.bytes P off = 0
      · simp [scanPage, hb] at hh
      · simp only [scanPage, if_neg hb] at hh ⊢
        rw [ih (off + 1) hh]
  have hc := key s (walkaddr s pt (PGROUNDDOWN srcva))
    (min (PGSIZE - (srcva - PGROUNDDOWN srcva)) max) (srcva - PGROUNDDOWN srcva)
    (by simpa using h)
  rw [hc]
  simp only [PGROUNDDOWN, PGSIZE]
  simp only [PGROUNDDOWN, PGSIZE] at hc
  omega

/-- The level-0 page-table page reached for `va` by following valid entries
from the root, when both upper-level entries are valid. -/
def pathL0 (s : VMState) (pt va : Nat) : Option Nat :=
  let e2 := s.ptes pt (PX 2 va)
  if e2 &&& PTE_V = 0 then none
  else
    let e1 := s.ptes (PTE2PA e2) (PX 1 va)
    if e1 &&& PTE_V = 0 then none
    else some (PTE2PA e1)


/-- The byte a user virtual address denotes through the table: the byte view
of the page `walkaddr` finds, at the in-page offset. -/
def userByte (s : VMState) (pt va : Nat) : Nat :=
  s.bytes (walkaddr s pt (PGROUNDDOWN va)) (va % PGSIZE)

/-! ### Well-formed translation trees -/

/-- The entry is valid (`PTE_V` set). -/
def validE (e : Nat) : Prop := e &&& PTE_V ≠ 0

instance (e : Nat) : Decidable (validE e) :=
  inferInstanceAs (Decidable (e &&& PTE_V ≠ 0))

/-- The entry carries none of R/W/X: the shape of an internal node. -/
def internE (e : Nat) : Prop := e &&& (PTE_R ||| PTE_W ||| PTE_X) = 0

instance (e : Nat) : Decidable (internE e) :=
  inferInstanceAs (Decidable (e &&& (PTE_R ||| PTE_W ||| PTE_X) = 0))

/-- A usable physical page address: page-aligned and non-null. -/
def goodPage (p : Nat) : Prop := p % PGSIZE = 0 ∧ p ≠ 0

/-- `q` is one of the page-table pages of the three-level tree rooted at
`pt`: the root itself, a level-1 table, or a level-0 table. -/
def Tbls (s : VMState) (pt q : Nat) : Prop :=
  q = pt
  ∨ (∃ i, i < 512 ∧ validE (s.ptes pt i) ∧ q = PTE2PA (s.ptes pt i))
  ∨ (∃ i j, i < 512 ∧ j < 512 ∧ validE (s.ptes pt i) ∧
      validE (s.ptes (PTE2PA (s.ptes pt i)) j) ∧
      q = PTE2PA (s.ptes (PTE2PA (s.ptes pt i)) j))

/-- Well-formedness of the translation tree rooted at `pt`, together with the
allocator free list: upper-level entries are internal nodes with good,
pairwise-distinct child pages, and the free list is duplicate-free, aligned,
and disjoint from the tree.  These are exactly the invariants the kernel
maintains for every live page table. -/
structure WF (s : VMState) (pt : Nat) : Prop where
  root_good : goodPage pt
  l2_intern : ∀ i, i < 512 → validE (s.ptes pt i) → internE (s.ptes pt i)
  l2_good : ∀ i, i < 512 → validE (s.ptes pt i) → goodPage (PTE2PA (s.ptes pt i))
  l1_intern : ∀ i j, i < 512 → j < 512 → validE (s.ptes pt i) →
      validE (s.ptes (PTE2PA (s.ptes pt i)) j) →
      internE (s.ptes (PTE2PA (s.ptes pt i)) j)
  l1_good : ∀ i j, i < 512 → j < 512 → validE (s.ptes pt i) →
      validE (s.ptes (PTE2PA (s.ptes pt i)) j) →
      goodPage (PTE2PA (s.ptes (PTE2PA (s.ptes pt i)) j))
  ne_root_l1 : ∀ i, i < 512 → validE (s.ptes pt i) → PTE2PA (s.ptes pt i) ≠ pt
  ne_root_l0 : ∀ i j, i < 512 → j < 512 → validE (s.ptes pt i) →
      validE (s.ptes (PTE2PA (s.ptes pt i)) j) →
      PTE2PA (s.ptes (PTE2PA (s.ptes pt i)) j) ≠ pt
  ne_l1_l0 : ∀ i j i', i < 512 → j < 512 → i' < 512 → validE (s.ptes pt i) →
      validE (s.ptes (PTE2PA (s.ptes pt i)) j) → validE (s.ptes pt i') →
      PTE2PA (s.ptes (PTE2PA (s.ptes pt i)) j) ≠ PTE2PA (s.ptes pt i')
  inj_l1 : ∀ i i', i < 512 → i' < 512 → validE (s.ptes pt i) →
      validE (s.ptes pt i') → PTE2PA (s.ptes pt i) = PTE2PA (s.ptes pt i') → i = i'
  inj_l0 : ∀ i j i' j', i < 512 → j < 512 → i' < 512 → j' < 512 →
      validE (s.ptes pt i) → validE (s.ptes (PTE2PA (s.ptes pt i)) j) →
      validE (s.ptes pt i') → validE (s.ptes (PTE2PA (s.ptes pt i')) j') →
      PTE2PA (s.ptes (PTE2PA (s.ptes pt i)) j) =
        PTE2PA (s.ptes (PTE2PA (s.ptes pt i')) j') →
      i = i' ∧ j = j'
  fr_nodup : s.freeList.Nodup
  fr_good : ∀ q, q ∈ s.freeList → q % PGSIZE = 0
  fr_not_tbl : ∀ q, q ∈ s.freeList → ¬ Tbls s pt q

/-- The relationship between a state and its successor along `walk`'s
allocation path: the tree rooted at `pt` stays well formed and only grows by
pages taken from the free list; existing translations, level-0 tables, and
all bytes outside the consumed free pages are untouched; every write into an
existing table turns an invalid slot into an internal node; fresh tables
contain only zero or internal entries; and no translation result changes. -/
structure Grows (s t : VMState) (pt : Nat) : Prop where
  wf : WF t pt
  drop : ∃ m, t.freeList = List.drop m s.freeList
  tblMono : ∀ q, Tbls s pt q → Tbls t pt q
  tblGrow : ∀ q, Tbls t pt q → Tbls s pt q ∨ (q ∈ s.freeList ∧ q ∉ t.freeList)
  ptesOut : ∀ q, ¬ Tbls s pt q → q ∉ s.freeList → ∀ j, t.ptes q j = s.ptes q j
  bytesOut : ∀ q, q ∉ s.freeList → ∀ o, t.bytes q o = s.bytes q o
  validPres : ∀ q j, Tbls s pt q → validE (s.ptes q j) → t.ptes q j = s.ptes q j
  l0Pres : ∀ q, (∃ i j, i < 512 ∧ j < 512 ∧ validE (s.ptes pt i) ∧
      validE (s.ptes (PTE2PA (s.ptes pt i)) j) ∧
      q = PTE2PA (s.ptes (PTE2PA (s.ptes pt i)) j)) → ∀ jj, t.ptes q jj = s.ptes q jj
  writeIntern : ∀ q j, Tbls s pt q → t.ptes q j ≠ s.ptes q j →
      validE (t.ptes q j) ∧ internE (t.ptes q j)
  newClean : ∀ q, Tbls t pt q → ¬ Tbls s pt q → ∀ j,
      t.ptes q j = 0 ∨ (validE (t.ptes q j) ∧ internE (t.ptes q j))
  newL0Zero : ∀ q, (∃ i j, i < 512 ∧ j < 512 ∧ validE (t.ptes pt i) ∧
      validE (t.ptes (PTE2PA (t.ptes pt i)) j) ∧
      q = PTE2PA (t.ptes (PTE2PA (t.ptes pt i)) j)) → ¬ Tbls s pt q →
      ∀ jj, t.ptes q jj = 0
  pathPres : ∀ va' p, pathL0 s pt va' = some p → pathL0 t pt va' = some p
  waPres : ∀ va', walkaddr t pt va' = walkaddr s pt va'
  flAcct : ∀ q, q ∈ s.freeList → q ∈ t.freeList ∨ Tbls t pt q ∨ q = 0

/-- Success postcondition of `mappages`'s loop over `n + 1` pages starting
at `a` mapped to `pa` with flags `perm`: the tree stays well formed and only
grows by free-list pages; translations, entries and bytes outside the mapped
range and the consumed pages are untouched; every page of the range ends in a
freshly written leaf slot; and every write into the tree is either a new
internal node or one of those leaf slots. -/
structure MapOk (s s' : VMState) (pt a pa perm n : Nat) : Prop where
  wf : WF s' pt
  drop : ∃ m, s'.freeList = List.drop m s.freeList
  tblMono : ∀ q, Tbls s pt q → Tbls s' pt q
  tblGrow : ∀ q, Tbls s' pt q → Tbls s pt q ∨ (q ∈ s.freeList ∧ q ∉ s'.freeList)
  ptesOut : ∀ q, ¬ Tbls s pt q → q ∉ s.freeList → ∀ j, s'.ptes q j = s.ptes q j
  bytesOut : ∀ q, q ∉ s.freeList → ∀ o, s'.bytes q o = s.bytes q o
  validPres : ∀ q j, Tbls s pt q → validE (s.ptes q j) → s'.ptes q j = s.ptes q j
  pathPres : ∀ va' p, pathL0 s pt va' = some p → pathL0 s' pt va' = some p
  installed : ∀ k, k ≤ n → ∃ p, pathL0 s' pt (a + k * PGSIZE) = some p ∧
      s'.ptes p (PX 0 (a + k * PGSIZE)) = PA2PTE (pa + k * PGSIZE) ||| perm ||| PTE_V
  waFrame : ∀ va', va' < MAXVA →
      (∀ k, k ≤ n → va' / PGSIZE ≠ (a + k * PGSIZE) / PGSIZE) →
      walkaddr s' pt va' = walkaddr s pt va'
  writeChar : ∀ q j, Tbls s pt q → s'.ptes q j ≠ s.ptes q j →
      (validE (s'.ptes q j) ∧ internE (s'.ptes q j)) ∨
      (∃ k, k ≤ n ∧ pathL0 s' pt (a + k * PGSIZE) = some q ∧
        j = PX 0 (a + k * PGSIZE))
  newClean : ∀ q, Tbls s' pt q → ¬ Tbls s pt q → ∀ j,
      s'.ptes q j = 0 ∨ (validE (s'.ptes q j) ∧ internE (s'.ptes q j)) ∨
      (∃ k, k ≤ n ∧ pathL0 s' pt (a + k * PGSIZE) = some q ∧
        j = PX 0 (a + k * PGSIZE))
  l0Pres : ∀ q, (∃ i2 j2, i2 < 512 ∧ j2 < 512 ∧ validE (s.ptes pt i2) ∧
      validE (s.ptes (PTE2PA (s.ptes pt i2)) j2) ∧
      q = PTE2PA (s.ptes (PTE2PA (s.ptes pt i2)) j2)) → ∀ j,
      s'.ptes q j = s.ptes q j ∨
      (∃ k, k ≤ n ∧ pathL0 s' pt (a + k * PGSIZE) = some q ∧
        j = PX 0 (a + k * PGSIZE))
  l0New : ∀ q, (∃ i2 j2, i2 < 512 ∧ j2 < 512 ∧ validE (s'.ptes pt i2) ∧
      validE (s'.ptes (PTE2PA (s'.ptes pt i2)) j2) ∧
      q = PTE2PA (s'.ptes (PTE2PA (s'.ptes pt i2)) j2)) → ¬ Tbls s pt q → ∀ j,
      s'.ptes q j = 0 ∨
      (∃ k, k ≤ n ∧ pathL0 s' pt (a + k * PGSIZE) = some q ∧
        j = PX 0 (a + k * PGSIZE))
  flAcct : ∀ q, q ∈ s.freeList → q ∈ s'.freeList ∨ Tbls s' pt q ∨ q = 0

/-- Postcondition of a successful `uvmunmap` loop over `n` mapped pages
starting at `a`, with physical freeing enabled: the tree keeps its exact
shape (same tables, same paths) and stays well formed; the level-0 slots of
the range are zeroed and their physical pages pushed on the free list; no
other entry, and no byte, changes; translations outside the range are
untouched. -/
structure UnmapOk (s s' : VMState) (pt a n : Nat) : Prop where
  wf : WF s' pt
  bytesEq : s'.bytes = s.bytes
  tblsEq : ∀ q, Tbls s' pt q ↔ Tbls s pt q
  pathEq : ∀ va', pathL0 s' pt va' = pathL0 s pt va'
  flSub : ∀ q, q ∈ s.freeList → q ∈ s'.freeList
  freed : ∀ k, k < n → ∀ p, pathL0 s pt (a + k * PGSIZE) = some p →
      PTE2PA (s.ptes p (PX 0 (a + k * PGSIZE))) ∈ s'.freeList
  zeroed : ∀ k, k < n → ∀ p, pathL0 s pt (a + k * PGSIZE) = some p →
      s'.ptes p (PX 0 (a + k * PGSIZE)) = 0
  frame : ∀ q j, (∀ k, k < n → ∀ p, pathL0 s pt (a + k * PGSIZE) = some p →
      ¬ (q = p ∧ j = PX 0 (a + k * PGSIZE))) → s'.ptes q j = s.ptes q j
  waOut : ∀ va', va' < MAXVA →
      (∀ k, k < n → va' / PGSIZE ≠ (a + k * PGSIZE) / PGSIZE) →
      walkaddr s' pt va' = walkaddr s pt va'

/-- An empty root table at 4096 with two free pages, for the claim-C2
witness: one page is mapped to the data page 20480, then unmapped again. -/
def C2state : VMState := ⟨fun _ _ => 0, fun _ _ => 0, [8192, 12288]⟩

/-- The state after `mappages` on `C2state`. -/
def C2state1 : VMState :=
  match mappages C2state 4096 0 PGSIZE 20480 (PTE_R ||| PTE_U) with
  | .ok (_, t) => t
  | .panic => C2state

/-- The state after `uvmunmap` on `C2state1`. -/
def C2state2 : VMState :=
  match uvmunmap C2state1 4096 0 (PGSIZE / PGSIZE) true with
  | .ok t => t
  | .panic => C2state1

/-- Invariant of `uvmalloc`'s loop relative to the pre-call state `s0`:
after mapping `i` fresh pages at `b, b + PGSIZE, ...`, the tree is well
formed, translations outside those pages are as in `s0`, each mapped page
has a removable leaf (valid, not flags-only-`PTE_V`, aligned and fresh
physical page, pairwise distinct), and everything at or above the current
position is still unmapped. -/
structure AllocInv (s0 s : VMState) (pt b i : Nat) : Prop where
  wf : WF s pt
  waFrame : ∀ va', va' < MAXVA →
      (∀ k, k < i → va' / PGSIZE ≠ (b + k * PGSIZE) / PGSIZE) →
      walkaddr s pt va' = walkaddr s0 pt va'
  pathsome : ∀ k, k < i → pathL0 s pt (b + k * PGSIZE) ≠ none
  good : ∀ k, k < i → ∀ p, pathL0 s pt (b + k * PGSIZE) = some p →
      validE (s.ptes p (PX 0 (b + k * PGSIZE))) ∧
      PTE_FLAGS (s.ptes p (PX 0 (b + k * PGSIZE))) ≠ PTE_V ∧
      PTE2PA (s.ptes p (PX 0 (b + k * PGSIZE))) % PGSIZE = 0 ∧
      PTE2PA (s.ptes p (PX 0 (b + k * PGSIZE))) ∉ s.freeList ∧
      ¬ Tbls s pt (PTE2PA (s.ptes p (PX 0 (b + k * PGSIZE))))
  dist : ∀ k k' p p', k < i → k' < i → k ≠ k' →
      pathL0 s pt (b + k * PGSIZE) = some p →
      pathL0 s pt (b + k' * PGSIZE) = some p' →
      PTE2PA (s.ptes p (PX 0 (b + k * PGSIZE))) ≠
        PTE2PA (s.ptes p' (PX 0 (b + k' * PGSIZE)))
  clean : ∀ va' p, b + i * PGSIZE ≤ va' → va' < MAXVA →
      pathL0 s pt va' = some p → ¬ validE (s.ptes p (PX 0 va'))

/-- An empty root table with a single free page, for the claim-C4 witness:
growing by one page needs one data page and one level-1 table, so the
allocator runs out and `uvmalloc` must roll back. -/
def C4state : VMState := ⟨fun _ _ => 0, fun _ _ => 0, [8192]⟩

/-- The state the failing `uvmalloc` run on `C4state` produces. -/
def C4state' : VMState :=
  match uvmalloc C4state 4096 0 4096 with
  | .ok (_, t) => t
  | .panic => C4state

/-! ### Concrete witness states -/

/-- An empty root table at 4096 with two free pages, for the claim-C3
witness: one page is mapped to the data page 16384 and looked up again. -/
def C3state : VMState := ⟨fun _ _ => 0, fun _ _ => 0, [8192, 12288]⟩

/-- The state a successful `mappages` run on `C3state` produces. -/
def C3state' : VMState :=
  match mappages C3state 4096 0 PGSIZE 16384 (PTE_R ||| PTE_U) with
  | .ok (_, t) => t
  | .panic => C3state

/-- A tiny concrete table for the claim-C1 witness: root page 4096 whose
entry 0 points to the level-1 table at 8192, whose entry 0 points to the
level-0 table at 12288, whose entry 0 is a valid readable leaf for the data
page 16384 without the user flag. -/
def C1state : VMState :=
  ⟨fun q j =>
      if q = 4096 ∧ j = 0 then PA2PTE 8192 ||| PTE_V
      else if q = 8192 ∧ j = 0 then PA2PTE 12288 ||| PTE_V
      else if q = 12288 ∧ j = 0 then PA2PTE 16384 ||| PTE_R ||| PTE_V
      else 0,
    fun _ _ => 1, []⟩

/-- A concrete two-page populated table for the claim-C6 witness: a 5-byte
string starting 3 bytes before a page boundary, so it spans two mapped
pages. -/
def C6state : VMState :=
  ⟨fun q j =>
      if q = 4096 ∧ j = 0 then PA2PTE 8192 ||| PTE_V
      else if q = 8192 ∧ j = 0 then PA2PTE 12288 ||| PTE_V
      else if q = 12288 ∧ j = 0 then PA2PTE 16384 ||| PTE_R ||| PTE_U ||| PTE_V
      else if q = 12288 ∧ j = 1 then PA2PTE 20480 ||| PTE_R ||| PTE_U ||| PTE_V
      else 0,
    fun q o =>
      if q = 16384 then (if 4093 ≤ o then 65 else 9)
      else if q = 20480 then (if o < 2 then 66 else 0)
      else 7,
    []⟩

/-! ### Table shapes seen by `freewalk` -/

/-- Every valid entry of table `c` is a leaf (it carries one of R/W/X) —
the shape a level-0 table always has in a live tree. -/
def leafTable (s : VMState) (c : Nat) : Prop :=
  ∀ jj, jj < 512 → validE (s.ptes c jj) → ¬ internE (s.ptes c jj)

/-- Table `c` still holds a valid entry. -/
def leafIn (s : VMState) (c : Nat) : Prop :=
  ∃ jj, jj < 512 ∧ validE (s.ptes c jj)

/-- Shape of a level-1 table `c`: every valid entry is an internal node
whose child is a table distinct from `c` holding only leaf entries. -/
def midShape (s : VMState) (c : Nat) : Prop :=
  ∀ j, j < 512 → validE (s.ptes c j) →
    internE (s.ptes c j) ∧ PTE2PA (s.ptes c j) ≠ c ∧
      leafTable s (PTE2PA (s.ptes c j))

/-- A level-1 table `c` still reaches a valid level-0 entry. -/
def midLeaf (s : VMState) (c : Nat) : Prop :=
  ∃ j, j < 512 ∧ validE (s.ptes c j) ∧ leafIn s (PTE2PA (s.ptes c j))

/-- An empty root table for the claim-C7 witness: reclaiming it visits all
512 entries and frees the root page itself. -/
def C7state : VMState := ⟨fun _ _ => 0, fun _ _ => 0, []⟩

/-- The state `freewalk` on `C7state` produces. -/
def C7state' : VMState :=
  match freewalk 3 C7state 4096 with
  | .ok t => t
  | .panic => C7state

/-- The location the allocating `walk` run of the claim-C8 witness returns. -/
def C8r : Option (Nat × Nat) :=
  match walk C3state 4096 0 true with
  | .ok (r, _) => r
  | .panic => none

/-- The state the allocating `walk` run of the claim-C8 witness produces. -/
def C8state' : VMState :=
  match walk C3state 4096 0 true with
  | .ok (_, t) => t
  | .panic => C3state

/-! ### The `uvmcopy` loop invariant -/

/-- Invariant of `uvmcopy`'s loop after `k` copied pages, relative to the
pre-call state `s0`: the destination tree carries the allocation invariant
of `k` freshly mapped pages at base `0`; the source tree's entries, all
bytes outside the consumed free pages, and the uncopied free list are
untouched; the destination tree grew only into pages of the original free
list; and each copied page's destination leaf carries the source leaf's
flags and a fresh physical page holding a byte-for-byte copy of the source
page. -/
structure CopyInv (s0 s : VMState) (old new k : Nat) : Prop where
  dest : AllocInv s0 s new 0 k
  oldPtes : ∀ q, Tbls s0 old q → ∀ j, s.ptes q j = s0.ptes q j
  bytesPres : ∀ q, q ∉ s0.freeList → ∀ o, s.bytes q o = s0.bytes q o
  flSub : ∀ q, q ∈ s.freeList → q ∈ s0.freeList
  newGrow : ∀ q, Tbls s new q → Tbls s0 new q ∨ q ∈ s0.freeList
  copied : ∀ k2, k2 < k → ∀ p srcp, pathL0 s new (k2 * PGSIZE) = some p →
      pathL0 s0 old (k2 * PGSIZE) = some srcp →
      PTE_FLAGS (s.ptes p (PX 0 (k2 * PGSIZE))) =
        PTE_FLAGS (s0.ptes srcp (PX 0 (k2 * PGSIZE))) ∧
      PTE2PA (s.ptes p (PX 0 (k2 * PGSIZE))) ∈ s0.freeList ∧
      (∀ o, o < PGSIZE → s.bytes (PTE2PA (s.ptes p (PX 0 (k2 * PGSIZE)))) o =
        s0.bytes (PTE2PA (s0.ptes srcp (PX 0 (k2 * PGSIZE)))) o)
  acct : ∀ q, q ∈ s0.freeList → q ∈ s.freeList ∨ Tbls s new q ∨ q = 0 ∨
      (∃ k2, k2 < k ∧ ∃ p, pathL0 s new (k2 * PGSIZE) = some p ∧
        q = PTE2PA (s.ptes p (PX 0 (k2 * PGSIZE))))

/-- What a failed `uvmcopy` leaves behind: the destination tree is well
formed with every translation as before the call, and the source tree's
entries and all bytes outside the pre-call free pages are untouched. -/
structure CopyFail (s0 s2 : VMState) (old new : Nat) : Prop where
  wf : WF s2 new
  waNew : ∀ va, va < MAXVA → walkaddr s2 new va = walkaddr s0 new va
  oldPtes : ∀ q, Tbls s0 old q → ∀ j, s2.ptes q j = s0.ptes q j
  bytesPres : ∀ q, q ∉ s0.freeList → ∀ o, s2.bytes q o = s0.bytes q o
  flAcct : ∀ q, q ∈ s0.freeList → q ∈ s2.freeList ∨ Tbls s2 new q ∨ q = 0

/-- Base state for the claim-C5 witness: an empty source root at 4096, an
empty destination root at 45056, the source data page 65536 (outside the
free list) holding recognisable bytes, and five free pages. -/
def C5base : VMState :=
  ⟨fun _ _ => 0, fun q o => if q = 65536 then o % 256 + 3 else 0,
    [8192, 12288, 16384, 20480, 24576]⟩

/-- The claim-C5 witness source space: one user page at va 0 backed by
65536, built by `mappages` on `C5base`. -/
def C5state1 : VMState :=
  match mappages C5base 4096 0 PGSIZE 65536 (PTE_R ||| PTE_U) with
  | .ok (_, t) => t
  | .panic => C5base

/-- The state the successful `uvmcopy` run of the claim-C5 witness
produces. -/
def C5state2 : VMState :=
  match uvmcopy C5state1 4096 45056 PGSIZE with
  | .ok (_, t) => t
  | .panic => C5state1

/-- The failing half of the claim-C5 witness: a two-page source space built
on `C5base`, which leaves only three free pages — the first copied page
consumes all of them (one data page, two destination tables), so the copy
of the second page finds the allocator empty and must roll back. -/
def C5fstate1 : VMState :=
  match mappages C5base 4096 0 (2 * PGSIZE) 65536 (PTE_R ||| PTE_U) with
  | .ok (_, t) => t
  | .panic => C5base

/-- The state the failing `uvmcopy` run of the claim-C5 witness produces. -/
def C5fstate2 : VMState :=
  match uvmcopy C5fstate1 4096 45056 (2 * PGSIZE) with
  | .ok (_, t) => t
  | .panic => C5fstate1

/-! ### Reading the translation structure -/

/-! ### Arithmetic forms of the bit-level macros -/

theorem MAXVA_eq : MAXVA = 2 ^ 38 := by
  rw [MAXVA, Nat.shiftLeft_eq, Nat.one_mul]

theorem PX_eq (level va : Nat) : PX level va = va / 2 ^ (12 + 9 * level) % 512 := by
  have h : (0x1FF : Nat) = 2 ^ 9 - 1 := by norm_num
  rw [PX, h, Nat.and_pow_two_sub_one_eq_mod, Nat.shiftRight_eq_div_pow]

theorem PX_lt (level va : Nat) : PX level va < 512 := by
  rw [PX_eq]; exact Nat.mod_lt _ (by norm_num)

/-- Disjoint bit ranges: or-ing low bits below `2^k` into a multiple of `2^k`
is addition. -/
theorem or_mul_two_pow_eq_add (k : Nat) : ∀ q b : Nat, b < 2 ^ k →
    (2 ^ k * q) ||| b = 2 ^ k * q + b := by
  induction k with
  | zero =>
    intro q b hb
    interval_cases b
    simp
  | succ k ih =>
    intro q b hb
    have hx : 2 ^ (k + 1) * q = 2 * (2 ^ k * q) := by ring
    have hbq : b / 2 < 2 ^ k := by
      rw [pow_succ] at hb; omega
    have hdiv : (2 ^ (k + 1) * q ||| b) / 2 = 2 ^ k * q + b / 2 := by
      rw [Nat.or_div_two]
      have h2 : 2 ^ (k + 1) * q / 2 = 2 ^ k * q := by omega
      rw [h2]; exact ih _ _ hbq
    have hx2 : (2 ^ (k + 1) * q) % 2 = 0 := by omega
    have hmod : (2 ^ (k + 1) * q ||| b) % 2 = b % 2 := by
      rcases Nat.mod_two_eq_zero_or_one b with hb0 | hb1
      · have : ¬ ((2 ^ (k + 1) * q ||| b) % 2 = 1) := by
          rw [Nat.or_mod_two_eq_one]; omega
        omega
      · have : (2 ^ (k + 1) * q ||| b) % 2 = 1 := by
          rw [Nat.or_mod_two_eq_one]; omega
        omega
    omega

theorem or_eq_add_of_lt (k a b : Nat) (ha : a % 2 ^ k = 0) (hb : b < 2 ^ k) :
    a ||| b = a + b := by
  have h : a = 2 ^ k * (a / 2 ^ k) := by
    rw [Nat.mul_div_cancel' (Nat.dvd_of_mod_eq_zero ha)]
  rw [h, or_mul_two_pow_eq_add k _ b hb]

theorem PA2PTE_eq (pa : Nat) : PA2PTE pa = pa / 4096 * 1024 := by
  rw [PA2PTE, Nat.shiftRight_eq_div_pow, Nat.shiftLeft_eq]

theorem PTE2PA_eq (pte : Nat) : PTE2PA pte = pte / 1024 * 4096 := by
  rw [PTE2PA, Nat.shiftRight_eq_div_pow, Nat.shiftLeft_eq]

theorem PTE_FLAGS_eq (pte : Nat) : PTE_FLAGS pte = pte % 1024 := by
  have h : (0x3FF : Nat) = 2 ^ 10 - 1 := by norm_num
  rw [PTE_FLAGS, h, Nat.and_pow_two_sub_one_eq_mod]

/-- The page-table entry built for a page-aligned physical address and flags
below `2^10` is their sum. -/
theorem pte_build_eq (pa f : Nat) (hf : f < 1024) :
    PA2PTE pa ||| f = pa / 4096 * 1024 + f := by
  rw [PA2PTE_eq]
  have h10 : (2 : Nat) ^ 10 = 1024 := by norm_num
  exact or_eq_add_of_lt 10 (pa / 4096 * 1024) f (by rw [h10]; omega) (by rw [h10]; omega)

theorem PTE2PA_build (pa f : Nat) (hpa : pa % PGSIZE = 0) (hf : f < 1024) :
    PTE2PA (PA2PTE pa ||| f) = pa := by
  rw [pte_build_eq pa f hf, PTE2PA_eq]
  simp only [PGSIZE] at hpa
  omega

theorem PTE_FLAGS_build (pa f : Nat) (hf : f < 1024) :
    PTE_FLAGS (PA2PTE pa ||| f) = f := by
  rw [pte_build_eq pa f hf, PTE_FLAGS_eq]
  omega

/-- When no terminator was found, the inner loop ran through all `n` bytes
and decremented `max` exactly `n` times. -/
theorem scanPage_consumed (s : VMState) (pa0 : Nat) :
    ∀ n off, (scanPage s pa0 off n).2.1 = false → (scanPage s pa0 off n).2.2 = n := by
  intro n
  induction n with
  | zero => intro off _; rfl
  | succ n ih =>
    intro off h
    by_cases hb : s.bytes pa0 off = 0
    · simp [scanPage, hb] at h
    · simp only [scanPage, if_neg hb] at h ⊢
      rw [ih (off + 1) h]



@[simp] theorem setPte_ptes (s : VMState) (p i v q j : Nat) :
    (setPte s p i v).ptes q j = if q = p ∧ j = i then v else s.ptes q j := rfl

@[simp] theorem setPte_bytes (s : VMState) (p i v : Nat) :
    (setPte s p i v).bytes = s.bytes := rfl

@[simp] theorem setPte_freeList (s : VMState) (p i v : Nat) :
    (setPte s p i v).freeList = s.freeList := rfl

@[simp] theorem clearPage_ptes (s : VMState) (p q j : Nat) :
    (clearPage s p).ptes q j = if q = p then 0 else s.ptes q j := rfl

@[simp] theorem clearPage_bytes (s : VMState) (p q o : Nat) :
    (clearPage s p).bytes q o = if q = p then 0 else s.bytes q o := rfl

@[simp] theorem clearPage_freeList (s : VMState) (p : Nat) :
    (clearPage s p).freeList = s.freeList := rfl

@[simp] theorem writeBytes_ptes (s : VMState) (p off : Nat) (src : Nat → Nat)
    (srcOff n : Nat) : (writeBytes s p off src srcOff n).ptes = s.ptes := rfl

@[simp] theorem writeBytes_freeList (s : VMState) (p off : Nat) (src : Nat → Nat)
    (srcOff n : Nat) : (writeBytes s p off src srcOff n).freeList = s.freeList := rfl

@[simp] theorem copyPageBytes_ptes (s : VMState) (dst srcPg : Nat) :
    (copyPageBytes s dst srcPg).ptes = s.ptes := rfl

@[simp] theorem copyPageBytes_freeList (s : VMState) (dst srcPg : Nat) :
    (copyPageBytes s dst srcPg).freeList = s.freeList := rfl

@[simp] theorem kfree_ptes (s : VMState) (pa : Nat) : (kfree s pa).ptes = s.ptes := rfl

@[simp] theorem kfree_bytes (s : VMState) (pa : Nat) : (kfree s pa).bytes = s.bytes := rfl

@[simp] theorem kfree_freeList (s : VMState) (pa : Nat) :
    (kfree s pa).freeList = pa :: s.freeList := rfl

/-- `walk` without allocation is a pure read along `pathL0`. -/
theorem walk_false_eq (s : VMState) (pt va : Nat) :
    walk s pt va false =
      if va ≥ MAXVA then .panic
      else .ok ((pathL0 s pt va).map (fun p => (p, PX 0 va)), s) := by
  rw [walk, pathL0]
  by_cases hva : va ≥ MAXVA
  · simp [hva]
  · by_cases h2 : s.ptes pt (PX 2 va) &&& PTE_V = 0
    · simp [hva, walkStep, h2]
    · by_cases h1 : s.ptes (PTE2PA (s.ptes pt (PX 2 va))) (PX 1 va) &&& PTE_V = 0
      · simp [hva, walkStep, h2, h1]
      · simp [hva, walkStep, h2, h1]

/-- `walkaddr` as a pure function of the path entries. -/
theorem walkaddr_eq (s : VMState) (pt va : Nat) :
    walkaddr s pt va =
      if va ≥ MAXVA then 0
      else
        match pathL0 s pt va with
        | none => 0
        | some p =>
          if s.ptes p (PX 0 va) &&& PTE_V = 0 then 0
          else if s.ptes p (PX 0 va) &&& PTE_U = 0 then 0
          else PTE2PA (s.ptes p (PX 0 va)) := by
  rw [walkaddr, walk_false_eq]
  by_cases hva : va ≥ MAXVA
  · simp [hva]
  · simp only [hva, if_false, if_neg hva]
    cases hp : pathL0 s pt va <;> simp

/-- `pathL0` reads only the `ptes` view. -/
theorem pathL0_congr (s t : VMState) (pt va : Nat) (h : s.ptes = t.ptes) :
    pathL0 s pt va = pathL0 t pt va := by
  rw [pathL0, pathL0, h]

theorem pathL0_some_iff (s : VMState) (pt va p : Nat) :
    pathL0 s pt va = some p ↔
      validE (s.ptes pt (PX 2 va)) ∧
      validE (s.ptes (PTE2PA (s.ptes pt (PX 2 va))) (PX 1 va)) ∧
      p = PTE2PA (s.ptes (PTE2PA (s.ptes pt (PX 2 va))) (PX 1 va)) := by
  rw [pathL0, validE, validE]
  by_cases h2 : s.ptes pt (PX 2 va) &&& PTE_V = 0
  · simp [h2]
  · by_cases h1 : s.ptes (PTE2PA (s.ptes pt (PX 2 va))) (PX 1 va) &&& PTE_V = 0
    · simp [h2, h1]
    · simp [h2, h1]
      exact comm

theorem pathL0_none_iff (s : VMState) (pt va : Nat) :
    pathL0 s pt va = none ↔
      ¬ validE (s.ptes pt (PX 2 va)) ∨
      ¬ validE (s.ptes (PTE2PA (s.ptes pt (PX 2 va))) (PX 1 va)) := by
  rw [pathL0, validE, validE]
  by_cases h2 : s.ptes pt (PX 2 va) &&& PTE_V = 0
  · simp [h2]
  · by_cases h1 : s.ptes (PTE2PA (s.ptes pt (PX 2 va))) (PX 1 va) &&& PTE_V = 0
    · simp [h2, h1]
    · simp [h2, h1]

/-- `walkaddr` reads only the `ptes` view. -/
theorem walkaddr_congr (s t : VMState) (pt va : Nat) (h : s.ptes = t.ptes) :
    walkaddr s pt va = walkaddr t pt va := by
  rw [walkaddr_eq, walkaddr_eq, pathL0_congr s t pt va h, h]

/-! ### Arithmetic helpers for page rounding -/

theorem PGSIZE_def : PGSIZE = 4096 := rfl

theorem PGROUNDDOWN_def (a : Nat) : PGROUNDDOWN a = a - a % 4096 := rfl

theorem PGROUNDUP_def (a : Nat) : PGROUNDUP a = (a + 4095) - (a + 4095) % 4096 := rfl

theorem lt_MAXVA_iff (va : Nat) : va < MAXVA ↔ va < 2 ^ 38 := by rw [MAXVA_eq]

/-- The three page-table indices of two addresses below `MAXVA` agree exactly
when the addresses lie on the same virtual page. -/
theorem px_all_eq_iff (va vb : Nat) (ha : va < 2 ^ 38) (hb : vb < 2 ^ 38) :
    (PX 2 va = PX 2 vb ∧ PX 1 va = PX 1 vb ∧ PX 0 va = PX 0 vb) ↔
      va / 4096 = vb / 4096 := by
  rw [PX_eq, PX_eq, PX_eq, PX_eq, PX_eq, PX_eq]
  norm_num
  omega

/-! ### Unfolding equations for the copy layer -/

theorem copyout_zero (s : VMState) (pt dstva : Nat) (src : Nat → Nat) (srcOff : Nat) :
    copyout s pt dstva src srcOff 0 = (0, s) := by
  rw [copyout]
  simp

theorem copyout_step (s : VMState) (pt dstva : Nat) (src : Nat → Nat)
    (srcOff len : Nat) (h : len ≠ 0) :
    copyout s pt dstva src srcOff len =
      if walkaddr s pt (PGROUNDDOWN dstva) = 0 then (-1, s)
      else
        copyout
          (writeBytes s (walkaddr s pt (PGROUNDDOWN dstva)) (dstva - PGROUNDDOWN dstva)
            src srcOff (min (PGSIZE - (dstva - PGROUNDDOWN dstva)) len))
          pt (PGROUNDDOWN dstva + PGSIZE) src
          (srcOff + min (PGSIZE - (dstva - PGROUNDDOWN dstva)) len)
          (len - min (PGSIZE - (dstva - PGROUNDDOWN dstva)) len) := by
  rw [copyout]
  simp [h]

theorem copyin_zero (s : VMState) (pt srcva : Nat) : copyin s pt srcva 0 = (0, []) := by
  rw [copyin]
  simp

theorem copyin_step (s : VMState) (pt srcva len : Nat) (h : len ≠ 0) :
    copyin s pt srcva len =
      if walkaddr s pt (PGROUNDDOWN srcva) = 0 then (-1, [])
      else
        ((copyin s pt (PGROUNDDOWN srcva + PGSIZE)
            (len - min (PGSIZE - (srcva - PGROUNDDOWN srcva)) len)).1,
          (List.range (min (PGSIZE - (srcva - PGROUNDDOWN srcva)) len)).map
            (fun k => s.bytes (walkaddr s pt (PGROUNDDOWN srcva))
              (srcva - PGROUNDDOWN srcva + k)) ++
          (copyin s pt (PGROUNDDOWN srcva + PGSIZE)
            (len - min (PGSIZE - (srcva - PGROUNDDOWN srcva)) len)).2) := by
  rw [copyin]
  simp [h]

theorem copyinstr_zero (s : VMState) (pt srcva : Nat) :
    copyinstr s pt srcva 0 = (-1, []) := by
  rw [copyinstr]
  simp

theorem copyinstr_step (s : VMState) (pt srcva max : Nat) (h : max ≠ 0) :
    copyinstr s pt srcva max =
      if walkaddr s pt (PGROUNDDOWN srcva) = 0 then (-1, [])
      else
        if (scanPage s (walkaddr s pt (PGROUNDDOWN srcva)) (srcva - PGROUNDDOWN srcva)
              (min (PGSIZE - (srcva - PGROUNDDOWN srcva)) max)).2.1 = true then
          (0, (scanPage s (walkaddr s pt (PGROUNDDOWN srcva)) (srcva - PGROUNDDOWN srcva)
              (min (PGSIZE - (srcva - PGROUNDDOWN srcva)) max)).1)
        else
          ((copyinstr s pt (PGROUNDDOWN srcva + PGSIZE)
              (max - (scanPage s (walkaddr s pt (PGROUNDDOWN srcva))
                (srcva - PGROUNDDOWN srcva)
                (min (PGSIZE - (srcva - PGROUNDDOWN srcva)) max)).2.2)).1,
            (scanPage s (walkaddr s pt (PGROUNDDOWN srcva)) (srcva - PGROUNDDOWN srcva)
              (min (PGSIZE - (srcva - PGROUNDDOWN srcva)) max)).1 ++
            (copyinstr s pt (PGROUNDDOWN srcva + PGSIZE)
              (max - (scanPage s (walkaddr s pt (PGROUNDDOWN srcva))
                (srcva - PGROUNDDOWN srcva)
                (min (PGSIZE - (srcva - PGROUNDDOWN srcva)) max)).2.2)).2) := by
  rw [copyinstr]
  simp [h]

/-! ### Claim C9 -/

/-- Claim C9: for every page table and every destination or source virtual
address, `copyout` and `copyin` called with length 0 return success (0)
without touching the table or performing any translation: the state comes
back unchanged and no bytes move. -/
theorem C9_zero_length_copies (s : VMState) (pt dstva srcva : Nat) (src : Nat → Nat)
    (srcOff : Nat) :
    copyout s pt dstva src srcOff 0 = (0, s) ∧ copyin s pt srcva 0 = (0, []) :=
  ⟨copyout_zero s pt dstva src srcOff, copyin_zero s pt srcva⟩

/-! ### Claim C10 -/

/-- Claim C10: for every virtual address at or beyond `MAXVA`, the user-facing
lookup `walkaddr` returns the failure sentinel 0 without reaching `walk`'s
fatal out-of-range abort — while `walk` itself, called directly on such an
address, would panic. -/
theorem C10_walkaddr_out_of_range (s : VMState) (pt va : Nat) (h : MAXVA ≤ va) :
    walkaddr s pt va = 0 ∧ ∀ alloc, walk s pt va alloc = .panic := by
  constructor
  · rw [walkaddr]
    simp [h]
  · intro alloc
    rw [walk]
    simp [h]

theorem C10_witness :
    walkaddr ⟨fun _ _ => 0, fun _ _ => 0, []⟩ 0 MAXVA = 0 ∧
      ∀ alloc, walk ⟨fun _ _ => 0, fun _ _ => 0, []⟩ 0 MAXVA alloc = .panic :=
  C10_walkaddr_out_of_range ⟨fun _ _ => 0, fun _ _ => 0, []⟩ 0 MAXVA (Nat.le_refl _)

/-! ### Failure propagation in the copy layer -/

theorem walkaddr_writeBytes (s : VMState) (p off : Nat) (src : Nat → Nat)
    (srcOff n pt va : Nat) :
    walkaddr (writeBytes s p off src srcOff n) pt va = walkaddr s pt va :=
  walkaddr_congr _ s pt va rfl

/-- If some page of the destination range fails translation, `copyout`
returns -1. -/
theorem copyout_fail (pt b : Nat) (hal : b % PGSIZE = 0) :
    ∀ len (s : VMState) (dstva : Nat) (src : Nat → Nat) (srcOff : Nat),
      walkaddr s pt b = 0 → 0 < len → PGROUNDDOWN dstva ≤ b → b < dstva + len →
      (copyout s pt dstva src srcOff len).1 = -1 := by
  rw [PGSIZE_def] at hal
  intro len
  induction len using Nat.strong_induction_on with
  | _ len ih =>
    intro s dstva src srcOff hb hlen hlb hub
    rw [copyout_step s pt dstva src srcOff len (by omega)]
    by_cases hpa : walkaddr s pt (PGROUNDDOWN dstva) = 0
    · simp [hpa]
    · rw [if_neg hpa]
      have hne : PGROUNDDOWN dstva ≠ b := fun he => hpa (he ▸ hb)
      apply ih
      · simp only [PGSIZE_def, PGROUNDDOWN_def] at hlb hub hne ⊢
        omega
      · rw [walkaddr_writeBytes]
        exact hb
      · simp only [PGSIZE_def, PGROUNDDOWN_def] at hlb hub hne ⊢
        omega
      · simp only [PGSIZE_def, PGROUNDDOWN_def] at hlb hub hne ⊢
        omega
      · simp only [PGSIZE_def, PGROUNDDOWN_def] at hlb hub hne ⊢
        omega

/-- If some page of the source range fails translation, `copyin`
returns -1. -/
theorem copyin_fail (pt b : Nat) (hal : b % PGSIZE = 0) :
    ∀ len (s : VMState) (srcva : Nat),
      walkaddr s pt b = 0 → 0 < len → PGROUNDDOWN srcva ≤ b → b < srcva + len →
      (copyin s pt srcva len).1 = -1 := by
  rw [PGSIZE_def] at hal
  intro len
  induction len using Nat.strong_induction_on with
  | _ len ih =>
    intro s srcva hb hlen hlb hub
    rw [copyin_step s pt srcva len (by omega)]
    by_cases hpa : walkaddr s pt (PGROUNDDOWN srcva) = 0
    · simp [hpa]
    · rw [if_neg hpa]
      have hne : PGROUNDDOWN srcva ≠ b := fun he => hpa (he ▸ hb)
      simp only []
      apply ih
      · simp only [PGSIZE_def, PGROUNDDOWN_def] at hlb hub hne ⊢
        omega
      · exact hb
      · simp only [PGSIZE_def, PGROUNDDOWN_def] at hlb hub hne ⊢
        omega
      · simp only [PGSIZE_def, PGROUNDDOWN_def] at hlb hub hne ⊢
        omega
      · simp only [PGSIZE_def, PGROUNDDOWN_def] at hlb hub hne ⊢
        omega

/-- Mapping over `range (n+1)` splits off the head. -/
theorem map_range_succ (f : Nat → Nat) (n : Nat) :
    (List.range (n + 1)).map f = f 0 :: (List.range n).map (fun m => f (m + 1)) := by
  rw [List.range_succ_eq_map, List.map_cons, List.map_map]
  exact rfl

/-- A page scan over bytes that are all nonzero copies them all, finds no
terminator, and consumes its whole budget. -/
theorem scanPage_all_nonzero (s : VMState) (pa0 : Nat) :
    ∀ n off, (∀ m, m < n → s.bytes pa0 (off + m) ≠ 0) →
      scanPage s pa0 off n =
        ((List.range n).map (fun m => s.bytes pa0 (off + m)), false, n) := by
  intro n
  induction n with
  | zero => intro off _; rfl
  | succ n ih =>
    intro off hnz
    have h0 : s.bytes pa0 off ≠ 0 := by
      have := hnz 0 (by omega)
      simpa using this
    have ihh := ih (off + 1) (fun m hm => by
      have := hnz (m + 1) (by omega)
      have e : off + (m + 1) = off + 1 + m := by omega
      rw [e] at this
      exact this)
    have efun : (fun m => s.bytes pa0 (off + 1 + m)) =
        (fun m => s.bytes pa0 (off + (m + 1))) := by
      funext m
      congr 1
      omega
    simp only [scanPage, if_neg h0, ihh, efun, map_range_succ, Nat.add_zero]

/-- A page scan that reaches a zero byte at relative position `t` copies the
`t` preceding bytes plus the terminator, reports `got_null`, and consumes
only `t` budget. -/
theorem scanPage_finds_null (s : VMState) (pa0 : Nat) :
    ∀ n t off, t < n → (∀ m, m < t → s.bytes pa0 (off + m) ≠ 0) →
      s.bytes pa0 (off + t) = 0 →
      scanPage s pa0 off n =
        ((List.range t).map (fun m => s.bytes pa0 (off + m)) ++ [0], true, t) := by
  intro n
  induction n with
  | zero => intro t off ht _ _; omega
  | succ n ih =>
    intro t off ht hnz h0
    cases t with
    | zero =>
      simp only [Nat.add_zero] at h0
      simp [scanPage, h0]
    | succ t' =>
      have hb : s.bytes pa0 off ≠ 0 := by
        have := hnz 0 (by omega)
        simpa using this
      have ihh := ih t' (off + 1) (by omega)
        (fun m hm => by
          have := hnz (m + 1) (by omega)
          have e : off + (m + 1) = off + 1 + m := by omega
          rw [e] at this
          exact this)
        (by
          have e : off + (t' + 1) = off + 1 + t' := by omega
          rw [e] at h0
          exact h0)
      have efun : (fun m => s.bytes pa0 (off + 1 + m)) =
          (fun m => s.bytes pa0 (off + (m + 1))) := by
        funext m
        congr 1
        omega
      simp only [scanPage, if_neg hb, ihh, efun, map_range_succ, List.cons_append, Nat.add_zero]

/-- If the scan reaches a page that fails translation before any terminator,
`copyinstr` returns -1. -/
theorem copyinstr_fail (pt b : Nat) (hal : b % PGSIZE = 0) :
    ∀ max (s : VMState) (srcva : Nat),
      walkaddr s pt b = 0 → 0 < max → PGROUNDDOWN srcva ≤ b → b < srcva + max →
      (∀ va', srcva ≤ va' → va' < b →
        s.bytes (walkaddr s pt (PGROUNDDOWN va')) (va' % PGSIZE) ≠ 0) →
      (copyinstr s pt srcva max).1 = -1 := by
  rw [PGSIZE_def] at hal
  intro max
  induction max using Nat.strong_induction_on with
  | _ max ih =>
    intro s srcva hb hmax hlb hub hnz
    rw [copyinstr_step s pt srcva max (by omega)]
    by_cases hpa : walkaddr s pt (PGROUNDDOWN srcva) = 0
    · simp [hpa]
    · rw [if_neg hpa]
      have hne : PGROUNDDOWN srcva ≠ b := fun he => hpa (he ▸ hb)
      have hstep : PGROUNDDOWN srcva + 4096 ≤ b := by
        simp only [PGROUNDDOWN_def] at hne hlb ⊢
        omega
      have hscan := scanPage_all_nonzero s (walkaddr s pt (PGROUNDDOWN srcva))
        (min (PGSIZE - (srcva - PGROUNDDOWN srcva)) max) (srcva - PGROUNDDOWN srcva)
        (fun m hm => by
          simp only [PGSIZE_def, PGROUNDDOWN_def] at hm
          have e1 : PGROUNDDOWN (srcva + m) = PGROUNDDOWN srcva := by
            simp only [PGROUNDDOWN_def]
            omega
          have e2 : (srcva + m) % PGSIZE = srcva - PGROUNDDOWN srcva + m := by
            simp only [PGSIZE_def, PGROUNDDOWN_def]
            omega
          have hva' : srcva + m < b := by
            simp only [PGROUNDDOWN_def] at hstep
            omega
          have := hnz (srcva + m) (by omega) hva'
          rw [e1, e2] at this
          exact this)
      rw [hscan]
      simp only [Bool.false_eq_true, if_false]
      apply ih
      · simp only [PGSIZE_def, PGROUNDDOWN_def] at hlb hub hne ⊢
        omega
      · exact hb
      · simp only [PGSIZE_def, PGROUNDDOWN_def] at hlb hub hne ⊢
        omega
      · simp only [PGSIZE_def, PGROUNDDOWN_def] at hstep ⊢
        omega
      · simp only [PGSIZE_def, PGROUNDDOWN_def] at hlb hub hne ⊢
        omega
      · intro va' h1 h2
        refine hnz va' ?_ h2
        simp only [PGSIZE_def, PGROUNDDOWN_def] at h1
        omega

/-! ### Claim C1 -/

/-- Claim C1: a leaf entry that is valid but lacks the user-accessible flag
behaves exactly like an unmapped page at this layer: the user-facing lookup
`walkaddr` of its page returns the failure sentinel 0, and each of
`copyout`, `copyin` and `copyinstr` returns -1 whenever its transfer
touches that page (for `copyinstr`, whenever neither a terminator nor the
`max` budget stops the scan before the page is reached). -/
theorem C1_non_user_leaf (s : VMState) (pt b p : Nat)
    (hal : b % PGSIZE = 0)
    (hpath : pathL0 s pt b = some p)
    (hV : s.ptes p (PX 0 b) &&& PTE_V ≠ 0)
    (hU : s.ptes p (PX 0 b) &&& PTE_U = 0) :
    walkaddr s pt b = 0
    ∧ (∀ (dstva : Nat) (src : Nat → Nat) (srcOff len : Nat),
        0 < len → PGROUNDDOWN dstva ≤ b → b < dstva + len →
        (copyout s pt dstva src srcOff len).1 = -1)
    ∧ (∀ srcva len, 0 < len → PGROUNDDOWN srcva ≤ b → b < srcva + len →
        (copyin s pt srcva len).1 = -1)
    ∧ (∀ srcva mx, 0 < mx → PGROUNDDOWN srcva ≤ b → b < srcva + mx →
        (∀ va', srcva ≤ va' → va' < b →
          s.bytes (walkaddr s pt (PGROUNDDOWN va')) (va' % PGSIZE) ≠ 0) →
        (copyinstr s pt srcva mx).1 = -1) := by
  have hwb : walkaddr s pt b = 0 := by
    rw [walkaddr_eq]
    by_cases hm : b ≥ MAXVA
    · rw [if_pos hm]
    · rw [if_neg hm, hpath]
      simp [hV, hU]
  refine ⟨hwb, ?_, ?_, ?_⟩
  · intro dstva src srcOff len h1 h2 h3
    exact copyout_fail pt b hal len s dstva src srcOff hwb h1 h2 h3
  · intro srcva len h1 h2 h3
    exact copyin_fail pt b hal len s srcva hwb h1 h2 h3
  · intro srcva mx h1 h2 h3 h4
    exact copyinstr_fail pt b hal mx s srcva hwb h1 h2 h3 h4

theorem C1_witness :
    walkaddr C1state 4096 0 = 0
    ∧ (∀ (dstva : Nat) (src : Nat → Nat) (srcOff len : Nat),
        0 < len → PGROUNDDOWN dstva ≤ 0 → 0 < dstva + len →
        (copyout C1state 4096 dstva src srcOff len).1 = -1)
    ∧ (∀ srcva len, 0 < len → PGROUNDDOWN srcva ≤ 0 → 0 < srcva + len →
        (copyin C1state 4096 srcva len).1 = -1)
    ∧ (∀ srcva mx, 0 < mx → PGROUNDDOWN srcva ≤ 0 → 0 < srcva + mx →
        (∀ va', srcva ≤ va' → va' < 0 →
          C1state.bytes (walkaddr C1state 4096 (PGROUNDDOWN va')) (va' % PGSIZE) ≠ 0) →
        (copyinstr C1state 4096 srcva mx).1 = -1) :=
  C1_non_user_leaf C1state 4096 0 12288 (by decide) (by decide) (by decide) (by decide)

/-! ### `copyinstr` functional correctness -/

/-- With every page of the string mapped, all its bytes nonzero, and a
terminator right after, `copyinstr` with budget `mx > L` stops at the
terminator, writes it, and returns success with exactly the string's bytes
plus the terminator. -/
theorem copyinstr_success (pt : Nat) :
    ∀ mx (s : VMState) (srcva L : Nat),
      (∀ va', srcva ≤ va' → va' ≤ srcva + L → walkaddr s pt (PGROUNDDOWN va') ≠ 0) →
      (∀ m, m < L → userByte s pt (srcva + m) ≠ 0) →
      userByte s pt (srcva + L) = 0 →
      L < mx →
      copyinstr s pt srcva mx =
        (0, (List.range L).map (fun m => userByte s pt (srcva + m)) ++ [0]) := by
  intro mx
  induction mx using Nat.strong_induction_on with
  | _ mx ih =>
    intro s srcva L hmap hnz hterm hL
    rw [copyinstr_step s pt srcva mx (by omega)]
    have hpa : ¬ walkaddr s pt (PGROUNDDOWN srcva) = 0 :=
      hmap srcva (Nat.le_refl _) (by omega)
    rw [if_neg hpa]
    have hoff : srcva - PGROUNDDOWN srcva = srcva % 4096 := by
      simp only [PGROUNDDOWN_def]
      omega
    by_cases hA : L < 4096 - srcva % 4096
    · -- terminator lies in the current page's window
      have hscan := scanPage_finds_null s (walkaddr s pt (PGROUNDDOWN srcva))
        (min (PGSIZE - (srcva - PGROUNDDOWN srcva)) mx) L (srcva - PGROUNDDOWN srcva)
        (by simp only [PGSIZE_def, PGROUNDDOWN_def]; omega)
        (fun m hm => by
          have e1 : PGROUNDDOWN (srcva + m) = PGROUNDDOWN srcva := by
            simp only [PGROUNDDOWN_def]
            omega
          have e2 : (srcva + m) % PGSIZE = srcva - PGROUNDDOWN srcva + m := by
            simp only [PGSIZE_def, PGROUNDDOWN_def]
            omega
          have := hnz m hm
          rw [userByte, e1, e2] at this
          exact this)
        (by
          have e1 : PGROUNDDOWN (srcva + L) = PGROUNDDOWN srcva := by
            simp only [PGROUNDDOWN_def]
            omega
          have e2 : (srcva + L) % PGSIZE = srcva - PGROUNDDOWN srcva + L := by
            simp only [PGSIZE_def, PGROUNDDOWN_def]
            omega
          rw [userByte, e1, e2] at hterm
          exact hterm)
      rw [hscan]
      simp only [eq_self_iff_true, if_true]
      congr 1
      congr 1
      apply List.map_congr_left
      intro m hm
      rw [List.mem_range] at hm
      simp only [userByte]
      congr 1
      · congr 1
        simp only [PGROUNDDOWN_def]
        omega
      · simp only [PGSIZE_def, PGROUNDDOWN_def]
        omega
    · -- the string continues past this page
      have hn : min (PGSIZE - (srcva - PGROUNDDOWN srcva)) mx = 4096 - srcva % 4096 := by
        simp only [PGSIZE_def, PGROUNDDOWN_def]
        omega
      have hscan := scanPage_all_nonzero s (walkaddr s pt (PGROUNDDOWN srcva))
        (min (PGSIZE - (srcva - PGROUNDDOWN srcva)) mx) (srcva - PGROUNDDOWN srcva)
        (fun m hm => by
          rw [hn] at hm
          have e1 : PGROUNDDOWN (srcva + m) = PGROUNDDOWN srcva := by
            simp only [PGROUNDDOWN_def]
            omega
          have e2 : (srcva + m) % PGSIZE = srcva - PGROUNDDOWN srcva + m := by
            simp only [PGSIZE_def, PGROUNDDOWN_def]
            omega
          have := hnz m (by omega)
          rw [userByte, e1, e2] at this
          exact this)
      rw [hscan]
      simp only [Bool.false_eq_true, if_false]
      have esrc : PGROUNDDOWN srcva + PGSIZE = srcva + (4096 - srcva % 4096) := by
        simp only [PGSIZE_def, PGROUNDDOWN_def]
        omega
      have hmap' : ∀ va', PGROUNDDOWN srcva + PGSIZE ≤ va' →
          va' ≤ PGROUNDDOWN srcva + PGSIZE + (L - (4096 - srcva % 4096)) →
          walkaddr s pt (PGROUNDDOWN va') ≠ 0 := by
        intro va' h1 h2
        rw [esrc] at h1 h2
        exact hmap va' (by omega) (by omega)
      have hnz' : ∀ m, m < L - (4096 - srcva % 4096) →
          userByte s pt (PGROUNDDOWN srcva + PGSIZE + m) ≠ 0 := by
        intro m hm
        have e : PGROUNDDOWN srcva + PGSIZE + m = srcva + ((4096 - srcva % 4096) + m) := by
          rw [esrc]
          omega
        rw [e]
        exact hnz _ (by omega)
      have hterm' : userByte s pt
          (PGROUNDDOWN srcva + PGSIZE + (L - (4096 - srcva % 4096))) = 0 := by
        have e : PGROUNDDOWN srcva + PGSIZE + (L - (4096 - srcva % 4096)) = srcva + L := by
          rw [esrc]
          omega
        rw [e]
        exact hterm
      rw [hn, ih (mx - (4096 - srcva % 4096)) (by omega) s (PGROUNDDOWN srcva + PGSIZE)
        (L - (4096 - srcva % 4096)) hmap' hnz' hterm' (by omega)]
      congr 1
      conv_rhs =>
        rw [show L = (4096 - srcva % 4096) + (L - (4096 - srcva % 4096)) from by omega,
          List.range_add, List.map_append, List.append_assoc]
      congr 1
      · -- the chunk scanned from this page
        apply List.map_congr_left
        intro m hm
        rw [List.mem_range] at hm
        simp only [userByte]
        congr 1
        · congr 1
          simp only [PGROUNDDOWN_def]
          omega
        · simp only [PGSIZE_def, PGROUNDDOWN_def]
          omega
      · dsimp only
        congr 1
        rw [List.map_map]
        apply List.map_congr_left
        intro m hm
        simp only [Function.comp_apply]
        congr 1
        rw [esrc]
        omega

/-- With every byte of the scan nonzero and the pages mapped, a budget of at
most the string length runs out before any terminator: failure. -/
theorem copyinstr_exhaust (pt : Nat) :
    ∀ mx (s : VMState) (srcva L : Nat),
      (∀ va', srcva ≤ va' → va' ≤ srcva + L → walkaddr s pt (PGROUNDDOWN va') ≠ 0) →
      (∀ m, m < L → userByte s pt (srcva + m) ≠ 0) →
      0 < mx → mx ≤ L →
      (copyinstr s pt srcva mx).1 = -1 := by
  intro mx
  induction mx using Nat.strong_induction_on with
  | _ mx ih =>
    intro s srcva L hmap hnz hmx hmxL
    rw [copyinstr_step s pt srcva mx (by omega)]
    have hpa : ¬ walkaddr s pt (PGROUNDDOWN srcva) = 0 :=
      hmap srcva (Nat.le_refl _) (by omega)
    rw [if_neg hpa]
    have hscan := scanPage_all_nonzero s (walkaddr s pt (PGROUNDDOWN srcva))
      (min (PGSIZE - (srcva - PGROUNDDOWN srcva)) mx) (srcva - PGROUNDDOWN srcva)
      (fun m hm => by
        simp only [PGSIZE_def, PGROUNDDOWN_def] at hm
        have e1 : PGROUNDDOWN (srcva + m) = PGROUNDDOWN srcva := by
          simp only [PGROUNDDOWN_def]
          omega
        have e2 : (srcva + m) % PGSIZE = srcva - PGROUNDDOWN srcva + m := by
          simp only [PGSIZE_def, PGROUNDDOWN_def]
          omega
        have := hnz m (by omega)
        rw [userByte, e1, e2] at this
        exact this)
    rw [hscan]
    simp only [Bool.false_eq_true, if_false]
    by_cases hend : mx ≤ PGSIZE - (srcva - PGROUNDDOWN srcva)
    · -- the budget runs out inside this page
      have hn : min (PGSIZE - (srcva - PGROUNDDOWN srcva)) mx = mx := by omega
      rw [hn, Nat.sub_self, copyinstr_zero]
    · -- continue on the next page with a smaller budget
      have hn : min (PGSIZE - (srcva - PGROUNDDOWN srcva)) mx =
          PGSIZE - (srcva - PGROUNDDOWN srcva) := by omega
      rw [hn]
      have esrc : PGROUNDDOWN srcva + PGSIZE =
          srcva + (PGSIZE - (srcva - PGROUNDDOWN srcva)) := by
        simp only [PGSIZE_def, PGROUNDDOWN_def]
        omega
      refine ih (mx - (PGSIZE - (srcva - PGROUNDDOWN srcva)))
        (by simp only [PGSIZE_def, PGROUNDDOWN_def]; omega) s _
        (L - (PGSIZE - (srcva - PGROUNDDOWN srcva))) ?_ ?_ ?_ ?_
      · intro va' h1 h2
        rw [esrc] at h1 h2
        exact hmap va' (by omega) (by omega)
      · intro m hm
        have e : PGROUNDDOWN srcva + PGSIZE + m =
            srcva + ((PGSIZE - (srcva - PGROUNDDOWN srcva)) + m) := by
          rw [esrc]
          omega
        rw [e]
        refine hnz _ ?_
        simp only [PGSIZE_def, PGROUNDDOWN_def] at hm ⊢
        omega
      · simp only [PGSIZE_def, PGROUNDDOWN_def] at hend ⊢
        omega
      · simp only [PGSIZE_def, PGROUNDDOWN_def] at hmxL ⊢
        omega

/-! ### Claim C6 -/

/-- Claim C6: `copyinstr` stops the instant it reads a zero byte, writes the
terminator into the destination, and returns success — including when the
string spans a page boundary (the statement places no alignment constraint
on `srcva`); it returns -1 when the budget `mx` is exhausted before a
terminator (in particular when `mx` equals the string length); and,
independently of any terminator or mapping assumption, it returns -1 when it
reaches a page-aligned address `b` whose page is unmapped (`walkaddr` reads
`0`) before any zero byte appears. -/
theorem C6_copyinstr (s : VMState) (pt srcva L : Nat) :
    ((∀ va', srcva ≤ va' → va' ≤ srcva + L →
        walkaddr s pt (PGROUNDDOWN va') ≠ 0) →
     (∀ m, m < L → userByte s pt (srcva + m) ≠ 0) →
     userByte s pt (srcva + L) = 0 →
     (∀ mx, L < mx → copyinstr s pt srcva mx =
         (0, (List.range L).map (fun m => userByte s pt (srcva + m)) ++ [0]))
     ∧ (∀ mx, 0 < mx → mx ≤ L → (copyinstr s pt srcva mx).1 = -1))
    ∧ (∀ b mx, b % PGSIZE = 0 → walkaddr s pt b = 0 → 0 < mx →
        PGROUNDDOWN srcva ≤ b → b < srcva + mx →
        (∀ va', srcva ≤ va' → va' < b → userByte s pt va' ≠ 0) →
        (copyinstr s pt srcva mx).1 = -1) := by
  refine ⟨?_, ?_⟩
  · intro hmap hnz hterm
    refine ⟨?_, ?_⟩
    · intro mx hmx
      exact copyinstr_success pt mx s srcva L hmap hnz hterm hmx
    · intro mx h1 h2
      exact copyinstr_exhaust pt mx s srcva L hmap hnz h1 h2
  · intro b mx hb1 hb2 h1 h2 h3 h4
    refine copyinstr_fail pt b hb1 mx s srcva hb2 h1 h2 h3 ?_
    intro va' hv1 hv2
    exact h4 va' hv1 hv2

theorem C6_witness :
    ((∀ mx, 5 < mx → copyinstr C6state 4096 4093 mx =
        (0, (List.range 5).map (fun m => userByte C6state 4096 (4093 + m)) ++ [0]))
      ∧ (∀ mx, 0 < mx → mx ≤ 5 → (copyinstr C6state 4096 4093 mx).1 = -1))
    ∧ (copyinstr C6state 4096 8192 1).1 = -1 := by
  refine ⟨(C6_copyinstr C6state 4096 4093 5).1 (by decide) (by decide)
    (by decide), ?_⟩
  exact (C6_copyinstr C6state 4096 8192 0).2 8192 1 (by decide) (by decide)
    (by decide) (by decide) (by decide)
    (fun va' hv1 hv2 => absurd hv1 (by omega))

/-! ### Entry arithmetic -/

theorem validE_iff (e : Nat) : validE e ↔ e % 2 = 1 := by
  rw [validE, PTE_V, Nat.and_one_is_mod]
  omega

theorem internE_iff (e : Nat) : internE e ↔ e % 16 < 2 := by
  have h14 : (PTE_R ||| PTE_W ||| PTE_X : Nat) = 14 := by decide
  have h1514 : (14 : Nat) = 15 &&& 14 := by decide
  have h15 : (15 : Nat) = 2 ^ 4 - 1 := by norm_num
  rw [internE, h14, h1514, ← Nat.and_assoc, h15, Nat.and_pow_two_sub_one_eq_mod]
  have h16 : (2 : Nat) ^ 4 = 16 := by norm_num
  rw [h16]
  have hr : e % 16 < 16 := Nat.mod_lt e (by norm_num)
  interval_cases h : e % 16 <;> decide

/-- The internal-node entry the allocator path of `walk` installs. -/
theorem intern_entry_facts (pg : Nat) (hal : pg % PGSIZE = 0) :
    validE (PA2PTE pg ||| PTE_V) ∧ internE (PA2PTE pg ||| PTE_V) ∧
      PTE2PA (PA2PTE pg ||| PTE_V) = pg ∧ PTE_FLAGS (PA2PTE pg ||| PTE_V) = PTE_V := by
  have hb := pte_build_eq pg 1 (by norm_num)
  rw [PTE_V]
  refine ⟨?_, ?_, ?_, ?_⟩
  · rw [validE_iff, hb]
    omega
  · rw [internE_iff, hb]
    omega
  · exact PTE2PA_build pg 1 hal (by norm_num)
  · rw [PTE_FLAGS_build pg 1 (by norm_num)]

/-- The leaf entry `mappages` installs. -/
theorem leaf_entry_facts (pa perm : Nat) (hal : pa % PGSIZE = 0) (hperm : perm < 1024) :
    PA2PTE pa ||| perm ||| PTE_V = PA2PTE pa ||| (perm ||| PTE_V) ∧
      perm ||| PTE_V < 1024 ∧
      validE (PA2PTE pa ||| perm ||| PTE_V) ∧
      PTE2PA (PA2PTE pa ||| perm ||| PTE_V) = pa ∧
      PTE_FLAGS (PA2PTE pa ||| perm ||| PTE_V) = perm ||| PTE_V := by
  have hassoc : PA2PTE pa ||| perm ||| PTE_V = PA2PTE pa ||| (perm ||| PTE_V) :=
    Nat.or_assoc _ _ _
  have hlt : perm ||| PTE_V < 1024 := by
    have h10 : (1024 : Nat) = 2 ^ 10 := by norm_num
    rw [PTE_V, h10]
    exact Nat.or_lt_two_pow (by omega) (by norm_num)
  refine ⟨hassoc, hlt, ?_, ?_, ?_⟩
  · rw [hassoc, validE_iff, pte_build_eq pa _ hlt, PTE_V]
    have : (perm ||| 1) % 2 = 1 := by
      rw [Nat.or_mod_two_eq_one]
      omega
    omega
  · rw [hassoc]
    exact PTE2PA_build pa _ hal hlt
  · rw [hassoc]
    exact PTE_FLAGS_build pa _ hlt

/-! ### The `Grows` relation -/

theorem Grows.rfl (s : VMState) (pt : Nat) (hwf : WF s pt) : Grows s s pt where
  wf := hwf
  drop := ⟨0, Eq.symm (List.drop_zero _)⟩
  tblMono := fun _ h => h
  tblGrow := fun _ h => Or.inl h
  ptesOut := fun _ _ _ _ => Eq.refl _
  bytesOut := fun _ _ _ => Eq.refl _
  validPres := fun _ _ _ _ => Eq.refl _
  l0Pres := fun _ _ _ => Eq.refl _
  writeIntern := fun _ _ _ h => absurd (Eq.refl _) h
  newClean := fun _ hq hq' _ => absurd (fun h => h) (fun h => hq' (h hq))
  newL0Zero := fun q hq hq' _ =>
    absurd (Or.inr (Or.inr hq)) hq'
  pathPres := fun _ _ h => h
  waPres := fun _ => Eq.refl _
  flAcct := fun _ h => Or.inl h

theorem Grows.trans (s t u : VMState) (pt : Nat) (hwfs : WF s pt)
    (g1 : Grows s t pt) (g2 : Grows t u pt) : Grows s u pt := by
  obtain ⟨m1, hm1⟩ := g1.drop
  obtain ⟨m2, hm2⟩ := g2.drop
  have hsubt : ∀ q, q ∈ t.freeList → q ∈ s.freeList := by
    intro q hq
    rw [hm1] at hq
    exact List.drop_subset _ _ hq
  have hsubu : ∀ q, q ∈ u.freeList → q ∈ t.freeList := by
    intro q hq
    rw [hm2] at hq
    exact List.drop_subset _ _ hq
  have hl0 : ∀ q, (∃ i j, i < 512 ∧ j < 512 ∧ validE (s.ptes pt i) ∧
      validE (s.ptes (PTE2PA (s.ptes pt i)) j) ∧
      q = PTE2PA (s.ptes (PTE2PA (s.ptes pt i)) j)) →
      (∃ i j, i < 512 ∧ j < 512 ∧ validE (t.ptes pt i) ∧
      validE (t.ptes (PTE2PA (t.ptes pt i)) j) ∧
      q = PTE2PA (t.ptes (PTE2PA (t.ptes pt i)) j)) := by
    rintro q ⟨i, j, hi, hj, hv2, hv1, hq⟩
    have e2 : t.ptes pt i = s.ptes pt i :=
      g1.validPres pt i (Or.inl (Eq.refl _)) hv2
    have htbl1 : Tbls s pt (PTE2PA (s.ptes pt i)) :=
      Or.inr (Or.inl ⟨i, hi, hv2, Eq.refl _⟩)
    have e1 : t.ptes (PTE2PA (s.ptes pt i)) j = s.ptes (PTE2PA (s.ptes pt i)) j :=
      g1.validPres _ j htbl1 hv1
    exact ⟨i, j, hi, hj, by rw [e2]; exact hv2, by rw [e2, e1]; exact hv1,
      by rw [e2, e1]; exact hq⟩
  exact {
    wf := g2.wf
    drop := ⟨m2 + m1, by rw [hm2, hm1, List.drop_drop]; rw [Nat.add_comm]⟩
    tblMono := fun q h => g2.tblMono q (g1.tblMono q h)
    tblGrow := by
      intro q h
      rcases g2.tblGrow q h with h2 | ⟨h2a, h2b⟩
      · rcases g1.tblGrow q h2 with h1 | ⟨h1a, h1b⟩
        · exact Or.inl h1
        · exact Or.inr ⟨h1a, fun hc => h1b (hsubu q hc)⟩
      · exact Or.inr ⟨hsubt q h2a, h2b⟩
    ptesOut := by
      intro q hq1 hq2 j
      have hq1' : ¬ Tbls t pt q := by
        intro hc
        rcases g1.tblGrow q hc with hx | ⟨hx, _⟩
        · exact hq1 hx
        · exact hq2 hx
      rw [g2.ptesOut q hq1' (fun hc => hq2 (hsubt q hc)) j,
        g1.ptesOut q hq1 hq2 j]
    bytesOut := by
      intro q hq o
      rw [g2.bytesOut q (fun hc => hq (hsubt q hc)) o, g1.bytesOut q hq o]
    validPres := by
      intro q j hq hv
      have e1 := g1.validPres q j hq hv
      have := g2.validPres q j (g1.tblMono q hq) (by rw [e1]; exact hv)
      rw [this, e1]
    l0Pres := by
      intro q hq jj
      rw [g2.l0Pres q (hl0 q hq) jj, g1.l0Pres q hq jj]
    writeIntern := by
      intro q j hq hne
      by_cases he : u.ptes q j = t.ptes q j
      · rw [he]
        rw [he] at hne
        exact g1.writeIntern q j hq hne
      · exact g2.writeIntern q j (g1.tblMono q hq) he
    newClean := by
      intro q hq hq' j
      by_cases ht : Tbls t pt q
      · by_cases he : u.ptes q j = t.ptes q j
        · rw [he]
          exact g1.newClean q ht hq' j
        · exact Or.inr (g2.writeIntern q j ht he)
      · exact g2.newClean q hq ht j
    newL0Zero := by
      rintro q ⟨i, j, hi, hj, hv2u, hv1u, hqu⟩ hq' jj
      by_cases ht : Tbls t pt q
      · have hql0t : ∃ i' j', i' < 512 ∧ j' < 512 ∧ validE (t.ptes pt i') ∧
            validE (t.ptes (PTE2PA (t.ptes pt i')) j') ∧
            q = PTE2PA (t.ptes (PTE2PA (t.ptes pt i')) j') := by
          rcases ht with hroot | ⟨i', hi', hvt', hq'eq⟩ | hl0t
          · exact absurd (hqu.symm.trans hroot)
              (g2.wf.ne_root_l0 i j hi hj hv2u hv1u)
          · have e : u.ptes pt i' = t.ptes pt i' :=
              g2.validPres pt i' (Or.inl (Eq.refl _)) hvt'
            have h2 : q = PTE2PA (u.ptes pt i') := by rw [e]; exact hq'eq
            have hvu' : validE (u.ptes pt i') := by rw [e]; exact hvt'
            exact absurd (hqu.symm.trans h2)
              (g2.wf.ne_l1_l0 i j i' hi hj hi' hv2u hv1u hvu')
          · exact hl0t
        have hz : ∀ jj, t.ptes q jj = 0 := g1.newL0Zero q hql0t hq'
        rw [g2.l0Pres q hql0t jj, hz jj]
      · exact g2.newL0Zero q ⟨i, j, hi, hj, hv2u, hv1u, hqu⟩ ht jj
    pathPres := fun va' p h => g2.pathPres va' p (g1.pathPres va' p h)
    waPres := fun va' => (g2.waPres va').trans (g1.waPres va')
    flAcct := by
      intro q hq
      rcases g1.flAcct q hq with h | h | h
      · exact g2.flAcct q h
      · exact Or.inr (Or.inl (g2.tblMono q h))
      · exact Or.inr (Or.inr h)
  }

/-- Popping free pages alone (no table writes) also `Grows`. -/
theorem Grows.pop (s : VMState) (pt : Nat) (hwf : WF s pt) (m : Nat)
    (hz : ∀ q, q ∈ List.take m s.freeList → q = 0) :
    Grows s { s with freeList := List.drop m s.freeList } pt := by
  have hsub : ∀ q, q ∈ List.drop m s.freeList → q ∈ s.freeList :=
    fun q hq => List.drop_subset _ _ hq
  have htbl : ∀ q, Tbls { s with freeList := List.drop m s.freeList } pt q ↔ Tbls s pt q := by
    intro q
    exact Iff.rfl
  exact {
    wf := {
      root_good := hwf.root_good
      l2_intern := hwf.l2_intern
      l2_good := hwf.l2_good
      l1_intern := hwf.l1_intern
      l1_good := hwf.l1_good
      ne_root_l1 := hwf.ne_root_l1
      ne_root_l0 := hwf.ne_root_l0
      ne_l1_l0 := hwf.ne_l1_l0
      inj_l1 := hwf.inj_l1
      inj_l0 := hwf.inj_l0
      fr_nodup := List.Nodup.sublist (List.drop_sublist m _) hwf.fr_nodup
      fr_good := fun q hq => hwf.fr_good q (hsub q hq)
      fr_not_tbl := fun q hq => hwf.fr_not_tbl q (hsub q hq)
    }
    drop := ⟨m, Eq.refl _⟩
    tblMono := fun _ h => h
    tblGrow := fun _ h => Or.inl h
    ptesOut := fun _ _ _ _ => Eq.refl _
    bytesOut := fun _ _ _ => Eq.refl _
    validPres := fun _ _ _ _ => Eq.refl _
    l0Pres := fun _ _ _ => Eq.refl _
    writeIntern := fun _ _ _ h => absurd (Eq.refl _) h
    newClean := fun q hq hq' _ => absurd hq hq'
    newL0Zero := fun q hq hq' _ => absurd (Or.inr (Or.inr hq)) hq'
    pathPres := fun va' p h => by
      rw [pathL0_congr { s with freeList := List.drop m s.freeList } s pt va' (Eq.refl _)]
      exact h
    waPres := fun va' =>
      walkaddr_congr { s with freeList := List.drop m s.freeList } s pt va' (Eq.refl _)
    flAcct := by
      intro q hq
      have hq' : q ∈ List.take m s.freeList ++ List.drop m s.freeList := by
        rw [List.take_append_drop]
        exact hq
      rcases List.mem_append.mp hq' with h | h
      · exact Or.inr (Or.inr (hz q h))
      · exact Or.inl h
  }

/-! ### `walk`'s allocator steps -/

theorem Tbls_root (s : VMState) (pt : Nat) : Tbls s pt pt := Or.inl (Eq.refl _)

/-- Installing a fresh zeroed page as an internal node into a level-1 table
(the level-1 allocation case of `walk`). -/
theorem install_l1 (s : VMState) (pt va pg : Nat) (rest : List Nat) (t : VMState)
    (hwf : WF s pt)
    (hfl : s.freeList = pg :: rest) (hpg : pg ≠ 0)
    (hv2 : validE (s.ptes pt (PX 2 va)))
    (hv1 : ¬ validE (s.ptes (PTE2PA (s.ptes pt (PX 2 va))) (PX 1 va)))
    (ht : t = setPte (clearPage { s with freeList := rest } pg)
      (PTE2PA (s.ptes pt (PX 2 va))) (PX 1 va) (PA2PTE pg ||| PTE_V)) :
    Grows s t pt ∧ pathL0 t pt va = some pg ∧ (∀ j, t.ptes pg j = 0) ∧
      t.freeList = rest := by
  have hpx2 : PX 2 va < 512 := PX_lt 2 va
  have hpx1 : PX 1 va < 512 := PX_lt 1 va
  have hpgfree : pg ∈ s.freeList := by
    rw [hfl]
    exact List.mem_cons_self _ _
  have hpgal : pg % PGSIZE = 0 := hwf.fr_good pg hpgfree
  have hpgntbl : ¬ Tbls s pt pg := hwf.fr_not_tbl pg hpgfree
  have hrest_sub : ∀ q, q ∈ rest → q ∈ s.freeList := by
    intro q hq
    rw [hfl]
    exact List.mem_cons_of_mem _ hq
  have hpg_rest : pg ∉ rest := by
    have := hwf.fr_nodup
    rw [hfl] at this
    exact (List.nodup_cons.mp this).1
  have hP1tbl : Tbls s pt (PTE2PA (s.ptes pt (PX 2 va))) :=
    Or.inr (Or.inl ⟨PX 2 va, hpx2, hv2, Eq.refl _⟩)
  have hP1ne_pg : PTE2PA (s.ptes pt (PX 2 va)) ≠ pg := fun he => hpgntbl (he ▸ hP1tbl)
  have hP1ne_root : PTE2PA (s.ptes pt (PX 2 va)) ≠ pt := hwf.ne_root_l1 _ hpx2 hv2
  have hpg_ne_root : pg ≠ pt := fun he => hpgntbl (he ▸ Tbls_root s pt)
  obtain ⟨hvv, hvi, hvpa, hvflags⟩ := intern_entry_facts pg hpgal
  have hread : ∀ q j, t.ptes q j =
      if q = PTE2PA (s.ptes pt (PX 2 va)) ∧ j = PX 1 va then PA2PTE pg ||| PTE_V
      else if q = pg then 0 else s.ptes q j := by
    intro q j
    rw [ht]
    rfl
  have hfl' : t.freeList = rest := by rw [ht]; rfl
  have hbytes : ∀ q o, t.bytes q o = if q = pg then 0 else s.bytes q o := by
    intro q o
    rw [ht]
    rfl
  -- reads of pages other than the target slot's page and the fresh page
  have hother : ∀ q, q ≠ PTE2PA (s.ptes pt (PX 2 va)) → q ≠ pg → ∀ j,
      t.ptes q j = s.ptes q j := by
    intro q h1 h2 j
    rw [hread, if_neg (fun hc => h1 hc.1), if_neg h2]
  have hroot : ∀ i, t.ptes pt i = s.ptes pt i := by
    intro i
    exact hother pt (fun hc => hP1ne_root hc.symm) (fun hc => hpg_ne_root hc.symm) i
  have hP1read : ∀ j, t.ptes (PTE2PA (s.ptes pt (PX 2 va))) j =
      if j = PX 1 va then PA2PTE pg ||| PTE_V else s.ptes (PTE2PA (s.ptes pt (PX 2 va))) j := by
    intro j
    rw [hread]
    by_cases hj : j = PX 1 va
    · rw [if_pos ⟨Eq.refl _, hj⟩, if_pos hj]
    · rw [if_neg (fun hc => hj hc.2), if_neg hj, if_neg hP1ne_pg]
  have hpgread : ∀ j, t.ptes pg j = 0 := by
    intro j
    rw [hread, if_neg (fun hc => hP1ne_pg hc.1.symm), if_pos (Eq.refl _)]
  -- level-1 tables of `s` are unchanged except the one written slot
  have hL1tbl : ∀ i, i < 512 → validE (s.ptes pt i) →
      Tbls s pt (PTE2PA (s.ptes pt i)) := by
    intro i hi hv
    exact Or.inr (Or.inl ⟨i, hi, hv, Eq.refl _⟩)
  have hL0tbl : ∀ i j, i < 512 → j < 512 → validE (s.ptes pt i) →
      validE (s.ptes (PTE2PA (s.ptes pt i)) j) →
      Tbls s pt (PTE2PA (s.ptes (PTE2PA (s.ptes pt i)) j)) := by
    intro i j hi hj hv hv'
    exact Or.inr (Or.inr ⟨i, j, hi, hj, hv, hv', Eq.refl _⟩)
  -- any entry of an `s`-table, read in `t`, is the `s` value unless it is
  -- exactly the written slot
  have hentry : ∀ q j, Tbls s pt q →
      ¬ (q = PTE2PA (s.ptes pt (PX 2 va)) ∧ j = PX 1 va) →
      t.ptes q j = s.ptes q j := by
    intro q j hq hslot
    rw [hread, if_neg hslot, if_neg (fun hc => hpgntbl (by rw [← hc]; exact hq))]
  -- the only root index whose child is the written table is `PX 2 va`
  have huniq : ∀ i, i < 512 → validE (s.ptes pt i) →
      PTE2PA (s.ptes pt i) = PTE2PA (s.ptes pt (PX 2 va)) → i = PX 2 va := by
    intro i hi hv he
    exact hwf.inj_l1 i (PX 2 va) hi hpx2 hv hv2 he
  -- characterization of the new table set
  have htbls : ∀ q, Tbls t pt q ↔ (Tbls s pt q ∨ q = pg) := by
    intro q
    constructor
    · rintro (h | ⟨i, hi, hv, hq⟩ | ⟨i, j, hi, hj, hv, hv', hq⟩)
      · exact Or.inl (Or.inl h)
      · rw [hroot] at hv hq
        exact Or.inl (Or.inr (Or.inl ⟨i, hi, hv, hq⟩))
      · rw [hroot] at hv hq
        rw [hroot] at hv'
        by_cases hslot : PTE2PA (s.ptes pt i) = PTE2PA (s.ptes pt (PX 2 va)) ∧ j = PX 1 va
        · rw [hslot.1, hslot.2] at hv' hq
          rw [hP1read, if_pos (Eq.refl _)] at hq
          rw [hvpa] at hq
          exact Or.inr hq
        · rw [hentry _ _ (hL1tbl i hi hv) hslot] at hv' hq
          exact Or.inl (Or.inr (Or.inr ⟨i, j, hi, hj, hv, hv', hq⟩))
    · rintro (h | h)
      · rcases h with h | ⟨i, hi, hv, hq⟩ | ⟨i, j, hi, hj, hv, hv', hq⟩
        · exact Or.inl h
        · refine Or.inr (Or.inl ⟨i, hi, ?_, ?_⟩)
          · rw [hroot]; exact hv
          · rw [hroot]; exact hq
        · have hslot : ¬ (PTE2PA (s.ptes pt i) = PTE2PA (s.ptes pt (PX 2 va)) ∧
              j = PX 1 va) := by
            rintro ⟨he, hj'⟩
            rw [he, hj'] at hv'
            exact hv1 hv'
          refine Or.inr (Or.inr ⟨i, j, hi, hj, ?_, ?_, ?_⟩)
          · rw [hroot]; exact hv
          · rw [hroot, hentry _ _ (hL1tbl i hi hv) hslot]; exact hv'
          · rw [hroot, hentry _ _ (hL1tbl i hi hv) hslot]; exact hq
      · subst h
        refine Or.inr (Or.inr ⟨PX 2 va, PX 1 va, hpx2, hpx1, ?_, ?_, ?_⟩)
        · rw [hroot]; exact hv2
        · rw [hroot, hP1read, if_pos (Eq.refl _)]; exact hvv
        · rw [hroot, hP1read, if_pos (Eq.refl _), hvpa]
  -- well-formedness of the grown tree
  have hwft : WF t pt := by
    refine {
      root_good := hwf.root_good
      fr_nodup := ?nodup, fr_good := ?frgood, fr_not_tbl := ?frntbl
      l2_intern := ?l2i, l2_good := ?l2g, l1_intern := ?l1i, l1_good := ?l1g
      ne_root_l1 := ?nr1, ne_root_l0 := ?nr0, ne_l1_l0 := ?n10
      inj_l1 := ?in1, inj_l0 := ?in0 }
    case nodup =>
      rw [hfl']
      have hn := hwf.fr_nodup
      rw [hfl] at hn
      exact (List.nodup_cons.mp hn).2
    case frgood =>
      intro q hq
      rw [hfl'] at hq
      exact hwf.fr_good q (hrest_sub q hq)
    case frntbl =>
      intro q hq
      rw [hfl'] at hq
      rw [htbls]
      rintro (hc | hc)
      · exact hwf.fr_not_tbl q (hrest_sub q hq) hc
      · exact hpg_rest (hc ▸ hq)
    case l2i =>
      intro i hi hv
      rw [hroot] at hv ⊢
      exact hwf.l2_intern i hi hv
    case l2g =>
      intro i hi hv
      rw [hroot] at hv ⊢
      exact hwf.l2_good i hi hv
    case l1i =>
      intro i j hi hj hv hv'
      rw [hroot] at hv hv' ⊢
      by_cases hslot : PTE2PA (s.ptes pt i) = PTE2PA (s.ptes pt (PX 2 va)) ∧ j = PX 1 va
      · rw [hslot.1, hslot.2, hP1read, if_pos (Eq.refl _)] at hv' ⊢
        exact hvi
      · rw [hentry _ _ (hL1tbl i hi hv) hslot] at hv' ⊢
        exact hwf.l1_intern i j hi hj hv hv'
    case l1g =>
      intro i j hi hj hv hv'
      rw [hroot] at hv hv' ⊢
      by_cases hslot : PTE2PA (s.ptes pt i) = PTE2PA (s.ptes pt (PX 2 va)) ∧ j = PX 1 va
      · rw [hslot.1, hslot.2, hP1read, if_pos (Eq.refl _)] at hv' ⊢
        rw [hvpa]
        exact ⟨hpgal, hpg⟩
      · rw [hentry _ _ (hL1tbl i hi hv) hslot] at hv' ⊢
        exact hwf.l1_good i j hi hj hv hv'
    case nr1 =>
      intro i hi hv
      rw [hroot] at hv ⊢
      exact hwf.ne_root_l1 i hi hv
    case nr0 =>
      intro i j hi hj hv hv'
      rw [hroot] at hv hv' ⊢
      by_cases hslot : PTE2PA (s.ptes pt i) = PTE2PA (s.ptes pt (PX 2 va)) ∧ j = PX 1 va
      · rw [hslot.1, hslot.2, hP1read, if_pos (Eq.refl _)] at hv' ⊢
        rw [hvpa]
        exact hpg_ne_root
      · rw [hentry _ _ (hL1tbl i hi hv) hslot] at hv' ⊢
        exact hwf.ne_root_l0 i j hi hj hv hv'
    case n10 =>
      intro i j i' hi hj hi' hv hv' hv''
      simp only [hroot] at hv hv' hv'' ⊢
      by_cases hslot : PTE2PA (s.ptes pt i) = PTE2PA (s.ptes pt (PX 2 va)) ∧ j = PX 1 va
      · rw [hslot.1, hslot.2, hP1read, if_pos (Eq.refl _)] at hv' ⊢
        rw [hvpa]
        intro he
        exact hpgntbl (by rw [he]; exact hL1tbl i' hi' hv'')
      · rw [hentry _ _ (hL1tbl i hi hv) hslot] at hv' ⊢
        exact hwf.ne_l1_l0 i j i' hi hj hi' hv hv' hv''
    case in1 =>
      intro i i' hi hi' hv hv'
      simp only [hroot] at hv hv' ⊢
      exact hwf.inj_l1 i i' hi hi' hv hv'
    case in0 =>
      intro i j i' j' hi hj hi' hj' hv hv' hw hw'
      simp only [hroot] at hv hv' hw hw' ⊢
      by_cases hslot : PTE2PA (s.ptes pt i) = PTE2PA (s.ptes pt (PX 2 va)) ∧ j = PX 1 va
      · rw [hslot.1, hslot.2, hP1read, if_pos (Eq.refl _)] at hv' ⊢
        rw [hvpa]
        by_cases hslot' : PTE2PA (s.ptes pt i') = PTE2PA (s.ptes pt (PX 2 va)) ∧
            j' = PX 1 va
        · rw [hslot'.1, hslot'.2, hP1read, if_pos (Eq.refl _)] at hw' ⊢
          rw [hvpa]
          intro _
          exact ⟨(huniq i hi hv hslot.1).trans (huniq i' hi' hw hslot'.1).symm,
            Eq.refl _⟩
        · rw [hentry _ _ (hL1tbl i' hi' hw) hslot'] at hw' ⊢
          intro he
          exact absurd (by rw [he]; exact hL0tbl i' j' hi' hj' hw hw') hpgntbl
      · rw [hentry _ _ (hL1tbl i hi hv) hslot] at hv' ⊢
        by_cases hslot' : PTE2PA (s.ptes pt i') = PTE2PA (s.ptes pt (PX 2 va)) ∧
            j' = PX 1 va
        · rw [hslot'.1, hslot'.2, hP1read, if_pos (Eq.refl _)] at hw' ⊢
          rw [hvpa]
          intro he
          exact absurd (by rw [← he]; exact hL0tbl i j hi hj hv hv') hpgntbl
        · rw [hentry _ _ (hL1tbl i' hi' hw) hslot'] at hw' ⊢
          exact hwf.inj_l0 i j i' j' hi hj hi' hj' hv hv' hw hw'
  -- the path for `va` now reaches the fresh table
  have hpath : pathL0 t pt va = some pg := by
    rw [pathL0_some_iff, hroot, hP1read, if_pos (Eq.refl _)]
    exact ⟨hv2, hvv, hvpa.symm⟩
  have hgrows : Grows s t pt := by
    refine {
      wf := hwft
      drop := ⟨1, by rw [hfl', hfl]; rfl⟩
      tblMono := fun q h => (htbls q).mpr (Or.inl h)
      tblGrow := ?_, ptesOut := ?_, bytesOut := ?_, validPres := ?_
      l0Pres := ?_, writeIntern := ?_, newClean := ?_, newL0Zero := ?_
      pathPres := ?_, waPres := ?_
      flAcct := by
        intro q hq
        rw [hfl] at hq
        rcases List.mem_cons.mp hq with h | h
        · exact Or.inr (Or.inl ((htbls q).mpr (Or.inr h)))
        · refine Or.inl ?_
          rw [hfl']
          exact h }
    · intro q h
      rcases (htbls q).mp h with h' | h'
      · exact Or.inl h'
      · subst h'
        refine Or.inr ⟨hpgfree, ?_⟩
        rw [hfl']
        exact hpg_rest
    · intro q hq1 hq2 j
      refine hother q ?_ ?_ j
      · intro hc
        exact hq1 (by rw [hc]; exact hP1tbl)
      · intro hc
        exact hq2 (by rw [hc]; exact hpgfree)
    · intro q hq o
      rw [hbytes, if_neg (fun hc => hq (by rw [← hc] at hpgfree; exact hpgfree))]
    · intro q j hq hv
      refine hentry q j hq ?_
      rintro ⟨he, hj⟩
      rw [he, hj] at hv
      exact hv1 hv
    · rintro q ⟨i, j, hi, hj, hv, hv', hq⟩ jj
      refine hother q ?_ ?_ jj
      · rw [hq]
        exact hwf.ne_l1_l0 i j (PX 2 va) hi hj hpx2 hv hv' hv2
      · intro hc
        exact hpgntbl (by rw [← hc, hq]; exact hL0tbl i j hi hj hv hv')
    · intro q j hq hne
      by_cases hslot : q = PTE2PA (s.ptes pt (PX 2 va)) ∧ j = PX 1 va
      · rw [hslot.1, hslot.2, hP1read, if_pos (Eq.refl _)]
        exact ⟨hvv, hvi⟩
      · exact absurd (hentry q j hq hslot) hne
    · intro q hq hq' j
      rcases (htbls q).mp hq with h' | h'
      · exact absurd h' hq'
      · subst h'
        exact Or.inl (hpgread j)
    · rintro q ⟨i, j, hi, hj, hv2t, hv1t, hq⟩ hq' jj
      rw [hroot] at hv2t hv1t hq
      by_cases hslot : PTE2PA (s.ptes pt i) = PTE2PA (s.ptes pt (PX 2 va)) ∧ j = PX 1 va
      · rw [hslot.1, hslot.2, hP1read, if_pos (Eq.refl _)] at hq
        rw [hvpa] at hq
        rw [hq]
        exact hpgread jj
      · rw [hentry _ _ (hL1tbl i hi hv2t) hslot] at hv1t hq
        exact absurd (by rw [hq]; exact hL0tbl i j hi hj hv2t hv1t) hq'
    · intro va' p h
      rw [pathL0_some_iff] at h ⊢
      obtain ⟨h2, h1, hp⟩ := h
      rw [hroot]
      refine ⟨h2, ?_, ?_⟩
      · by_cases hslot : PTE2PA (s.ptes pt (PX 2 va')) = PTE2PA (s.ptes pt (PX 2 va)) ∧
            PX 1 va' = PX 1 va
        · rw [hslot.1, hslot.2] at h1
          exact absurd h1 hv1
        · rw [hentry _ _ (hL1tbl _ (PX_lt 2 va') h2) hslot]
          exact h1
      · by_cases hslot : PTE2PA (s.ptes pt (PX 2 va')) = PTE2PA (s.ptes pt (PX 2 va)) ∧
            PX 1 va' = PX 1 va
        · rw [hslot.1, hslot.2] at h1
          exact absurd h1 hv1
        · rw [hentry _ _ (hL1tbl _ (PX_lt 2 va') h2) hslot]
          exact hp
    · intro va'
      rw [walkaddr_eq, walkaddr_eq]
      by_cases hm : va' ≥ MAXVA
      · rw [if_pos hm, if_pos hm]
      · rw [if_neg hm, if_neg hm]
        cases hps : pathL0 s pt va' with
        | some p =>
          have hpt : pathL0 t pt va' = some p := by
            rw [pathL0_some_iff] at hps ⊢
            obtain ⟨h2, h1, hp⟩ := hps
            rw [hroot]
            by_cases hslot : PTE2PA (s.ptes pt (PX 2 va')) = PTE2PA (s.ptes pt (PX 2 va)) ∧
                PX 1 va' = PX 1 va
            · rw [hslot.1, hslot.2] at h1
              exact absurd h1 hv1
            · rw [hentry _ _ (hL1tbl _ (PX_lt 2 va') h2) hslot]
              exact ⟨h2, h1, hp⟩
          have hl0p : t.ptes p (PX 0 va') = s.ptes p (PX 0 va') := by
            rw [pathL0_some_iff] at hps
            obtain ⟨h2, h1, hp⟩ := hps
            refine hother p ?_ ?_ _
            · rw [hp]
              exact hwf.ne_l1_l0 _ _ (PX 2 va) (PX_lt 2 va') (PX_lt 1 va') hpx2 h2 h1 hv2
            · intro hc
              refine hpgntbl ?_
              rw [← hc, hp]
              exact hL0tbl _ _ (PX_lt 2 va') (PX_lt 1 va') h2 h1
          simp only [hpt, hl0p]
        | none =>
          cases hpt : pathL0 t pt va' with
          | none => rfl
          | some p' =>
            rw [pathL0_some_iff] at hpt
            obtain ⟨h2t, h1t, hpt'⟩ := hpt
            rw [hroot] at h2t h1t hpt'
            rw [pathL0_none_iff] at hps
            rcases hps with hps | hps
            · exact absurd h2t hps
            · by_cases hslot : PTE2PA (s.ptes pt (PX 2 va')) = PTE2PA (s.ptes pt (PX 2 va)) ∧
                  PX 1 va' = PX 1 va
              · rw [hslot.1, hslot.2, hP1read, if_pos (Eq.refl _)] at h1t hpt'
                rw [hvpa] at hpt'
                subst hpt'
                simp [hpgread]
              · rw [hentry _ _ (hL1tbl _ (PX_lt 2 va') h2t) hslot] at h1t
                exact absurd h1t hps
  exact ⟨hgrows, hpath, hpgread, hfl'⟩

/-- Installing a fresh zeroed page as an internal node into the root table
(the level-2 allocation case of `walk`). -/
theorem install_l2 (s : VMState) (pt va pg : Nat) (rest : List Nat) (t : VMState)
    (hwf : WF s pt)
    (hfl : s.freeList = pg :: rest) (hpg : pg ≠ 0)
    (hv2 : ¬ validE (s.ptes pt (PX 2 va)))
    (ht : t = setPte (clearPage { s with freeList := rest } pg)
      pt (PX 2 va) (PA2PTE pg ||| PTE_V)) :
    Grows s t pt ∧ validE (t.ptes pt (PX 2 va)) ∧
      PTE2PA (t.ptes pt (PX 2 va)) = pg ∧ (∀ j, t.ptes pg j = 0) ∧
      t.freeList = rest := by
  have hpx2 : PX 2 va < 512 := PX_lt 2 va
  have hpgfree : pg ∈ s.freeList := by
    rw [hfl]
    exact List.mem_cons_self _ _
  have hpgal : pg % PGSIZE = 0 := hwf.fr_good pg hpgfree
  have hpgntbl : ¬ Tbls s pt pg := hwf.fr_not_tbl pg hpgfree
  have hrest_sub : ∀ q, q ∈ rest → q ∈ s.freeList := by
    intro q hq
    rw [hfl]
    exact List.mem_cons_of_mem _ hq
  have hpg_rest : pg ∉ rest := by
    have := hwf.fr_nodup
    rw [hfl] at this
    exact (List.nodup_cons.mp this).1
  have hpg_ne_root : pg ≠ pt := fun he => hpgntbl (by rw [he]; exact Tbls_root s pt)
  obtain ⟨hvv, hvi, hvpa, hvflags⟩ := intern_entry_facts pg hpgal
  have hread : ∀ q j, t.ptes q j =
      if q = pt ∧ j = PX 2 va then PA2PTE pg ||| PTE_V
      else if q = pg then 0 else s.ptes q j := by
    intro q j
    rw [ht]
    rfl
  have hfl' : t.freeList = rest := by rw [ht]; rfl
  have hbytes : ∀ q o, t.bytes q o = if q = pg then 0 else s.bytes q o := by
    intro q o
    rw [ht]
    rfl
  have hother : ∀ q, q ≠ pt → q ≠ pg → ∀ j, t.ptes q j = s.ptes q j := by
    intro q h1 h2 j
    rw [hread, if_neg (fun hc => h1 hc.1), if_neg h2]
  have hroot : ∀ i, t.ptes pt i =
      if i = PX 2 va then PA2PTE pg ||| PTE_V else s.ptes pt i := by
    intro i
    rw [hread]
    by_cases hj : i = PX 2 va
    · rw [if_pos ⟨Eq.refl _, hj⟩, if_pos hj]
    · rw [if_neg (fun hc => hj hc.2), if_neg hj,
        if_neg (show ¬ pt = pg from fun hc => hpg_ne_root hc.symm)]
  have hrootne : ∀ i, i ≠ PX 2 va → t.ptes pt i = s.ptes pt i := by
    intro i hi
    rw [hroot, if_neg hi]
  have hrooteq : t.ptes pt (PX 2 va) = PA2PTE pg ||| PTE_V := by
    rw [hroot, if_pos (Eq.refl _)]
  have hpgread : ∀ j, t.ptes pg j = 0 := by
    intro j
    rw [hread, if_neg (fun hc => hpg_ne_root hc.1), if_pos (Eq.refl _)]
  have hL1tbl : ∀ i, i < 512 → validE (s.ptes pt i) →
      Tbls s pt (PTE2PA (s.ptes pt i)) := by
    intro i hi hv
    exact Or.inr (Or.inl ⟨i, hi, hv, Eq.refl _⟩)
  have hL0tbl : ∀ i j, i < 512 → j < 512 → validE (s.ptes pt i) →
      validE (s.ptes (PTE2PA (s.ptes pt i)) j) →
      Tbls s pt (PTE2PA (s.ptes (PTE2PA (s.ptes pt i)) j)) := by
    intro i j hi hj hv hv'
    exact Or.inr (Or.inr ⟨i, j, hi, hj, hv, hv', Eq.refl _⟩)
  -- a valid root entry of `s` is never at the written slot
  have hvne : ∀ i, validE (s.ptes pt i) → i ≠ PX 2 va := by
    intro i hv hi
    rw [hi] at hv
    exact hv2 hv
  -- entries of existing level-1 tables are unchanged
  have hl1read : ∀ i, i < 512 → validE (s.ptes pt i) → ∀ j,
      t.ptes (PTE2PA (s.ptes pt i)) j = s.ptes (PTE2PA (s.ptes pt i)) j := by
    intro i hi hv j
    refine hother _ (hwf.ne_root_l1 i hi hv) ?_ j
    intro hc
    exact hpgntbl (by rw [← hc]; exact hL1tbl i hi hv)
  have hl0read : ∀ i j, i < 512 → j < 512 → validE (s.ptes pt i) →
      validE (s.ptes (PTE2PA (s.ptes pt i)) j) → ∀ jj,
      t.ptes (PTE2PA (s.ptes (PTE2PA (s.ptes pt i)) j)) jj =
        s.ptes (PTE2PA (s.ptes (PTE2PA (s.ptes pt i)) j)) jj := by
    intro i j hi hj hv hv' jj
    refine hother _ (hwf.ne_root_l0 i j hi hj hv hv') ?_ jj
    intro hc
    exact hpgntbl (by rw [← hc]; exact hL0tbl i j hi hj hv hv')
  have htbls : ∀ q, Tbls t pt q ↔ (Tbls s pt q ∨ q = pg) := by
    intro q
    constructor
    · rintro (h | ⟨i, hi, hv, hq⟩ | ⟨i, j, hi, hj, hv, hv', hq⟩)
      · exact Or.inl (Or.inl h)
      · by_cases hij : i = PX 2 va
        · rw [hij, hrooteq] at hq
          rw [hvpa] at hq
          exact Or.inr hq
        · rw [hrootne i hij] at hv hq
          exact Or.inl (Or.inr (Or.inl ⟨i, hi, hv, hq⟩))
      · by_cases hij : i = PX 2 va
        · rw [hij, hrooteq] at hv'
          rw [hvpa] at hv'
          rw [hpgread] at hv'
          exact absurd hv' (by rw [validE_iff]; omega)
        · rw [hrootne i hij] at hv hv' hq
          rw [hl1read i hi hv] at hv' hq
          exact Or.inl (Or.inr (Or.inr ⟨i, j, hi, hj, hv, hv', hq⟩))
    · rintro (h | h)
      · rcases h with h | ⟨i, hi, hv, hq⟩ | ⟨i, j, hi, hj, hv, hv', hq⟩
        · exact Or.inl h
        · refine Or.inr (Or.inl ⟨i, hi, ?_, ?_⟩)
          · rw [hrootne i (hvne i hv)]; exact hv
          · rw [hrootne i (hvne i hv)]; exact hq
        · refine Or.inr (Or.inr ⟨i, j, hi, hj, ?_, ?_, ?_⟩)
          · rw [hrootne i (hvne i hv)]; exact hv
          · rw [hrootne i (hvne i hv), hl1read i hi hv]; exact hv'
          · rw [hrootne i (hvne i hv), hl1read i hi hv]; exact hq
      · subst h
        refine Or.inr (Or.inl ⟨PX 2 va, hpx2, ?_, ?_⟩)
        · rw [hrooteq]; exact hvv
        · rw [hrooteq, hvpa]
  have hwft : WF t pt := by
    refine {
      root_good := hwf.root_good
      fr_nodup := ?nodup, fr_good := ?frgood, fr_not_tbl := ?frntbl
      l2_intern := ?l2i, l2_good := ?l2g, l1_intern := ?l1i, l1_good := ?l1g
      ne_root_l1 := ?nr1, ne_root_l0 := ?nr0, ne_l1_l0 := ?n10
      inj_l1 := ?in1, inj_l0 := ?in0 }
    case nodup =>
      rw [hfl']
      have hn := hwf.fr_nodup
      rw [hfl] at hn
      exact (List.nodup_cons.mp hn).2
    case frgood =>
      intro q hq
      rw [hfl'] at hq
      exact hwf.fr_good q (hrest_sub q hq)
    case frntbl =>
      intro q hq
      rw [hfl'] at hq
      rw [htbls]
      rintro (hc | hc)
      · exact hwf.fr_not_tbl q (hrest_sub q hq) hc
      · exact hpg_rest (hc ▸ hq)
    case l2i =>
      intro i hi hv
      by_cases hij : i = PX 2 va
      · rw [hij, hrooteq]
        exact hvi
      · rw [hrootne i hij] at hv ⊢
        exact hwf.l2_intern i hi hv
    case l2g =>
      intro i hi hv
      by_cases hij : i = PX 2 va
      · rw [hij, hrooteq, hvpa]
        exact ⟨hpgal, hpg⟩
      · rw [hrootne i hij] at hv ⊢
        exact hwf.l2_good i hi hv
    case l1i =>
      intro i j hi hj hv hv'
      by_cases hij : i = PX 2 va
      · rw [hij, hrooteq] at hv'
        rw [hvpa, hpgread] at hv'
        exact absurd hv' (by rw [validE_iff]; omega)
      · rw [hrootne i hij] at hv hv' ⊢
        rw [hl1read i hi hv] at hv' ⊢
        exact hwf.l1_intern i j hi hj hv hv'
    case l1g =>
      intro i j hi hj hv hv'
      by_cases hij : i = PX 2 va
      · rw [hij, hrooteq] at hv'
        rw [hvpa, hpgread] at hv'
        exact absurd hv' (by rw [validE_iff]; omega)
      · rw [hrootne i hij] at hv hv' ⊢
        rw [hl1read i hi hv] at hv' ⊢
        exact hwf.l1_good i j hi hj hv hv'
    case nr1 =>
      intro i hi hv
      by_cases hij : i = PX 2 va
      · rw [hij, hrooteq, hvpa]
        exact hpg_ne_root
      · rw [hrootne i hij] at hv ⊢
        exact hwf.ne_root_l1 i hi hv
    case nr0 =>
      intro i j hi hj hv hv'
      by_cases hij : i = PX 2 va
      · rw [hij, hrooteq] at hv'
        rw [hvpa, hpgread] at hv'
        exact absurd hv' (by rw [validE_iff]; omega)
      · rw [hrootne i hij] at hv hv' ⊢
        rw [hl1read i hi hv] at hv' ⊢
        exact hwf.ne_root_l0 i j hi hj hv hv'
    case n10 =>
      intro i j i' hi hj hi' hv hv' hv''
      by_cases hij : i = PX 2 va
      · rw [hij, hrooteq] at hv'
        rw [hvpa, hpgread] at hv'
        exact absurd hv' (by rw [validE_iff]; omega)
      · rw [hrootne i hij] at hv hv' ⊢
        rw [hl1read i hi hv] at hv' ⊢
        by_cases hij' : i' = PX 2 va
        · rw [hij', hrooteq, hvpa]
          intro he
          exact hpgntbl (by rw [← he]; exact hL0tbl i j hi hj hv hv')
        · rw [hrootne i' hij'] at hv'' ⊢
          exact hwf.ne_l1_l0 i j i' hi hj hi' hv hv' hv''
    case in1 =>
      intro i i' hi hi' hv hv'
      by_cases hij : i = PX 2 va
      · by_cases hij' : i' = PX 2 va
        · rw [hij, hij']
          intro _
          exact Eq.refl _
        · rw [hij, hrooteq, hvpa]
          rw [hrootne i' hij'] at hv' ⊢
          intro he
          exact absurd (by rw [he]; exact hL1tbl i' hi' hv') hpgntbl
      · rw [hrootne i hij] at hv ⊢
        by_cases hij' : i' = PX 2 va
        · rw [hij', hrooteq, hvpa]
          intro he
          exact absurd (by rw [← he]; exact hL1tbl i hi hv) hpgntbl
        · rw [hrootne i' hij'] at hv' ⊢
          exact hwf.inj_l1 i i' hi hi' hv hv'
    case in0 =>
      intro i j i' j' hi hj hi' hj' hv hv' hw hw'
      by_cases hij : i = PX 2 va
      · rw [hij, hrooteq] at hv'
        rw [hvpa, hpgread] at hv'
        exact absurd hv' (by rw [validE_iff]; omega)
      · by_cases hij' : i' = PX 2 va
        · rw [hij', hrooteq] at hw'
          rw [hvpa, hpgread] at hw'
          exact absurd hw' (by rw [validE_iff]; omega)
        · rw [hrootne i hij] at hv hv' ⊢
          rw [hrootne i' hij'] at hw hw' ⊢
          rw [hl1read i hi hv] at hv' ⊢
          rw [hl1read i' hi' hw] at hw' ⊢
          exact hwf.inj_l0 i j i' j' hi hj hi' hj' hv hv' hw hw'
  have hgrows : Grows s t pt := by
    refine {
      wf := hwft
      drop := ⟨1, by rw [hfl', hfl]; rfl⟩
      tblMono := fun q h => (htbls q).mpr (Or.inl h)
      tblGrow := ?_, ptesOut := ?_, bytesOut := ?_, validPres := ?_
      l0Pres := ?_, writeIntern := ?_, newClean := ?_, newL0Zero := ?_
      pathPres := ?_, waPres := ?_
      flAcct := by
        intro q hq
        rw [hfl] at hq
        rcases List.mem_cons.mp hq with h | h
        · exact Or.inr (Or.inl ((htbls q).mpr (Or.inr h)))
        · refine Or.inl ?_
          rw [hfl']
          exact h }
    · intro q h
      rcases (htbls q).mp h with h' | h'
      · exact Or.inl h'
      · subst h'
        refine Or.inr ⟨hpgfree, ?_⟩
        rw [hfl']
        exact hpg_rest
    · intro q hq1 hq2 j
      refine hother q ?_ ?_ j
      · intro hc
        exact hq1 (by rw [hc]; exact Tbls_root s pt)
      · intro hc
        exact hq2 (by rw [hc]; exact hpgfree)
    · intro q hq o
      rw [hbytes, if_neg (fun hc => hq (by rw [← hc] at hpgfree; exact hpgfree))]
    · intro q j hq hv
      rw [hread]
      by_cases hslot : q = pt ∧ j = PX 2 va
      · rw [hslot.1, hslot.2] at hv
        exact absurd hv hv2
      · rw [if_neg hslot, if_neg (fun hc => hpgntbl (by rw [← hc]; exact hq))]
    · rintro q ⟨i, j, hi, hj, hv, hv', hq⟩ jj
      rw [hq]
      exact hl0read i j hi hj hv hv' jj
    · intro q j hq hne
      rw [hread] at hne ⊢
      by_cases hslot : q = pt ∧ j = PX 2 va
      · rw [if_pos hslot]
        exact ⟨hvv, hvi⟩
      · rw [if_neg hslot] at hne ⊢
        rw [if_neg (fun hc => hpgntbl (by rw [← hc]; exact hq))] at hne ⊢
        exact absurd (Eq.refl _) hne
    · intro q hq hq' j
      rcases (htbls q).mp hq with h' | h'
      · exact absurd h' hq'
      · subst h'
        exact Or.inl (hpgread j)
    · rintro q ⟨i, j, hi, hj, hv2t, hv1t, hq⟩ hq' jj
      by_cases hij : i = PX 2 va
      · rw [hij, hrooteq] at hv1t
        rw [hvpa, hpgread] at hv1t
        exact absurd hv1t (by rw [validE_iff]; omega)
      · rw [hrootne i hij] at hv2t hv1t hq
        rw [hl1read i hi hv2t] at hv1t hq
        exact absurd (by rw [hq]; exact hL0tbl i j hi hj hv2t hv1t) hq'
    · intro va' p h
      rw [pathL0_some_iff] at h ⊢
      obtain ⟨h2, h1, hp⟩ := h
      rw [hrootne _ (hvne _ h2), hl1read _ (PX_lt 2 va') h2]
      exact ⟨h2, h1, hp⟩
    · intro va'
      rw [walkaddr_eq, walkaddr_eq]
      by_cases hm : va' ≥ MAXVA
      · rw [if_pos hm, if_pos hm]
      · rw [if_neg hm, if_neg hm]
        cases hps : pathL0 s pt va' with
        | some p =>
          have hpt : pathL0 t pt va' = some p := by
            rw [pathL0_some_iff] at hps ⊢
            obtain ⟨h2, h1, hp⟩ := hps
            rw [hrootne _ (hvne _ h2), hl1read _ (PX_lt 2 va') h2]
            exact ⟨h2, h1, hp⟩
          have hl0p : t.ptes p (PX 0 va') = s.ptes p (PX 0 va') := by
            rw [pathL0_some_iff] at hps
            obtain ⟨h2, h1, hp⟩ := hps
            rw [hp]
            exact hl0read _ _ (PX_lt 2 va') (PX_lt 1 va') h2 h1 _
          simp only [hpt, hl0p]
        | none =>
          have hpt : pathL0 t pt va' = none := by
            rw [pathL0_none_iff] at hps ⊢
            by_cases hij : PX 2 va' = PX 2 va
            · rw [hij, hrooteq]
              right
              rw [hvpa, hpgread]
              rw [validE_iff]
              omega
            · rw [hrootne _ hij]
              by_cases h2 : validE (s.ptes pt (PX 2 va'))
              · right
                rw [hl1read _ (PX_lt 2 va') h2]
                rcases hps with hps | hps
                · exact absurd h2 hps
                · exact hps
              · exact Or.inl h2
          simp only [hpt]
  refine ⟨hgrows, ?_, ?_, hpgread, hfl'⟩
  · rw [hrooteq]
    exact hvv
  · rw [hrooteq, hvpa]

/-! ### Evaluating `walkStep` and `walk` -/

theorem walkStep_valid (s : VMState) (p va : Nat) (alloc : Bool) (level : Nat)
    (h : validE (s.ptes p (PX level va))) :
    walkStep s p va alloc level = (some (PTE2PA (s.ptes p (PX level va))), s) := by
  simp only [walkStep]
  rw [if_pos (show s.ptes p (PX level va) &&& PTE_V ≠ 0 from h)]

theorem walkStep_noalloc (s : VMState) (p va : Nat) (level : Nat)
    (h : ¬ validE (s.ptes p (PX level va))) :
    walkStep s p va false level = (none, s) := by
  simp only [walkStep]
  rw [if_neg (show ¬ s.ptes p (PX level va) &&& PTE_V ≠ 0 from h)]
  simp

theorem walkStep_alloc_empty (s : VMState) (p va : Nat) (level : Nat)
    (h : ¬ validE (s.ptes p (PX level va))) (hfl : s.freeList = []) :
    walkStep s p va true level = (none, s) := by
  simp only [walkStep, kalloc, hfl]
  rw [if_neg (show ¬ s.ptes p (PX level va) &&& PTE_V ≠ 0 from h)]
  simp

theorem walkStep_alloc_null (s : VMState) (p va : Nat) (level : Nat) (rest : List Nat)
    (h : ¬ validE (s.ptes p (PX level va))) (hfl : s.freeList = 0 :: rest) :
    walkStep s p va true level = (none, { s with freeList := rest }) := by
  simp only [walkStep, kalloc, hfl]
  rw [if_neg (show ¬ s.ptes p (PX level va) &&& PTE_V ≠ 0 from h)]
  simp

theorem walkStep_alloc_fresh (s : VMState) (p va pg : Nat) (level : Nat) (rest : List Nat)
    (h : ¬ validE (s.ptes p (PX level va))) (hfl : s.freeList = pg :: rest)
    (hpg : pg ≠ 0) :
    walkStep s p va true level =
      (some pg, setPte (clearPage { s with freeList := rest } pg) p (PX level va)
        (PA2PTE pg ||| PTE_V)) := by
  simp only [walkStep, kalloc, hfl]
  rw [if_neg (show ¬ s.ptes p (PX level va) &&& PTE_V ≠ 0 from h)]
  simp [hpg]

/-- Full characterization of `walk` with allocation on a well-formed tree:
it never panics below `MAXVA`, the state only grows (`Grows`), a successful
result is the level-0 slot for `va` on the (possibly just created) path, and
a `none` result can only happen when the allocator is exhausted (or yields
the null page). -/
theorem walk_alloc_spec (s : VMState) (pt va : Nat) (hwf : WF s pt)
    (hva : va < MAXVA) :
    ∃ r s', walk s pt va true = .ok (r, s') ∧ Grows s s' pt ∧
      (∀ p0 i0, r = some (p0, i0) → i0 = PX 0 va ∧ pathL0 s' pt va = some p0 ∧
        ((s'.ptes p0 (PX 0 va) = s.ptes p0 (PX 0 va) ∧ pathL0 s pt va = some p0) ∨
         (p0 ∈ s.freeList ∧ ∀ j, s'.ptes p0 j = 0))) ∧
      (2 ≤ s.freeList.length → 0 ∉ s.freeList → r ≠ none) := by
  have hnm : ¬ va ≥ MAXVA := not_le.mpr hva
  by_cases hv2 : validE (s.ptes pt (PX 2 va))
  · by_cases hv1 : validE (s.ptes (PTE2PA (s.ptes pt (PX 2 va))) (PX 1 va))
    · -- both levels already present
      refine ⟨some (PTE2PA (s.ptes (PTE2PA (s.ptes pt (PX 2 va))) (PX 1 va)), PX 0 va),
        s, ?_, Grows.rfl s pt hwf, ?_, ?_⟩
      · rw [walk, if_neg hnm, walkStep_valid s pt va true 2 hv2]
        dsimp only
        rw [walkStep_valid s _ va true 1 hv1]
      · intro p0 i0 hr
        injection hr with h
        injection h with h1 h2
        subst h1
        subst h2
        refine ⟨Eq.refl _, ?_, Or.inl ⟨Eq.refl _, ?_⟩⟩ <;>
          exact (pathL0_some_iff s pt va _).mpr ⟨hv2, hv1, Eq.refl _⟩
      · intro _ _ hc
        exact Option.noConfusion hc
    · -- allocate a level-0 table
      cases hfl : s.freeList with
      | nil =>
        refine ⟨none, s, ?_, Grows.rfl s pt hwf, ?_, ?_⟩
        · rw [walk, if_neg hnm, walkStep_valid s pt va true 2 hv2]
          dsimp only
          rw [walkStep_alloc_empty s _ va 1 hv1 hfl]
        · intro p0 i0 hr
          exact Option.noConfusion hr
        · intro hlen _
          simp at hlen
      | cons pg rest =>
        by_cases hpg : pg = 0
        · subst hpg
          refine ⟨none, { s with freeList := rest }, ?_, ?_, ?_, ?_⟩
          · rw [walk, if_neg hnm, walkStep_valid s pt va true 2 hv2]
            dsimp only
            rw [walkStep_alloc_null s _ va 1 rest hv1 hfl]
          · have hg := Grows.pop s pt hwf 1 (by
              intro q hq
              rw [hfl] at hq
              simp only [List.take_succ_cons, List.take_zero,
                List.mem_singleton] at hq
              exact hq)
            rw [hfl] at hg
            exact hg
          · intro p0 i0 hr
            exact Option.noConfusion hr
          · intro _ hz
            exact absurd (List.mem_cons_self _ _) hz
        · obtain ⟨hg, hpath, hzero, hfl'⟩ :=
            install_l1 s pt va pg rest _ hwf hfl hpg hv2 hv1 (Eq.refl _)
          refine ⟨some (pg, PX 0 va), _, ?_, hg, ?_, ?_⟩
          · rw [walk, if_neg hnm, walkStep_valid s pt va true 2 hv2]
            dsimp only
            rw [walkStep_alloc_fresh s _ va pg 1 rest hv1 hfl hpg]
          · intro p0 i0 hr
            injection hr with h
            injection h with h1 h2
            subst h1
            subst h2
            refine ⟨Eq.refl _, hpath, Or.inr ⟨?_, hzero⟩⟩
            exact List.mem_cons_self _ _
          · intro _ _ hc
            exact Option.noConfusion hc
  · -- allocate a level-1 table first
    cases hfl : s.freeList with
    | nil =>
      refine ⟨none, s, ?_, Grows.rfl s pt hwf, ?_, ?_⟩
      · rw [walk, if_neg hnm, walkStep_alloc_empty s pt va 2 hv2 hfl]
      · intro p0 i0 hr
        exact Option.noConfusion hr
      · intro hlen _
        simp at hlen
    | cons pg rest =>
      by_cases hpg : pg = 0
      · subst hpg
        refine ⟨none, { s with freeList := rest }, ?_, ?_, ?_, ?_⟩
        · rw [walk, if_neg hnm, walkStep_alloc_null s pt va 2 rest hv2 hfl]
        · have hg := Grows.pop s pt hwf 1 (by
            intro q hq
            rw [hfl] at hq
            simp only [List.take_succ_cons, List.take_zero,
              List.mem_singleton] at hq
            exact hq)
          rw [hfl] at hg
          exact hg
        · intro p0 i0 hr
          exact Option.noConfusion hr
        · intro _ hz
          exact absurd (List.mem_cons_self _ _) hz
      · obtain ⟨hg, hval2, hpa2, hzero, hfl'⟩ :=
          install_l2 s pt va pg rest _ hwf hfl hpg hv2 (Eq.refl _)
        set t := setPte (clearPage { s with freeList := rest } pg) pt (PX 2 va)
          (PA2PTE pg ||| PTE_V) with htdef
        have hv1t : ¬ validE (t.ptes (PTE2PA (t.ptes pt (PX 2 va))) (PX 1 va)) := by
          rw [hpa2, hzero, validE_iff]
          omega
        have hv1pg : ¬ validE (t.ptes pg (PX 1 va)) := by
          rw [hzero, validE_iff]
          omega
        cases hfl2 : t.freeList with
        | nil =>
          refine ⟨none, t, ?_, hg, ?_, ?_⟩
          · rw [walk, if_neg hnm, walkStep_alloc_fresh s pt va pg 2 rest hv2 hfl hpg,
              ← htdef]
            dsimp only
            rw [walkStep_alloc_empty t pg va 1 hv1pg hfl2]
          · intro p0 i0 hr
            exact Option.noConfusion hr
          · intro hlen _
            rw [hfl'] at hfl2
            rw [hfl2] at hlen
            simp at hlen
        | cons pg2 rest2 =>
          by_cases hpg2 : pg2 = 0
          · subst hpg2
            refine ⟨none, { t with freeList := rest2 }, ?_, ?_, ?_, ?_⟩
            · rw [walk, if_neg hnm, walkStep_alloc_fresh s pt va pg 2 rest hv2 hfl hpg,
                ← htdef]
              dsimp only
              rw [walkStep_alloc_null t pg va 1 rest2 hv1pg hfl2]
            · refine Grows.trans s t _ pt hwf hg ?_
              have hgp := Grows.pop t pt hg.wf 1 (by
                intro q hq
                rw [hfl2] at hq
                simp only [List.take_succ_cons, List.take_zero,
                  List.mem_singleton] at hq
                exact hq)
              rw [hfl2] at hgp
              exact hgp
            · intro p0 i0 hr
              exact Option.noConfusion hr
            · intro _ hz
              refine absurd ?_ hz
              refine List.mem_cons_of_mem _ ?_
              rw [← hfl', hfl2]
              exact List.mem_cons_self _ _
          · obtain ⟨hg2, hpath2, hzero2, hfl2'⟩ :=
              install_l1 t pt va pg2 rest2
                (setPte (clearPage { t with freeList := rest2 } pg2) pg (PX 1 va)
                  (PA2PTE pg2 ||| PTE_V))
                hg.wf hfl2 hpg2 hval2 hv1t (by rw [hpa2])
            refine ⟨some (pg2, PX 0 va), _, ?_, Grows.trans s t _ pt hwf hg hg2, ?_, ?_⟩
            · rw [walk, if_neg hnm, walkStep_alloc_fresh s pt va pg 2 rest hv2 hfl hpg,
                ← htdef]
              dsimp only
              rw [walkStep_alloc_fresh t pg va pg2 1 rest2 hv1pg hfl2 hpg2]
            · intro p0 i0 hr
              injection hr with h
              injection h with h1 h2
              subst h1
              subst h2
              refine ⟨Eq.refl _, hpath2, Or.inr ⟨?_, hzero2⟩⟩
              refine List.mem_cons_of_mem _ ?_
              rw [← hfl', hfl2]
              exact List.mem_cons_self _ _
            · intro _ _ hc
              exact Option.noConfusion hc

/-! ### Writing a level-0 entry -/

/-- Writing the level-0 slot for `va` (as `mappages` and `uvmunmap` do)
keeps the tree well formed and changes no translation other than `va`'s own
page. -/
theorem setLeaf_facts (s : VMState) (pt va p0 v : Nat) (hwf : WF s pt)
    (hva : va < MAXVA) (hp : pathL0 s pt va = some p0) :
    WF (setPte s p0 (PX 0 va) v) pt
    ∧ (∀ q, Tbls (setPte s p0 (PX 0 va) v) pt q ↔ Tbls s pt q)
    ∧ (∀ va', pathL0 (setPte s p0 (PX 0 va) v) pt va' = pathL0 s pt va')
    ∧ (∀ q j, ¬ (q = p0 ∧ j = PX 0 va) →
        (setPte s p0 (PX 0 va) v).ptes q j = s.ptes q j)
    ∧ (∀ va', va' < MAXVA → va' / PGSIZE ≠ va / PGSIZE →
        walkaddr (setPte s p0 (PX 0 va) v) pt va' = walkaddr s pt va')
    ∧ (∀ va', va' < MAXVA → va' / PGSIZE = va / PGSIZE →
        pathL0 s pt va' = some p0 ∧ PX 0 va' = PX 0 va ∧
        walkaddr (setPte s p0 (PX 0 va) v) pt va' =
          (if validE v ∧ v &&& PTE_U ≠ 0 then PTE2PA v else 0)) := by
  obtain ⟨hv2, hv1, hp0⟩ := (pathL0_some_iff s pt va p0).mp hp
  have hpx2 : PX 2 va < 512 := PX_lt 2 va
  have hpx1 : PX 1 va < 512 := PX_lt 1 va
  have hp0_ne_root : p0 ≠ pt := by
    rw [hp0]
    exact hwf.ne_root_l0 _ _ hpx2 hpx1 hv2 hv1
  have hp0_ne_l1 : ∀ i, i < 512 → validE (s.ptes pt i) →
      p0 ≠ PTE2PA (s.ptes pt i) := by
    intro i hi hv
    rw [hp0]
    exact hwf.ne_l1_l0 _ _ i hpx2 hpx1 hi hv2 hv1 hv
  have hread : ∀ q j, (setPte s p0 (PX 0 va) v).ptes q j =
      if q = p0 ∧ j = PX 0 va then v else s.ptes q j := fun q j => Eq.refl _
  have hroot : ∀ i, (setPte s p0 (PX 0 va) v).ptes pt i = s.ptes pt i := by
    intro i
    rw [hread, if_neg (fun hc => hp0_ne_root hc.1.symm)]
  have hl1read : ∀ i, i < 512 → validE (s.ptes pt i) → ∀ j,
      (setPte s p0 (PX 0 va) v).ptes (PTE2PA (s.ptes pt i)) j =
        s.ptes (PTE2PA (s.ptes pt i)) j := by
    intro i hi hv j
    rw [hread, if_neg (fun hc => hp0_ne_l1 i hi hv hc.1.symm)]
  have htbls : ∀ q, Tbls (setPte s p0 (PX 0 va) v) pt q ↔ Tbls s pt q := by
    intro q
    constructor
    · rintro (h | ⟨i, hi, hv, hq⟩ | ⟨i, j, hi, hj, hv, hv', hq⟩)
      · exact Or.inl h
      · rw [hroot] at hv hq
        exact Or.inr (Or.inl ⟨i, hi, hv, hq⟩)
      · rw [hroot] at hv hq
        rw [hroot] at hv'
        rw [hl1read i hi hv] at hv' hq
        exact Or.inr (Or.inr ⟨i, j, hi, hj, hv, hv', hq⟩)
    · rintro (h | ⟨i, hi, hv, hq⟩ | ⟨i, j, hi, hj, hv, hv', hq⟩)
      · exact Or.inl h
      · refine Or.inr (Or.inl ⟨i, hi, ?_, ?_⟩) <;> rw [hroot]
        · exact hv
        · exact hq
      · refine Or.inr (Or.inr ⟨i, j, hi, hj, ?_, ?_, ?_⟩) <;> rw [hroot]
        · exact hv
        · rw [hl1read i hi hv]
          exact hv'
        · rw [hl1read i hi hv]
          exact hq
  have hpath : ∀ va', pathL0 (setPte s p0 (PX 0 va) v) pt va' = pathL0 s pt va' := by
    intro va'
    rw [pathL0, pathL0]
    simp only [hroot]
    by_cases h2 : s.ptes pt (PX 2 va') &&& PTE_V = 0
    · rw [if_pos h2, if_pos h2]
    · rw [if_neg h2, if_neg h2, hl1read _ (PX_lt 2 va') h2]
  have hwft : WF (setPte s p0 (PX 0 va) v) pt := by
    refine {
      root_good := hwf.root_good
      fr_nodup := hwf.fr_nodup
      fr_good := hwf.fr_good
      fr_not_tbl := ?frntbl
      l2_intern := ?l2i, l2_good := ?l2g, l1_intern := ?l1i, l1_good := ?l1g
      ne_root_l1 := ?nr1, ne_root_l0 := ?nr0, ne_l1_l0 := ?n10
      inj_l1 := ?in1, inj_l0 := ?in0 }
    case frntbl =>
      intro q hq
      rw [htbls]
      exact hwf.fr_not_tbl q hq
    case l2i =>
      intro i hi hv
      rw [hroot] at hv ⊢
      exact hwf.l2_intern i hi hv
    case l2g =>
      intro i hi hv
      rw [hroot] at hv ⊢
      exact hwf.l2_good i hi hv
    case l1i =>
      intro i j hi hj hv hv'
      simp only [hroot] at hv hv' ⊢
      rw [hl1read i hi hv] at hv' ⊢
      exact hwf.l1_intern i j hi hj hv hv'
    case l1g =>
      intro i j hi hj hv hv'
      simp only [hroot] at hv hv' ⊢
      rw [hl1read i hi hv] at hv' ⊢
      exact hwf.l1_good i j hi hj hv hv'
    case nr1 =>
      intro i hi hv
      simp only [hroot] at hv ⊢
      exact hwf.ne_root_l1 i hi hv
    case nr0 =>
      intro i j hi hj hv hv'
      simp only [hroot] at hv hv' ⊢
      rw [hl1read i hi hv] at hv' ⊢
      exact hwf.ne_root_l0 i j hi hj hv hv'
    case n10 =>
      intro i j i' hi hj hi' hv hv' hv''
      simp only [hroot] at hv hv' hv'' ⊢
      rw [hl1read i hi hv] at hv' ⊢
      exact hwf.ne_l1_l0 i j i' hi hj hi' hv hv' hv''
    case in1 =>
      intro i i' hi hi' hv hv'
      simp only [hroot] at hv hv' ⊢
      exact hwf.inj_l1 i i' hi hi' hv hv'
    case in0 =>
      intro i j i' j' hi hj hi' hj' hv hv' hw hw'
      simp only [hroot] at hv hv' hw hw' ⊢
      rw [hl1read i hi hv] at hv' ⊢
      rw [hl1read i' hi' hw] at hw' ⊢
      exact hwf.inj_l0 i j i' j' hi hj hi' hj' hv hv' hw hw'
  have hsame : ∀ va', va' < MAXVA → va' / PGSIZE = va / PGSIZE →
      pathL0 s pt va' = some p0 ∧ PX 0 va' = PX 0 va := by
    intro va' hva' heq
    rw [MAXVA_eq] at hva hva'
    rw [PGSIZE_def] at heq
    have hpx := (px_all_eq_iff va' va hva' hva).mpr heq
    rw [pathL0_some_iff, hpx.1, hpx.2.1]
    exact ⟨⟨hv2, hv1, hp0⟩, hpx.2.2⟩
  refine ⟨hwft, htbls, hpath, ?_, ?_, ?_⟩
  · intro q j hq
    rw [hread, if_neg hq]
  · intro va' hva' hne
    rw [walkaddr_eq, walkaddr_eq, if_neg (not_le.mpr hva'), if_neg (not_le.mpr hva'),
      hpath]
    cases hps : pathL0 s pt va' with
    | none => rfl
    | some p' =>
      have hval : (setPte s p0 (PX 0 va) v).ptes p' (PX 0 va') =
          s.ptes p' (PX 0 va') := by
        rw [hread]
        refine if_neg ?_
        rintro ⟨he, hj⟩
        subst he
        obtain ⟨h2', h1', hp'⟩ := (pathL0_some_iff s pt va' p').mp hps
        have hinj := hwf.inj_l0 (PX 2 va') (PX 1 va') (PX 2 va) (PX 1 va)
          (PX_lt 2 va') (PX_lt 1 va') hpx2 hpx1 h2' h1' hv2 hv1
          (by rw [← hp', ← hp0])
        refine hne ?_
        rw [MAXVA_eq] at hva hva'
        rw [PGSIZE_def]
        exact (px_all_eq_iff va' va hva' hva).mp ⟨hinj.1, hinj.2, hj⟩
      simp only [hval]
  · intro va' hva' heq
    obtain ⟨hps, hpx0⟩ := hsame va' hva' heq
    refine ⟨hps, hpx0, ?_⟩
    rw [walkaddr_eq, if_neg (not_le.mpr hva'), hpath, hps]
    have hval : (setPte s p0 (PX 0 va) v).ptes p0 (PX 0 va') = v := by
      rw [hread, if_pos ⟨Eq.refl _, hpx0⟩]
    simp only [hval]
    by_cases hv0 : v &&& PTE_V = 0
    · simp [validE, hv0]
    · by_cases hvu : v &&& PTE_U = 0
      · simp [validE, hv0, hvu]
      · simp [validE, hv0, hvu]

/-! ### The user bit of a built leaf entry -/

theorem and_U_or (a b : Nat) :
    (a ||| b) &&& PTE_U = (a &&& PTE_U) ||| (b &&& PTE_U) := by
  rw [Nat.and_comm, Nat.and_or_distrib_left, Nat.and_comm PTE_U a, Nat.and_comm PTE_U b]

theorem PA2PTE_and_U (pa : Nat) : PA2PTE pa &&& PTE_U = 0 := by
  rw [PA2PTE_eq, PTE_U]
  have h : (16 : Nat) = 2 ^ 4 := by norm_num
  rw [h, Nat.and_two_pow, Nat.testBit_to_div_mod]
  have h2 : pa / 4096 * 1024 / 2 ^ 4 % 2 = 0 := by
    have h3 : (2 : Nat) ^ 4 = 16 := by norm_num
    rw [h3]
    omega
  rw [h2]
  simp

theorem leaf_entry_and_U (pa perm : Nat) :
    (PA2PTE pa ||| perm ||| PTE_V) &&& PTE_U = perm &&& PTE_U := by
  rw [and_U_or, and_U_or, PA2PTE_and_U, Nat.zero_or]
  have h1 : PTE_V &&& PTE_U = 0 := by decide
  rw [h1, Nat.or_zero]

/-- Two addresses reaching the same level-0 table share both upper indices. -/
theorem pathL0_px_inj (s : VMState) (pt : Nat) (hwf : WF s pt) (va vb p : Nat)
    (hva : pathL0 s pt va = some p) (hvb : pathL0 s pt vb = some p) :
    PX 2 va = PX 2 vb ∧ PX 1 va = PX 1 vb := by
  obtain ⟨ha2, ha1, hpa⟩ := (pathL0_some_iff s pt va p).mp hva
  obtain ⟨hb2, hb1, hpb⟩ := (pathL0_some_iff s pt vb p).mp hvb
  exact hwf.inj_l0 (PX 2 va) (PX 1 va) (PX 2 vb) (PX 1 vb)
    (PX_lt 2 va) (PX_lt 1 va) (PX_lt 2 vb) (PX_lt 1 vb)
    ha2 ha1 hb2 hb1 (hpa.symm.trans hpb)

/-! ### The mapping loop -/

/-- The induction behind `mappages`: a run of its loop over `n + 1` pages
that returns `0` establishes the `MapOk` postcondition. -/
theorem mapLoop_ok (pt perm : Nat) (hperm : perm < 1024) :
    ∀ n s a pa, WF s pt → a % PGSIZE = 0 → pa % PGSIZE = 0 →
      a + n * PGSIZE < MAXVA →
      (∀ k, k ≤ n → ∀ p, pathL0 s pt (a + k * PGSIZE) = some p →
          ¬ validE (s.ptes p (PX 0 (a + k * PGSIZE)))) →
      ∀ s', mapLoop s pt a pa perm n = .ok (0, s') →
      MapOk s s' pt a pa perm n := by
  intro n
  induction n with
  | zero =>
    intro s a pa hwf ha hpa hub hclr s' hrun
    have hva : a < MAXVA := by omega
    obtain ⟨r, s1, hwalk, hg, hsome, hprog⟩ := walk_alloc_spec s pt a hwf hva
    rw [mapLoop, hwalk] at hrun
    cases r with
    | none =>
      dsimp only at hrun
      injection hrun with h
      injection h with h1 h2
      exact absurd h1 (by decide)
    | some pi =>
      obtain ⟨p0, i0⟩ := pi
      obtain ⟨hi0, hpath1, hold⟩ := hsome p0 i0 (Eq.refl _)
      subst hi0
      dsimp only at hrun
      have hclr0 := hclr 0 (Nat.zero_le _) p0
      simp only [Nat.zero_mul, Nat.add_zero] at hclr0
      have hinv : ¬ validE (s1.ptes p0 (PX 0 a)) := by
        rcases hold with ⟨heq, hps⟩ | ⟨hfree, hzero⟩
        · rw [heq]
          exact hclr0 hps
        · rw [hzero (PX 0 a), validE_iff]
          omega
      rw [if_neg (show ¬ s1.ptes p0 (PX 0 a) &&& PTE_V ≠ 0 from hinv)] at hrun
      injection hrun with h
      injection h with h1 h2
      subst h2
      obtain ⟨hwf2, htbls2, hpath2, hframe2, hwane, hwaeq⟩ :=
        setLeaf_facts s1 pt a p0 (PA2PTE pa ||| perm ||| PTE_V) hg.wf hva hpath1
      have hp0tbl1 : Tbls s1 pt p0 := by
        obtain ⟨h2v, h1v, he⟩ := (pathL0_some_iff s1 pt a p0).mp hpath1
        exact Or.inr (Or.inr ⟨PX 2 a, PX 1 a, PX_lt 2 a, PX_lt 1 a, h2v, h1v, he⟩)
      obtain ⟨m1, hm1⟩ := hg.drop
      have hp0q : ∀ (q : Nat) j, ¬ Tbls s pt q → q ∉ s.freeList →
          ¬ (q = p0 ∧ j = PX 0 a) := by
        intro q j hq1 hq2 hc
        rcases hg.tblGrow p0 hp0tbl1 with h | ⟨h, _⟩
        · exact hq1 (hc.1 ▸ h)
        · exact hq2 (hc.1 ▸ h)
      refine {
        wf := hwf2
        drop := ⟨m1, hm1⟩
        tblMono := fun q h => (htbls2 q).mpr (hg.tblMono q h)
        bytesOut := fun q hq o => hg.bytesOut q hq o
        pathPres := fun va' p h => by rw [hpath2]; exact hg.pathPres va' p h
        flAcct := by
          intro q hq
          rcases hg.flAcct q hq with h | h | h
          · refine Or.inl ?_
            rw [setPte_freeList]
            exact h
          · exact Or.inr (Or.inl ((htbls2 q).mpr h))
          · exact Or.inr (Or.inr h)
        tblGrow := ?_, ptesOut := ?_, validPres := ?_, installed := ?_
        waFrame := ?_, writeChar := ?_, newClean := ?_, l0Pres := ?_
        l0New := ?_ }
      · intro q h
        rcases hg.tblGrow q ((htbls2 q).mp h) with h' | ⟨h1', h2'⟩
        · exact Or.inl h'
        · exact Or.inr ⟨h1', h2'⟩
      · intro q hq1 hq2 j
        rw [hframe2 q j (hp0q q j hq1 hq2), hg.ptesOut q hq1 hq2 j]
      · intro q j hq hv
        have h1 : s1.ptes q j = s.ptes q j := hg.validPres q j hq hv
        have hns : ¬ (q = p0 ∧ j = PX 0 a) := by
          rintro ⟨hc1, hc2⟩
          subst hc1
          subst hc2
          rw [h1] at hinv
          exact hinv hv
        rw [hframe2 q j hns, h1]
      · intro k hk
        have hk0 : k = 0 := Nat.le_zero.mp hk
        subst hk0
        refine ⟨p0, ?_, ?_⟩
        · simp only [Nat.zero_mul, Nat.add_zero]
          rw [hpath2]
          exact hpath1
        · simp only [Nat.zero_mul, Nat.add_zero]
          rw [setPte_ptes, if_pos ⟨Eq.refl _, Eq.refl _⟩]
      · intro va' hva' hne
        have hne0 := hne 0 (Nat.le_refl 0)
        simp only [Nat.zero_mul, Nat.add_zero] at hne0
        rw [hwane va' hva' hne0, hg.waPres va']
      · intro q j hq hne
        by_cases hslot : q = p0 ∧ j = PX 0 a
        · right
          refine ⟨0, Nat.le_refl 0, ?_, ?_⟩
          · simp only [Nat.zero_mul, Nat.add_zero]
            rw [hpath2, hslot.1]
            exact hpath1
          · rw [hslot.2]
            simp only [Nat.zero_mul, Nat.add_zero]
        · rw [hframe2 q j hslot] at hne ⊢
          exact Or.inl (hg.writeIntern q j hq hne)
      · intro q hq hq' j
        have hq1 : Tbls s1 pt q := (htbls2 q).mp hq
        by_cases hslot : q = p0 ∧ j = PX 0 a
        · right; right
          refine ⟨0, Nat.le_refl 0, ?_, ?_⟩
          · simp only [Nat.zero_mul, Nat.add_zero]
            rw [hpath2, hslot.1]
            exact hpath1
          · rw [hslot.2]
            simp only [Nat.zero_mul, Nat.add_zero]
        · rw [hframe2 q j hslot]
          rcases hg.newClean q hq1 hq' j with h | h
          · exact Or.inl h
          · exact Or.inr (Or.inl h)
      · rintro q ⟨i2, j2, hi2, hj2, hv2f, hv1f, hqf⟩ j
        by_cases hslot : q = p0 ∧ j = PX 0 a
        · right
          refine ⟨0, Nat.le_refl 0, ?_, ?_⟩
          · simp only [Nat.zero_mul, Nat.add_zero]
            rw [hpath2, hslot.1]
            exact hpath1
          · rw [hslot.2]
            simp only [Nat.zero_mul, Nat.add_zero]
        · left
          rw [hframe2 q j hslot]
          exact hg.l0Pres q ⟨i2, j2, hi2, hj2, hv2f, hv1f, hqf⟩ j
      · rintro q ⟨i2, j2, hi2, hj2, hv2f, hv1f, hqf⟩ hqs j
        obtain ⟨hv2a, hv1a, hpa0⟩ := (pathL0_some_iff s1 pt a p0).mp hpath1
        have hp0nr : p0 ≠ pt := by
          rw [hpa0]
          exact hg.wf.ne_root_l0 _ _ (PX_lt 2 a) (PX_lt 1 a) hv2a hv1a
        have hroot2 : ∀ i, (setPte s1 p0 (PX 0 a)
            (PA2PTE pa ||| perm ||| PTE_V)).ptes pt i = s1.ptes pt i := by
          intro i
          exact hframe2 pt i (fun hc => hp0nr hc.1.symm)
        rw [hroot2 i2] at hv2f hv1f hqf
        have hT : p0 ≠ PTE2PA (s1.ptes pt i2) := by
          rw [hpa0]
          exact hg.wf.ne_l1_l0 _ _ i2 (PX_lt 2 a) (PX_lt 1 a) hi2 hv2a hv1a hv2f
        have hl1r : ∀ jx, (setPte s1 p0 (PX 0 a)
            (PA2PTE pa ||| perm ||| PTE_V)).ptes (PTE2PA (s1.ptes pt i2)) jx =
            s1.ptes (PTE2PA (s1.ptes pt i2)) jx := by
          intro jx
          exact hframe2 _ jx (fun hc => hT hc.1.symm)
        rw [hl1r j2] at hv1f hqf
        have hz := hg.newL0Zero q ⟨i2, j2, hi2, hj2, hv2f, hv1f, hqf⟩ hqs
        by_cases hslot : q = p0 ∧ j = PX 0 a
        · right
          refine ⟨0, Nat.le_refl 0, ?_, ?_⟩
          · simp only [Nat.zero_mul, Nat.add_zero]
            rw [hpath2, hslot.1]
            exact hpath1
          · rw [hslot.2]
            simp only [Nat.zero_mul, Nat.add_zero]
        · left
          rw [hframe2 q j hslot]
          exact hz j
  | succ n ih =>
    intro s a pa hwf ha hpa hub hclr s' hrun
    have hva : a < MAXVA := by
      rw [Nat.succ_mul] at hub
      omega
    obtain ⟨r, s1, hwalk, hg, hsome, hprog⟩ := walk_alloc_spec s pt a hwf hva
    rw [mapLoop, hwalk] at hrun
    cases r with
    | none =>
      dsimp only at hrun
      injection hrun with h
      injection h with h1 h2
      exact absurd h1 (by decide)
    | some pi =>
      obtain ⟨p0, i0⟩ := pi
      obtain ⟨hi0, hpath1, hold⟩ := hsome p0 i0 (Eq.refl _)
      subst hi0
      dsimp only at hrun
      have hclr0 := hclr 0 (Nat.zero_le _) p0
      simp only [Nat.zero_mul, Nat.add_zero] at hclr0
      have hinv : ¬ validE (s1.ptes p0 (PX 0 a)) := by
        rcases hold with ⟨heq, hps⟩ | ⟨hfree, hzero⟩
        · rw [heq]
          exact hclr0 hps
        · rw [hzero (PX 0 a), validE_iff]
          omega
      rw [if_neg (show ¬ s1.ptes p0 (PX 0 a) &&& PTE_V ≠ 0 from hinv)] at hrun
      obtain ⟨hwf2, htbls2, hpath2, hframe2, hwane, hwaeq⟩ :=
        setLeaf_facts s1 pt a p0 (PA2PTE pa ||| perm ||| PTE_V) hg.wf hva hpath1
      have hp0tbl1 : Tbls s1 pt p0 := by
        obtain ⟨h2v, h1v, he⟩ := (pathL0_some_iff s1 pt a p0).mp hpath1
        exact Or.inr (Or.inr ⟨PX 2 a, PX 1 a, PX_lt 2 a, PX_lt 1 a, h2v, h1v, he⟩)
      obtain ⟨m1, hm1⟩ := hg.drop
      have hsub1 : ∀ q, q ∈ s1.freeList → q ∈ s.freeList := by
        intro q hq
        rw [hm1] at hq
        exact List.drop_subset _ _ hq
      have hp0q : ∀ (q : Nat) j, ¬ Tbls s pt q → q ∉ s.freeList →
          ¬ (q = p0 ∧ j = PX 0 a) := by
        intro q j hq1 hq2 hc
        rcases hg.tblGrow p0 hp0tbl1 with h | ⟨h, _⟩
        · exact hq1 (hc.1 ▸ h)
        · exact hq2 (hc.1 ▸ h)
      have hk1 : ∀ k : Nat, a + PGSIZE + k * PGSIZE = a + (k + 1) * PGSIZE := by
        intro k
        rw [Nat.succ_mul]
        omega
      have hk1p : ∀ k : Nat, pa + PGSIZE + k * PGSIZE = pa + (k + 1) * PGSIZE := by
        intro k
        rw [Nat.succ_mul]
        omega
      have ha' : (a + PGSIZE) % PGSIZE = 0 := by
        simp only [PGSIZE_def] at ha ⊢
        omega
      have hpa' : (pa + PGSIZE) % PGSIZE = 0 := by
        simp only [PGSIZE_def] at hpa ⊢
        omega
      have hub' : a + PGSIZE + n * PGSIZE < MAXVA := by
        rw [hk1 n]
        exact hub
      have hlt2 : ∀ k, k ≤ n → a + (k + 1) * PGSIZE < MAXVA := by
        intro k hk
        have h1 : (k + 1) * PGSIZE ≤ (n + 1) * PGSIZE :=
          Nat.mul_le_mul_right _ (by omega)
        omega
      have hclr' : ∀ k, k ≤ n → ∀ p,
          pathL0 (setPte s1 p0 (PX 0 a) (PA2PTE pa ||| perm ||| PTE_V)) pt
            (a + PGSIZE + k * PGSIZE) = some p →
          ¬ validE ((setPte s1 p0 (PX 0 a) (PA2PTE pa ||| perm ||| PTE_V)).ptes p
            (PX 0 (a + PGSIZE + k * PGSIZE))) := by
        intro k hk p hp
        rw [hk1 k] at hp ⊢
        have hp1 : pathL0 s1 pt (a + (k + 1) * PGSIZE) = some p := by
          rw [← hpath2]
          exact hp
        have hbltM : a + (k + 1) * PGSIZE < MAXVA := hlt2 k hk
        have hdiffpage : (a + (k + 1) * PGSIZE) / 4096 ≠ a / 4096 := by
          simp only [PGSIZE_def] at ha ⊢
          omega
        have hslot_ne : ¬ (p = p0 ∧ PX 0 (a + (k + 1) * PGSIZE) = PX 0 a) := by
          rintro ⟨hpe, hpx0⟩
          subst hpe
          obtain ⟨h2e, h1e⟩ := pathL0_px_inj s1 pt hg.wf (a + (k + 1) * PGSIZE) a p
            hp1 hpath1
          exact hdiffpage ((px_all_eq_iff (a + (k + 1) * PGSIZE) a
            ((lt_MAXVA_iff _).mp hbltM) ((lt_MAXVA_iff _).mp hva)).mp ⟨h2e, h1e, hpx0⟩)
        rw [hframe2 p (PX 0 (a + (k + 1) * PGSIZE)) hslot_ne]
        cases hps : pathL0 s pt (a + (k + 1) * PGSIZE) with
        | some p' =>
          have hp1' : pathL0 s1 pt (a + (k + 1) * PGSIZE) = some p' :=
            hg.pathPres _ p' hps
          have hpp : p = p' := by
            rw [hp1] at hp1'
            exact Option.some.inj hp1'
          subst hpp
          obtain ⟨hs2v, hs1v, hpe⟩ := (pathL0_some_iff s pt _ p).mp hps
          have hl0 : s1.ptes p (PX 0 (a + (k + 1) * PGSIZE)) =
              s.ptes p (PX 0 (a + (k + 1) * PGSIZE)) :=
            hg.l0Pres p ⟨PX 2 (a + (k + 1) * PGSIZE), PX 1 (a + (k + 1) * PGSIZE),
              PX_lt 2 _, PX_lt 1 _, hs2v, hs1v, hpe⟩ _
          rw [hl0]
          exact hclr (k + 1) (by omega) p hps
        | none =>
          obtain ⟨h2e, h1e, hpe⟩ := (pathL0_some_iff s1 pt _ p).mp hp1
          have hnotbl : ¬ Tbls s pt p := by
            rintro (hroot | ⟨i, hi, hv, hqe⟩ | ⟨i, j2, hi, hj2, hv, hv', hqe⟩)
            · exact hg.wf.ne_root_l0 _ _ (PX_lt 2 _) (PX_lt 1 _) h2e h1e
                (hpe.symm.trans hroot)
            · have he : s1.ptes pt i = s.ptes pt i :=
                hg.validPres pt i (Or.inl (Eq.refl _)) hv
              have hv1' : validE (s1.ptes pt i) := by rw [he]; exact hv
              have hqe1 : p = PTE2PA (s1.ptes pt i) := by rw [he]; exact hqe
              exact hg.wf.ne_l1_l0 _ _ i (PX_lt 2 _) (PX_lt 1 _) hi h2e h1e hv1'
                (hpe.symm.trans hqe1)
            · have hei : s1.ptes pt i = s.ptes pt i :=
                hg.validPres pt i (Or.inl (Eq.refl _)) hv
              have hviL : validE (s1.ptes pt i) := by rw [hei]; exact hv
              have hej : s1.ptes (PTE2PA (s.ptes pt i)) j2 =
                  s.ptes (PTE2PA (s.ptes pt i)) j2 :=
                hg.validPres _ j2 (Or.inr (Or.inl ⟨i, hi, hv, Eq.refl _⟩)) hv'
              have hv'1 : validE (s1.ptes (PTE2PA (s1.ptes pt i)) j2) := by
                rw [hei, hej]
                exact hv'
              have hqe1 : p = PTE2PA (s1.ptes (PTE2PA (s1.ptes pt i)) j2) := by
                rw [hei, hej]
                exact hqe
              obtain ⟨hieq, hjeq⟩ := hg.wf.inj_l0 (PX 2 (a + (k + 1) * PGSIZE))
                (PX 1 (a + (k + 1) * PGSIZE)) i j2 (PX_lt 2 _) (PX_lt 1 _) hi hj2
                h2e h1e hviL hv'1 (hpe.symm.trans hqe1)
              rw [pathL0_none_iff] at hps
              rcases hps with hc | hc
              · rw [← hieq] at hv
                exact hc hv
              · rw [← hieq] at hv'
                rw [← hjeq] at hv'
                exact hc hv'
          rw [hg.newL0Zero p ⟨PX 2 (a + (k + 1) * PGSIZE), PX 1 (a + (k + 1) * PGSIZE),
            PX_lt 2 _, PX_lt 1 _, h2e, h1e, hpe⟩ hnotbl _, validE_iff]
          omega
      have H := ih (setPte s1 p0 (PX 0 a) (PA2PTE pa ||| perm ||| PTE_V))
        (a + PGSIZE) (pa + PGSIZE) hwf2 ha' hpa' hub' hclr' s' hrun
      obtain ⟨m2, hm2⟩ := H.drop
      have hsub2 : ∀ q, q ∈ s'.freeList → q ∈ s1.freeList := by
        intro q hq
        rw [hm2, setPte_freeList] at hq
        exact List.drop_subset _ _ hq
      refine {
        wf := H.wf
        drop := ⟨m2 + m1, by rw [hm2, setPte_freeList, hm1, List.drop_drop,
          Nat.add_comm]⟩
        tblMono := fun q h => H.tblMono q ((htbls2 q).mpr (hg.tblMono q h))
        pathPres := fun va' p h =>
          H.pathPres va' p (by rw [hpath2]; exact hg.pathPres va' p h)
        flAcct := by
          intro q hq
          rcases hg.flAcct q hq with h | h | h
          · refine H.flAcct q ?_
            rw [setPte_freeList]
            exact h
          · exact Or.inr (Or.inl (H.tblMono q ((htbls2 q).mpr h)))
          · exact Or.inr (Or.inr h)
        tblGrow := ?_, ptesOut := ?_, bytesOut := ?_, validPres := ?_
        installed := ?_, waFrame := ?_, writeChar := ?_, newClean := ?_
        l0Pres := ?_, l0New := ?_ }
      · intro q h
        rcases H.tblGrow q h with h2 | ⟨h2a, h2b⟩
        · rcases hg.tblGrow q ((htbls2 q).mp h2) with h1 | ⟨h1a, h1b⟩
          · exact Or.inl h1
          · exact Or.inr ⟨h1a, fun hc => h1b (hsub2 q hc)⟩
        · refine Or.inr ⟨?_, h2b⟩
          exact hsub1 q h2a
      · intro q hq1 hq2 j
        have hq1' : ¬ Tbls (setPte s1 p0 (PX 0 a) (PA2PTE pa ||| perm ||| PTE_V)) pt q := by
          intro hc
          rcases hg.tblGrow q ((htbls2 q).mp hc) with h | ⟨h, _⟩
          · exact hq1 h
          · exact hq2 h
        have hq2' : q ∉ (setPte s1 p0 (PX 0 a) (PA2PTE pa ||| perm ||| PTE_V)).freeList := by
          rw [setPte_freeList]
          intro hc
          exact hq2 (hsub1 q hc)
        rw [H.ptesOut q hq1' hq2' j, hframe2 q j (hp0q q j hq1 hq2),
          hg.ptesOut q hq1 hq2 j]
      · intro q hq o
        have hq' : q ∉ (setPte s1 p0 (PX 0 a) (PA2PTE pa ||| perm ||| PTE_V)).freeList := by
          rw [setPte_freeList]
          intro hc
          exact hq (hsub1 q hc)
        rw [H.bytesOut q hq' o, setPte_bytes]
        exact hg.bytesOut q hq o
      · intro q j hq hv
        have h1 : s1.ptes q j = s.ptes q j := hg.validPres q j hq hv
        have hns : ¬ (q = p0 ∧ j = PX 0 a) := by
          rintro ⟨hc1, hc2⟩
          subst hc1
          subst hc2
          rw [h1] at hinv
          exact hinv hv
        have h2 : (setPte s1 p0 (PX 0 a) (PA2PTE pa ||| perm ||| PTE_V)).ptes q j =
            s.ptes q j := by
          rw [hframe2 q j hns, h1]
        rw [H.validPres q j ((htbls2 q).mpr (hg.tblMono q hq)) (by rw [h2]; exact hv), h2]
      · intro k hk
        cases k with
        | zero =>
          refine ⟨p0, ?_, ?_⟩
          · simp only [Nat.zero_mul, Nat.add_zero]
            refine H.pathPres a p0 ?_
            rw [hpath2]
            exact hpath1
          · simp only [Nat.zero_mul, Nat.add_zero]
            have hval : validE ((setPte s1 p0 (PX 0 a)
                (PA2PTE pa ||| perm ||| PTE_V)).ptes p0 (PX 0 a)) := by
              rw [setPte_ptes, if_pos ⟨Eq.refl _, Eq.refl _⟩]
              exact (leaf_entry_facts pa perm hpa hperm).2.2.1
            rw [H.validPres p0 (PX 0 a) ((htbls2 p0).mpr hp0tbl1) hval,
              setPte_ptes, if_pos ⟨Eq.refl _, Eq.refl _⟩]
        | succ k =>
          obtain ⟨p, hp, he⟩ := H.installed k (by omega)
          refine ⟨p, ?_, ?_⟩
          · rw [← hk1 k]
            exact hp
          · rw [← hk1 k, ← hk1p k]
            exact he
      · intro va' hva' hne
        have hne0 := hne 0 (Nat.zero_le _)
        simp only [Nat.zero_mul, Nat.add_zero] at hne0
        have hneH : ∀ k, k ≤ n → va' / PGSIZE ≠ (a + PGSIZE + k * PGSIZE) / PGSIZE := by
          intro k hk
          rw [hk1 k]
          exact hne (k + 1) (by omega)
        rw [H.waFrame va' hva' hneH, hwane va' hva' hne0, hg.waPres va']
      · intro q j hq hne
        by_cases h2eq : s'.ptes q j =
            (setPte s1 p0 (PX 0 a) (PA2PTE pa ||| perm ||| PTE_V)).ptes q j
        · by_cases hslot : q = p0 ∧ j = PX 0 a
          · right
            refine ⟨0, Nat.zero_le _, ?_, ?_⟩
            · simp only [Nat.zero_mul, Nat.add_zero]
              rw [hslot.1]
              refine H.pathPres a p0 ?_
              rw [hpath2]
              exact hpath1
            · rw [hslot.2]
              simp only [Nat.zero_mul, Nat.add_zero]
          · rw [h2eq, hframe2 q j hslot] at hne ⊢
            exact Or.inl (hg.writeIntern q j hq hne)
        · rcases H.writeChar q j ((htbls2 q).mpr (hg.tblMono q hq)) h2eq with
            h | ⟨k, hk, hp, hj⟩
          · exact Or.inl h
          · right
            refine ⟨k + 1, by omega, ?_, ?_⟩
            · rw [← hk1 k]
              exact hp
            · rw [← hk1 k]
              exact hj
      · intro q hq hq' j
        by_cases hq2 : Tbls (setPte s1 p0 (PX 0 a) (PA2PTE pa ||| perm ||| PTE_V)) pt q
        · have hq1 : Tbls s1 pt q := (htbls2 q).mp hq2
          by_cases h2eq : s'.ptes q j =
              (setPte s1 p0 (PX 0 a) (PA2PTE pa ||| perm ||| PTE_V)).ptes q j
          · by_cases hslot : q = p0 ∧ j = PX 0 a
            · right; right
              refine ⟨0, Nat.zero_le _, ?_, ?_⟩
              · simp only [Nat.zero_mul, Nat.add_zero]
                rw [hslot.1]
                refine H.pathPres a p0 ?_
                rw [hpath2]
                exact hpath1
              · rw [hslot.2]
                simp only [Nat.zero_mul, Nat.add_zero]
            · rw [h2eq, hframe2 q j hslot]
              rcases hg.newClean q hq1 hq' j with h | h
              · exact Or.inl h
              · exact Or.inr (Or.inl h)
          · rcases H.writeChar q j hq2 h2eq with h | ⟨k, hk, hp, hj⟩
            · exact Or.inr (Or.inl h)
            · right; right
              refine ⟨k + 1, by omega, ?_, ?_⟩
              · rw [← hk1 k]
                exact hp
              · rw [← hk1 k]
                exact hj
        · rcases H.newClean q hq hq2 j with h | h | ⟨k, hk, hp, hj⟩
          · exact Or.inl h
          · exact Or.inr (Or.inl h)
          · right; right
            refine ⟨k + 1, by omega, ?_, ?_⟩
            · rw [← hk1 k]
              exact hp
            · rw [← hk1 k]
              exact hj
      · rintro q ⟨i2, j2, hi2, hj2, hv2f, hv1f, hqf⟩ j
        obtain ⟨hv2a, hv1a, hpa0⟩ := (pathL0_some_iff s1 pt a p0).mp hpath1
        have hp0nr : p0 ≠ pt := by
          rw [hpa0]
          exact hg.wf.ne_root_l0 _ _ (PX_lt 2 a) (PX_lt 1 a) hv2a hv1a
        have hr1 : s1.ptes pt i2 = s.ptes pt i2 :=
          hg.validPres pt i2 (Or.inl (Eq.refl _)) hv2f
        have hrootp : (setPte s1 p0 (PX 0 a) (PA2PTE pa ||| perm ||| PTE_V)).ptes pt i2 = s.ptes pt i2 := by
          rw [hframe2 pt i2 (fun hc => hp0nr hc.1.symm), hr1]
        have hv2s1 : validE (s1.ptes pt i2) := by
          rw [hr1]
          exact hv2f
        have hT : p0 ≠ PTE2PA (s1.ptes pt i2) := by
          rw [hpa0]
          exact hg.wf.ne_l1_l0 _ _ i2 (PX_lt 2 a) (PX_lt 1 a) hi2 hv2a hv1a hv2s1
        have hT' : p0 ≠ PTE2PA (s.ptes pt i2) := by
          rw [← hr1]
          exact hT
        have hl1s1 : s1.ptes (PTE2PA (s.ptes pt i2)) j2 =
            s.ptes (PTE2PA (s.ptes pt i2)) j2 :=
          hg.validPres _ j2 (Or.inr (Or.inl ⟨i2, hi2, hv2f, Eq.refl _⟩)) hv1f
        have hl1p : (setPte s1 p0 (PX 0 a) (PA2PTE pa ||| perm ||| PTE_V)).ptes (PTE2PA (s.ptes pt i2)) j2 =
            s.ptes (PTE2PA (s.ptes pt i2)) j2 := by
          rw [hframe2 _ j2 (fun hc => hT' hc.1.symm), hl1s1]
        have hform2 : ∃ i3 j3, i3 < 512 ∧ j3 < 512 ∧
            validE ((setPte s1 p0 (PX 0 a) (PA2PTE pa ||| perm ||| PTE_V)).ptes pt i3) ∧
            validE ((setPte s1 p0 (PX 0 a) (PA2PTE pa ||| perm ||| PTE_V)).ptes (PTE2PA ((setPte s1 p0 (PX 0 a) (PA2PTE pa ||| perm ||| PTE_V)).ptes pt i3)) j3) ∧
            q = PTE2PA ((setPte s1 p0 (PX 0 a) (PA2PTE pa ||| perm ||| PTE_V)).ptes (PTE2PA ((setPte s1 p0 (PX 0 a) (PA2PTE pa ||| perm ||| PTE_V)).ptes pt i3)) j3) :=
          ⟨i2, j2, hi2, hj2, by rw [hrootp]; exact hv2f,
            by rw [hrootp, hl1p]; exact hv1f,
            by rw [hrootp, hl1p]; exact hqf⟩
        rcases H.l0Pres q hform2 j with h | ⟨k, hk, hp, hj⟩
        · by_cases hslot : q = p0 ∧ j = PX 0 a
          · right
            refine ⟨0, Nat.zero_le _, ?_, ?_⟩
            · simp only [Nat.zero_mul, Nat.add_zero]
              rw [hslot.1]
              refine H.pathPres a p0 ?_
              rw [hpath2]
              exact hpath1
            · rw [hslot.2]
              simp only [Nat.zero_mul, Nat.add_zero]
          · left
            rw [h, hframe2 q j hslot]
            exact hg.l0Pres q ⟨i2, j2, hi2, hj2, hv2f, hv1f, hqf⟩ j
        · right
          refine ⟨k + 1, by omega, ?_, ?_⟩
          · rw [← hk1 k]
            exact hp
          · rw [← hk1 k]
            exact hj
      · rintro q ⟨i2, j2, hi2, hj2, hv2f, hv1f, hqf⟩ hqs j
        by_cases hq2 : Tbls (setPte s1 p0 (PX 0 a) (PA2PTE pa ||| perm ||| PTE_V)) pt q
        · obtain ⟨hv2a, hv1a, hpa0⟩ := (pathL0_some_iff s1 pt a p0).mp hpath1
          have hp0nr : p0 ≠ pt := by
            rw [hpa0]
            exact hg.wf.ne_root_l0 _ _ (PX_lt 2 a) (PX_lt 1 a) hv2a hv1a
          have hq1 : Tbls s1 pt q := (htbls2 q).mp hq2
          rcases hq1 with hroot | ⟨i', hi', hv', hq'⟩ | ⟨i3, j3, hi3, hj3, hv3, hv3', hq3⟩
          · exact absurd (hqf.symm.trans hroot)
              (H.wf.ne_root_l0 i2 j2 hi2 hj2 hv2f hv1f)
          · have e2 : (setPte s1 p0 (PX 0 a) (PA2PTE pa ||| perm ||| PTE_V)).ptes pt i' = s1.ptes pt i' :=
              hframe2 pt i' (fun hc => hp0nr hc.1.symm)
            have e3 : s'.ptes pt i' = s1.ptes pt i' := by
              rw [H.validPres pt i' (Or.inl (Eq.refl _)) (by rw [e2]; exact hv'), e2]
            exact absurd (hqf.symm.trans (by rw [e3]; exact hq'))
              (H.wf.ne_l1_l0 i2 j2 i' hi2 hj2 hi' hv2f hv1f (by rw [e3]; exact hv'))
          · have hz := hg.newL0Zero q ⟨i3, j3, hi3, hj3, hv3, hv3', hq3⟩ hqs
            have hT : p0 ≠ PTE2PA (s1.ptes pt i3) := by
              rw [hpa0]
              exact hg.wf.ne_l1_l0 _ _ i3 (PX_lt 2 a) (PX_lt 1 a) hi3 hv2a hv1a hv3
            have hform2 : ∃ i4 j4, i4 < 512 ∧ j4 < 512 ∧
                validE ((setPte s1 p0 (PX 0 a) (PA2PTE pa ||| perm ||| PTE_V)).ptes pt i4) ∧
                validE ((setPte s1 p0 (PX 0 a) (PA2PTE pa ||| perm ||| PTE_V)).ptes (PTE2PA ((setPte s1 p0 (PX 0 a) (PA2PTE pa ||| perm ||| PTE_V)).ptes pt i4)) j4) ∧
                q = PTE2PA ((setPte s1 p0 (PX 0 a) (PA2PTE pa ||| perm ||| PTE_V)).ptes (PTE2PA ((setPte s1 p0 (PX 0 a) (PA2PTE pa ||| perm ||| PTE_V)).ptes pt i4)) j4) :=
              ⟨i3, j3, hi3, hj3,
                by rw [hframe2 pt i3 (fun hc => hp0nr hc.1.symm)]; exact hv3,
                by rw [hframe2 pt i3 (fun hc => hp0nr hc.1.symm),
                  hframe2 _ j3 (fun hc => hT hc.1.symm)]; exact hv3',
                by rw [hframe2 pt i3 (fun hc => hp0nr hc.1.symm),
                  hframe2 _ j3 (fun hc => hT hc.1.symm)]; exact hq3⟩
            rcases H.l0Pres q hform2 j with h | ⟨k, hk, hp, hj⟩
            · by_cases hslot : q = p0 ∧ j = PX 0 a
              · right
                refine ⟨0, Nat.zero_le _, ?_, ?_⟩
                · simp only [Nat.zero_mul, Nat.add_zero]
                  rw [hslot.1]
                  refine H.pathPres a p0 ?_
                  rw [hpath2]
                  exact hpath1
                · rw [hslot.2]
                  simp only [Nat.zero_mul, Nat.add_zero]
              · left
                rw [h, hframe2 q j hslot]
                exact hz j
            · right
              refine ⟨k + 1, by omega, ?_, ?_⟩
              · rw [← hk1 k]
                exact hp
              · rw [← hk1 k]
                exact hj
        · rcases H.l0New q ⟨i2, j2, hi2, hj2, hv2f, hv1f, hqf⟩ hq2 j with
            h | ⟨k, hk, hp, hj⟩
          · exact Or.inl h
          · right
            refine ⟨k + 1, by omega, ?_, ?_⟩
            · rw [← hk1 k]
              exact hp
            · rw [← hk1 k]
              exact hj

/-- A state whose tables are all zero is well formed for any aligned,
non-null root, as long as the free list is duplicate-free, aligned and
avoids the root. -/
theorem WF_zero (b : Nat → Nat → Nat) (fl : List Nat) (pt : Nat)
    (hpt : goodPage pt) (hnd : fl.Nodup) (hal : ∀ q, q ∈ fl → q % PGSIZE = 0)
    (hne : ∀ q, q ∈ fl → q ≠ pt) :
    WF ⟨fun _ _ => 0, b, fl⟩ pt where
  root_good := hpt
  l2_intern := fun _ _ hv => (hv (Nat.zero_and _)).elim
  l2_good := fun _ _ hv => (hv (Nat.zero_and _)).elim
  l1_intern := fun _ _ _ _ hv _ => (hv (Nat.zero_and _)).elim
  l1_good := fun _ _ _ _ hv _ => (hv (Nat.zero_and _)).elim
  ne_root_l1 := fun _ _ hv => (hv (Nat.zero_and _)).elim
  ne_root_l0 := fun _ _ _ _ hv _ => (hv (Nat.zero_and _)).elim
  ne_l1_l0 := fun _ _ _ _ _ _ hv _ _ => (hv (Nat.zero_and _)).elim
  inj_l1 := fun _ _ _ _ hv _ _ => (hv (Nat.zero_and _)).elim
  inj_l0 := fun _ _ _ _ _ _ _ _ hv _ _ _ _ => (hv (Nat.zero_and _)).elim
  fr_nodup := hnd
  fr_good := hal
  fr_not_tbl := fun q hq => by
    rintro (h | ⟨i, hi, hv, _⟩ | ⟨i, j, hi, hj, hv, _, _⟩)
    · exact hne q hq h
    · exact (hv (Nat.zero_and _)).elim
    · exact (hv (Nat.zero_and _)).elim

/-- `mappages` on an aligned range delegates to the loop and inherits its
`MapOk` postcondition. -/
theorem mappages_ok (s : VMState) (pt va size pa perm : Nat) (s' : VMState)
    (hwf : WF s pt) (hva : va % PGSIZE = 0) (hpa : pa % PGSIZE = 0)
    (hsz : size % PGSIZE = 0) (hszpos : 0 < size) (hperm : perm < 1024)
    (hrange : va + size < MAXVA)
    (hclear : ∀ va' p, va ≤ va' → va' < va + size → pathL0 s pt va' = some p →
        ¬ validE (s.ptes p (PX 0 va')))
    (hrun : mappages s pt va size pa perm = .ok (0, s')) :
    MapOk s s' pt va pa perm (size / PGSIZE - 1) := by
  have hgd : PGROUNDDOWN va = va := by
    rw [PGROUNDDOWN_def]
    simp only [PGSIZE_def] at hva
    omega
  have hcount : (PGROUNDDOWN (va + size - 1) - PGROUNDDOWN va) / PGSIZE =
      size / PGSIZE - 1 := by
    simp only [PGROUNDDOWN_def, PGSIZE_def]
    simp only [PGSIZE_def] at hva hsz
    omega
  rw [mappages, if_neg (show ¬ size = 0 by omega), hcount, hgd] at hrun
  refine mapLoop_ok pt perm hperm (size / PGSIZE - 1) s va pa hwf hva hpa ?_ ?_ s' hrun
  · simp only [PGSIZE_def] at hsz ⊢
    omega
  · intro k hk p hp
    refine hclear (va + k * PGSIZE) p (by omega) ?_ hp
    simp only [PGSIZE_def] at hsz hk ⊢
    omega

/-- **C3.** After a successful `mappages(pt, va, size, pa, perm)` with the
user flag included in `perm`, `walkaddr` of every page-aligned address in
`[va, va + size)` is exactly the physical address at the corresponding
offset into `pa`. -/
theorem C3_mappages_walkaddr (s s' : VMState) (pt va size pa perm : Nat)
    (hwf : WF s pt) (hva : va % PGSIZE = 0) (hpa : pa % PGSIZE = 0)
    (hsz : size % PGSIZE = 0) (hszpos : 0 < size) (hperm : perm < 1024)
    (hU : perm &&& PTE_U ≠ 0) (hrange : va + size < MAXVA)
    (hclear : ∀ va' p, va ≤ va' → va' < va + size → pathL0 s pt va' = some p →
        ¬ validE (s.ptes p (PX 0 va')))
    (hrun : mappages s pt va size pa perm = .ok (0, s')) :
    ∀ va', va ≤ va' → va' < va + size → va' % PGSIZE = 0 →
      walkaddr s' pt va' = pa + (va' - va) := by
  have M := mappages_ok s pt va size pa perm s' hwf hva hpa hsz hszpos hperm
    hrange hclear hrun
  intro va' hlo hhi hal
  have hk : va' = va + (va' - va) / PGSIZE * PGSIZE := by
    simp only [PGSIZE_def] at hva hal ⊢
    omega
  have hkle : (va' - va) / PGSIZE ≤ size / PGSIZE - 1 := by
    simp only [PGSIZE_def] at hva hal hsz ⊢
    omega
  obtain ⟨p, hp, he⟩ := M.installed ((va' - va) / PGSIZE) hkle
  rw [← hk] at hp he
  have hmva : ¬ va' ≥ MAXVA := by omega
  rw [walkaddr_eq, if_neg hmva, hp]
  dsimp only
  rw [he]
  have hpal : (pa + (va' - va) / PGSIZE * PGSIZE) % PGSIZE = 0 := by
    simp only [PGSIZE_def] at hpa ⊢
    omega
  obtain ⟨_, _, hval, hpte2pa, _⟩ :=
    leaf_entry_facts (pa + (va' - va) / PGSIZE * PGSIZE) perm hpal hperm
  rw [if_neg (show ¬ (PA2PTE (pa + (va' - va) / PGSIZE * PGSIZE) ||| perm |||
      PTE_V) &&& PTE_V = 0 from hval)]
  rw [if_neg (show ¬ (PA2PTE (pa + (va' - va) / PGSIZE * PGSIZE) ||| perm |||
      PTE_V) &&& PTE_U = 0 from by rw [leaf_entry_and_U]; exact hU)]
  rw [hpte2pa]
  simp only [PGSIZE_def] at hva hal ⊢
  omega

theorem C3_witness :
    mappages C3state 4096 0 PGSIZE 16384 (PTE_R ||| PTE_U) = .ok (0, C3state') ∧
      walkaddr C3state' 4096 0 = 16384 := by
  have hrun : mappages C3state 4096 0 PGSIZE 16384 (PTE_R ||| PTE_U) =
      .ok (0, C3state') := by rfl
  refine ⟨hrun, ?_⟩
  have h := C3_mappages_walkaddr C3state C3state' 4096 0 PGSIZE 16384
    (PTE_R ||| PTE_U)
    (WF_zero (fun _ _ => 0) [8192, 12288] 4096 ⟨by decide, by decide⟩ (by decide)
      (by intro q hq; simp only [List.mem_cons, List.not_mem_nil, or_false] at hq
          rcases hq with rfl | rfl <;> decide)
      (by intro q hq; simp only [List.mem_cons, List.not_mem_nil, or_false] at hq
          rcases hq with rfl | rfl <;> decide))
    (by decide) (by decide) (by decide) (by decide) (by decide) (by decide)
    (by decide)
    (fun va' p _ _ hp => by
      rw [pathL0_some_iff] at hp
      exact (hp.1 (Nat.zero_and _)).elim)
    hrun 0 (Nat.le_refl 0) (by decide) (by decide)
  simpa using h

/-! ### The unmapping loop -/

/-- `kfree` keeps the tree well formed when the freed page is aligned,
fresh in the free list and outside the tree. -/
theorem WF_kfree (s : VMState) (pt pa : Nat) (hwf : WF s pt)
    (hal : pa % PGSIZE = 0) (hnin : pa ∉ s.freeList) (hntbl : ¬ Tbls s pt pa) :
    WF (kfree s pa) pt where
  root_good := hwf.root_good
  l2_intern := hwf.l2_intern
  l2_good := hwf.l2_good
  l1_intern := hwf.l1_intern
  l1_good := hwf.l1_good
  ne_root_l1 := hwf.ne_root_l1
  ne_root_l0 := hwf.ne_root_l0
  ne_l1_l0 := hwf.ne_l1_l0
  inj_l1 := hwf.inj_l1
  inj_l0 := hwf.inj_l0
  fr_nodup := by
    rw [kfree_freeList, List.nodup_cons]
    exact ⟨hnin, hwf.fr_nodup⟩
  fr_good := by
    intro q hq
    rw [kfree_freeList] at hq
    rcases List.mem_cons.mp hq with h | h
    · rw [h]
      exact hal
    · exact hwf.fr_good q h
  fr_not_tbl := by
    intro q hq
    rw [kfree_freeList] at hq
    rcases List.mem_cons.mp hq with h | h
    · rw [h]
      exact hntbl
    · exact hwf.fr_not_tbl q h

theorem or_one_ne_one (x : Nat) (h2 : 2 ≤ x) : x ||| 1 ≠ 1 := by
  intro hc
  have hd : (x ||| 1) / 2 = 0 := by rw [hc]
  rw [Nat.or_div_two] at hd
  rw [show (1 : Nat) / 2 = 0 from Eq.refl _, Nat.or_zero] at hd
  omega

/-- Addresses on the same virtual page share their whole translation path
and level-0 index. -/
theorem same_page_path (s : VMState) (pt va vb : Nat)
    (ha : va < 2 ^ 38) (hb : vb < 2 ^ 38) (h : va / 4096 = vb / 4096) :
    pathL0 s pt va = pathL0 s pt vb ∧ PX 0 va = PX 0 vb := by
  obtain ⟨h2, h1, h0⟩ := (px_all_eq_iff va vb ha hb).mpr h
  refine ⟨?_, h0⟩
  rw [pathL0, pathL0, h2, h1]

set_option maxRecDepth 4096 in
/-- The induction behind `uvmunmap`: unmapping `n` mapped leaf pages with
physical freeing succeeds and establishes `UnmapOk`. -/
theorem unmapLoop_ok (pt : Nat) :
    ∀ n s a, WF s pt → a % PGSIZE = 0 → a + n * PGSIZE < MAXVA →
      (∀ k, k < n → pathL0 s pt (a + k * PGSIZE) ≠ none) →
      (∀ k, k < n → ∀ p, pathL0 s pt (a + k * PGSIZE) = some p →
        validE (s.ptes p (PX 0 (a + k * PGSIZE))) ∧
        PTE_FLAGS (s.ptes p (PX 0 (a + k * PGSIZE))) ≠ PTE_V ∧
        PTE2PA (s.ptes p (PX 0 (a + k * PGSIZE))) % PGSIZE = 0 ∧
        PTE2PA (s.ptes p (PX 0 (a + k * PGSIZE))) ∉ s.freeList ∧
        ¬ Tbls s pt (PTE2PA (s.ptes p (PX 0 (a + k * PGSIZE))))) →
      (∀ k k' p p', k < n → k' < n → k ≠ k' →
        pathL0 s pt (a + k * PGSIZE) = some p →
        pathL0 s pt (a + k' * PGSIZE) = some p' →
        PTE2PA (s.ptes p (PX 0 (a + k * PGSIZE))) ≠
          PTE2PA (s.ptes p' (PX 0 (a + k' * PGSIZE)))) →
      ∃ s', unmapLoop s pt a true n = .ok s' ∧ UnmapOk s s' pt a n := by
  intro n
  induction n with
  | zero =>
    intro s a hwf ha hub hex hgood hdist
    refine ⟨s, Eq.refl _, ?_⟩
    exact {
      wf := hwf
      bytesEq := Eq.refl _
      tblsEq := fun q => Iff.rfl
      pathEq := fun va' => Eq.refl _
      flSub := fun q h => h
      freed := fun k hk => absurd hk (by omega)
      zeroed := fun k hk => absurd hk (by omega)
      frame := fun q j _ => Eq.refl _
      waOut := fun va' _ _ => Eq.refl _ }
  | succ n ih =>
    intro s a hwf ha hub hex hgood hdist
    have hva : a < MAXVA := by
      rw [Nat.succ_mul] at hub
      omega
    have hex0 := hex 0 (by omega)
    simp only [Nat.zero_mul, Nat.add_zero] at hex0
    cases hps0 : pathL0 s pt a with
    | none => exact absurd hps0 hex0
    | some p =>
    have hgood0 := hgood 0 (by omega) p
    simp only [Nat.zero_mul, Nat.add_zero] at hgood0
    obtain ⟨hval, hflags, hal0, hnfl, hntbl⟩ := hgood0 hps0
    have hstep : unmapLoop s pt a true (n + 1) =
        unmapLoop (setPte (kfree s (PTE2PA (s.ptes p (PX 0 a)))) p (PX 0 a) 0) pt
          (a + PGSIZE) true n := by
      rw [unmapLoop, walk_false_eq, if_neg (not_le.mpr hva), hps0]
      dsimp only [Option.map]
      rw [if_neg (show ¬ s.ptes p (PX 0 a) &&& PTE_V = 0 from hval), if_neg hflags,
        if_pos (Eq.refl true)]
    have hwfk : WF (kfree s (PTE2PA (s.ptes p (PX 0 a)))) pt :=
      WF_kfree s pt _ hwf hal0 hnfl hntbl
    have hpk : pathL0 (kfree s (PTE2PA (s.ptes p (PX 0 a)))) pt a = some p := by
      rw [pathL0_congr (kfree s (PTE2PA (s.ptes p (PX 0 a)))) s pt a (Eq.refl _)]
      exact hps0
    obtain ⟨hwft, htblst, hpatht, hframet, hwanet, hwaeqt⟩ :=
      setLeaf_facts (kfree s (PTE2PA (s.ptes p (PX 0 a)))) pt a p 0 hwfk hva hpk
    have hpathts : ∀ va',
        pathL0 (setPte (kfree s (PTE2PA (s.ptes p (PX 0 a)))) p (PX 0 a) 0) pt va' =
        pathL0 s pt va' := by
      intro va'
      rw [hpatht va',
        pathL0_congr (kfree s (PTE2PA (s.ptes p (PX 0 a)))) s pt va' (Eq.refl _)]
    have hk1 : ∀ k : Nat, a + PGSIZE + k * PGSIZE = a + (k + 1) * PGSIZE := by
      intro k
      rw [Nat.succ_mul]
      omega
    have ha' : (a + PGSIZE) % PGSIZE = 0 := by
      simp only [PGSIZE_def] at ha ⊢
      omega
    have hub' : a + PGSIZE + n * PGSIZE < MAXVA := by
      rw [hk1 n]
      exact hub
    have hblt : ∀ k, k < n → a + (k + 1) * PGSIZE < MAXVA := by
      intro k hk
      have h1 : (k + 1) * PGSIZE ≤ (n + 1) * PGSIZE :=
        Nat.mul_le_mul_right _ (by omega)
      omega
    have hslotne : ∀ k p', k < n → pathL0 s pt (a + (k + 1) * PGSIZE) = some p' →
        ¬ (p' = p ∧ PX 0 (a + (k + 1) * PGSIZE) = PX 0 a) := by
      rintro k p' hk hp' ⟨he, hpx⟩
      subst he
      obtain ⟨h2e, h1e⟩ := pathL0_px_inj s pt hwf (a + (k + 1) * PGSIZE) a p' hp' hps0
      have hdiv := (px_all_eq_iff (a + (k + 1) * PGSIZE) a
        ((lt_MAXVA_iff _).mp (hblt k hk)) ((lt_MAXVA_iff _).mp hva)).mp ⟨h2e, h1e, hpx⟩
      simp only [PGSIZE_def] at hdiv ha
      omega
    have hentry_pres : ∀ k p', k < n → pathL0 s pt (a + (k + 1) * PGSIZE) = some p' →
        (setPte (kfree s (PTE2PA (s.ptes p (PX 0 a)))) p (PX 0 a) 0).ptes p'
          (PX 0 (a + (k + 1) * PGSIZE)) = s.ptes p' (PX 0 (a + (k + 1) * PGSIZE)) := by
      intro k p' hk hp'
      rw [hframet p' _ (hslotne k p' hk hp')]
      exact Eq.refl _
    have hex' : ∀ k, k < n →
        pathL0 (setPte (kfree s (PTE2PA (s.ptes p (PX 0 a)))) p (PX 0 a) 0) pt
          (a + PGSIZE + k * PGSIZE) ≠ none := by
      intro k hk
      rw [hk1 k, hpathts]
      exact hex (k + 1) (by omega)
    have hgood' : ∀ k, k < n → ∀ p',
        pathL0 (setPte (kfree s (PTE2PA (s.ptes p (PX 0 a)))) p (PX 0 a) 0) pt
          (a + PGSIZE + k * PGSIZE) = some p' →
        validE ((setPte (kfree s (PTE2PA (s.ptes p (PX 0 a)))) p (PX 0 a) 0).ptes p'
          (PX 0 (a + PGSIZE + k * PGSIZE))) ∧
        PTE_FLAGS ((setPte (kfree s (PTE2PA (s.ptes p (PX 0 a)))) p (PX 0 a) 0).ptes p'
          (PX 0 (a + PGSIZE + k * PGSIZE))) ≠ PTE_V ∧
        PTE2PA ((setPte (kfree s (PTE2PA (s.ptes p (PX 0 a)))) p (PX 0 a) 0).ptes p'
          (PX 0 (a + PGSIZE + k * PGSIZE))) % PGSIZE = 0 ∧
        PTE2PA ((setPte (kfree s (PTE2PA (s.ptes p (PX 0 a)))) p (PX 0 a) 0).ptes p'
          (PX 0 (a + PGSIZE + k * PGSIZE))) ∉
          (setPte (kfree s (PTE2PA (s.ptes p (PX 0 a)))) p (PX 0 a) 0).freeList ∧
        ¬ Tbls (setPte (kfree s (PTE2PA (s.ptes p (PX 0 a)))) p (PX 0 a) 0) pt
          (PTE2PA ((setPte (kfree s (PTE2PA (s.ptes p (PX 0 a)))) p (PX 0 a) 0).ptes p'
            (PX 0 (a + PGSIZE + k * PGSIZE)))) := by
      intro k hk p' hp'
      rw [hk1 k] at hp' ⊢
      rw [hpathts] at hp'
      rw [hentry_pres k p' hk hp']
      obtain ⟨h1, h2, h3, h4, h5⟩ := hgood (k + 1) (by omega) p' hp'
      refine ⟨h1, h2, h3, ?_, ?_⟩
      · intro hc
        rw [setPte_freeList, kfree_freeList] at hc
        rcases List.mem_cons.mp hc with hc1 | hc2
        · have hdist0 := hdist (k + 1) 0 p' p (by omega) (by omega) (by omega) hp'
          simp only [Nat.zero_mul, Nat.add_zero] at hdist0
          exact hdist0 hps0 hc1
        · exact h4 hc2
      · intro hc
        exact h5 ((htblst _).mp hc)
    have hdist' : ∀ k k' p' p'', k < n → k' < n → k ≠ k' →
        pathL0 (setPte (kfree s (PTE2PA (s.ptes p (PX 0 a)))) p (PX 0 a) 0) pt
          (a + PGSIZE + k * PGSIZE) = some p' →
        pathL0 (setPte (kfree s (PTE2PA (s.ptes p (PX 0 a)))) p (PX 0 a) 0) pt
          (a + PGSIZE + k' * PGSIZE) = some p'' →
        PTE2PA ((setPte (kfree s (PTE2PA (s.ptes p (PX 0 a)))) p (PX 0 a) 0).ptes p'
          (PX 0 (a + PGSIZE + k * PGSIZE))) ≠
        PTE2PA ((setPte (kfree s (PTE2PA (s.ptes p (PX 0 a)))) p (PX 0 a) 0).ptes p''
          (PX 0 (a + PGSIZE + k' * PGSIZE))) := by
      intro k k' p' p'' hk hk' hne hp' hp''
      rw [hk1 k] at hp' ⊢
      rw [hk1 k'] at hp'' ⊢
      rw [hpathts] at hp' hp''
      rw [hentry_pres k p' hk hp', hentry_pres k' p'' hk' hp'']
      exact hdist (k + 1) (k' + 1) p' p'' (by omega) (by omega) (by omega) hp' hp''
    obtain ⟨s', hrun', U⟩ :=
      ih (setPte (kfree s (PTE2PA (s.ptes p (PX 0 a)))) p (PX 0 a) 0) (a + PGSIZE)
        hwft ha' hub' hex' hgood' hdist'
    refine ⟨s', by rw [hstep]; exact hrun', ?_⟩
    have hUframe0 : ∀ q j, (∀ k, k < n → ∀ p'',
        pathL0 s pt (a + (k + 1) * PGSIZE) = some p'' →
        ¬ (q = p'' ∧ j = PX 0 (a + (k + 1) * PGSIZE))) →
        s'.ptes q j =
        (setPte (kfree s (PTE2PA (s.ptes p (PX 0 a)))) p (PX 0 a) 0).ptes q j := by
      intro q j hcond
      refine U.frame q j ?_
      intro k hk p'' hp''
      rw [hk1 k] at hp'' ⊢
      rw [hpathts] at hp''
      exact hcond k hk p'' hp''
    refine {
      wf := U.wf
      bytesEq := U.bytesEq
      tblsEq := fun q => (U.tblsEq q).trans (htblst q)
      pathEq := fun va' => (U.pathEq va').trans (hpathts va')
      flSub := fun q h => U.flSub q (by
        rw [setPte_freeList, kfree_freeList]
        exact List.mem_cons_of_mem _ h)
      freed := ?_, zeroed := ?_, frame := ?_, waOut := ?_ }
    · intro k hk p'' hp''
      cases k with
      | zero =>
        simp only [Nat.zero_mul, Nat.add_zero] at hp'' ⊢
        rw [hps0] at hp''
        injection hp'' with hpe
        subst hpe
        refine U.flSub _ ?_
        rw [setPte_freeList, kfree_freeList]
        exact List.mem_cons_self _ _
      | succ k =>
        have hpt' : pathL0 (setPte (kfree s (PTE2PA (s.ptes p (PX 0 a)))) p
            (PX 0 a) 0) pt (a + PGSIZE + k * PGSIZE) = some p'' := by
          rw [hk1 k, hpathts]
          exact hp''
        have hres := U.freed k (by omega) p'' hpt'
        rw [hk1 k, hentry_pres k p'' (by omega) hp''] at hres
        exact hres
    · intro k hk p'' hp''
      cases k with
      | zero =>
        simp only [Nat.zero_mul, Nat.add_zero] at hp'' ⊢
        rw [hps0] at hp''
        have hpe : p = p'' := Option.some.inj hp''
        have hs' : s'.ptes p'' (PX 0 a) =
            (setPte (kfree s (PTE2PA (s.ptes p (PX 0 a)))) p (PX 0 a) 0).ptes
              p'' (PX 0 a) := by
          refine hUframe0 p'' (PX 0 a) ?_
          intro k2 hk2 p3 hp3 hc
          exact hslotne k2 p3 hk2 hp3 ⟨hc.1.symm.trans hpe.symm, hc.2.symm⟩
        rw [hs', setPte_ptes, if_pos ⟨hpe.symm, Eq.refl _⟩]
      | succ k =>
        have hpt' : pathL0 (setPte (kfree s (PTE2PA (s.ptes p (PX 0 a)))) p
            (PX 0 a) 0) pt (a + PGSIZE + k * PGSIZE) = some p'' := by
          rw [hk1 k, hpathts]
          exact hp''
        have hres := U.zeroed k (by omega) p'' hpt'
        rw [hk1 k] at hres
        exact hres
    · intro q j hcond
      have hcond0 := hcond 0 (by omega) p
      simp only [Nat.zero_mul, Nat.add_zero] at hcond0
      have hstep1 : s'.ptes q j =
          (setPte (kfree s (PTE2PA (s.ptes p (PX 0 a)))) p (PX 0 a) 0).ptes q j := by
        refine hUframe0 q j ?_
        intro k hk p'' hp''
        exact hcond (k + 1) (by omega) p'' hp''
      rw [hstep1, hframet q j (hcond0 hps0)]
      exact Eq.refl _
    · intro va' hva' hne
      have hne0 := hne 0 (by omega)
      simp only [Nat.zero_mul, Nat.add_zero] at hne0
      have hneU : ∀ k, k < n →
          va' / PGSIZE ≠ (a + PGSIZE + k * PGSIZE) / PGSIZE := by
        intro k hk
        rw [hk1 k]
        exact hne (k + 1) (by omega)
      rw [U.waOut va' hva' hneU, hwanet va' hva' hne0,
        walkaddr_congr (kfree s (PTE2PA (s.ptes p (PX 0 a)))) s pt va' (Eq.refl _)]

/-! ### Claim C2 -/

/-- **C2.** Installing leaf mappings over a page-aligned range with
`mappages` and then removing them with `uvmunmap` (physical-free enabled)
returns the table to its pre-install state: every translation is as before
the install, every level-0 entry of the range is zero (invalid), and any
internal node created by the install holds only zero or internal entries. -/
theorem C2_map_unmap_roundtrip (s s1 : VMState) (pt va size pa perm : Nat)
    (hwf : WF s pt) (hva : va % PGSIZE = 0) (hpa : pa % PGSIZE = 0)
    (hsz : size % PGSIZE = 0) (hszpos : 0 < size) (hperm : perm < 1024)
    (hp2 : 2 ≤ perm) (hrange : va + size < MAXVA)
    (hclear : ∀ va' p, va ≤ va' → va' < va + size → pathL0 s pt va' = some p →
        ¬ validE (s.ptes p (PX 0 va')))
    (hpafree : ∀ k, k < size / PGSIZE → pa + k * PGSIZE ∉ s.freeList)
    (hpantbl : ∀ k, k < size / PGSIZE → ¬ Tbls s pt (pa + k * PGSIZE))
    (hmap : mappages s pt va size pa perm = .ok (0, s1)) :
    ∃ s2, uvmunmap s1 pt va (size / PGSIZE) true = .ok s2 ∧
      (∀ va', va' < MAXVA → walkaddr s2 pt va' = walkaddr s pt va') ∧
      (∀ k, k < size / PGSIZE → ∃ p, pathL0 s2 pt (va + k * PGSIZE) = some p ∧
          s2.ptes p (PX 0 (va + k * PGSIZE)) = 0) ∧
      (∀ q, Tbls s2 pt q → ¬ Tbls s pt q → ∀ j,
          s2.ptes q j = 0 ∨ (validE (s2.ptes q j) ∧ internE (s2.ptes q j))) := by
  have M := mappages_ok s pt va size pa perm s1 hwf hva hpa hsz hszpos hperm
    hrange hclear hmap
  obtain ⟨m1, hm1⟩ := M.drop
  have hsub1 : ∀ q, q ∈ s1.freeList → q ∈ s.freeList := by
    intro q hq
    rw [hm1] at hq
    exact List.drop_subset _ _ hq
  have hkal : ∀ k, k < size / PGSIZE → (pa + k * PGSIZE) % PGSIZE = 0 := by
    intro k hk
    simp only [PGSIZE_def] at hpa ⊢
    omega
  have hNle : ∀ k, k < size / PGSIZE → k ≤ size / PGSIZE - 1 := by
    intro k hk
    omega
  have hN1 : 1 ≤ size / PGSIZE := by
    simp only [PGSIZE_def]
    simp only [PGSIZE_def] at hsz
    omega
  have hinst : ∀ k, k < size / PGSIZE → ∀ p,
      pathL0 s1 pt (va + k * PGSIZE) = some p →
      s1.ptes p (PX 0 (va + k * PGSIZE)) =
        PA2PTE (pa + k * PGSIZE) ||| perm ||| PTE_V := by
    intro k hk p hp
    obtain ⟨p0, hp0, he0⟩ := M.installed k (hNle k hk)
    rw [hp0] at hp
    rw [← Option.some.inj hp]
    exact he0
  have hub : va + (size / PGSIZE) * PGSIZE < MAXVA := by
    have : (size / PGSIZE) * PGSIZE ≤ size := Nat.div_mul_le_self _ _
    omega
  obtain ⟨s2, hur, U⟩ := unmapLoop_ok pt (size / PGSIZE) s1 va M.wf hva hub
    (by
      intro k hk
      obtain ⟨p0, hp0, _⟩ := M.installed k (hNle k hk)
      rw [hp0]
      exact fun hc => Option.noConfusion hc)
    (by
      intro k hk p hp
      have he := hinst k hk p hp
      rw [he]
      obtain ⟨_, _, hval, hpte2pa, hflags⟩ :=
        leaf_entry_facts (pa + k * PGSIZE) perm (hkal k hk) hperm
      refine ⟨hval, ?_, ?_, ?_, ?_⟩
      · rw [hflags, PTE_V]
        exact or_one_ne_one perm hp2
      · rw [hpte2pa]
        exact hkal k hk
      · rw [hpte2pa]
        intro hc
        exact hpafree k hk (hsub1 _ hc)
      · rw [hpte2pa]
        intro hc
        rcases M.tblGrow _ hc with h | ⟨h, _⟩
        · exact hpantbl k hk h
        · exact hpafree k hk h)
    (by
      intro k k' p p' hk hk' hne hp hp'
      rw [hinst k hk p hp, hinst k' hk' p' hp']
      rw [(leaf_entry_facts (pa + k * PGSIZE) perm (hkal k hk) hperm).2.2.2.1,
        (leaf_entry_facts (pa + k' * PGSIZE) perm (hkal k' hk') hperm).2.2.2.1]
      simp only [PGSIZE_def]
      omega)
  refine ⟨s2, ?_, ?_, ?_, ?_⟩
  · rw [uvmunmap, if_neg (show ¬ va % PGSIZE ≠ 0 from fun hc => hc hva)]
    exact hur
  · intro va' hva'
    by_cases hin : ∃ k, k < size / PGSIZE ∧
        va' / PGSIZE = (va + k * PGSIZE) / PGSIZE
    · obtain ⟨k, hkN, hpg⟩ := hin
      obtain ⟨p0, hp0, he0⟩ := M.installed k (hNle k hkN)
      have hb38 : va' < 2 ^ 38 := (lt_MAXVA_iff _).mp hva'
      have hpk38 : va + k * PGSIZE < 2 ^ 38 := by
        rw [← lt_MAXVA_iff]
        have h1 : k * PGSIZE ≤ (size / PGSIZE) * PGSIZE :=
          Nat.mul_le_mul_right _ (by omega)
        have h2 : (size / PGSIZE) * PGSIZE ≤ size := Nat.div_mul_le_self _ _
        omega
      have hpg' : va' / 4096 = (va + k * PGSIZE) / 4096 := by
        simp only [PGSIZE_def] at hpg
        exact hpg
      obtain ⟨hpatheq, hpx0eq⟩ := same_page_path s1 pt va' (va + k * PGSIZE)
        hb38 hpk38 hpg'
      have hz := U.zeroed k hkN p0 hp0
      have hpath2 : pathL0 s2 pt va' = some p0 := by
        rw [U.pathEq va', hpatheq]
        exact hp0
      have hwa2 : walkaddr s2 pt va' = 0 := by
        rw [walkaddr_eq, if_neg (not_le.mpr hva'), hpath2]
        dsimp only
        rw [hpx0eq, hz, if_pos (Nat.zero_and _)]
      have hbound : va ≤ va' ∧ va' < va + size := by
        have h2 : (size / PGSIZE) * PGSIZE ≤ size := Nat.div_mul_le_self _ _
        have hkN' := hkN
        simp only [PGSIZE_def] at hpg hva hsz h2 hkN' ⊢
        omega
      have hwas : walkaddr s pt va' = 0 := by
        rw [walkaddr_eq, if_neg (not_le.mpr hva')]
        cases hpv : pathL0 s pt va' with
        | none => exact Eq.refl _
        | some pv =>
          dsimp only
          have hninv := hclear va' pv hbound.1 hbound.2 hpv
          rw [if_pos (not_not.mp hninv)]
      rw [hwa2, hwas]
    · push_neg at hin
      rw [U.waOut va' hva' hin]
      refine M.waFrame va' hva' ?_
      intro k hk
      exact hin k (by omega)
  · intro k hk
    obtain ⟨p0, hp0, he0⟩ := M.installed k (hNle k hk)
    refine ⟨p0, ?_, U.zeroed k hk p0 hp0⟩
    rw [U.pathEq]
    exact hp0
  · intro q hq2 hqs j
    have hq1 : Tbls s1 pt q := (U.tblsEq q).mp hq2
    by_cases heq : s2.ptes q j = s1.ptes q j
    · rcases M.newClean q hq1 hqs j with h | h | ⟨k, hk, hpq, hj⟩
      · exact Or.inl (by rw [heq]; exact h)
      · exact Or.inr ⟨by rw [heq]; exact h.1, by rw [heq]; exact h.2⟩
      · left
        rw [hj]
        refine U.zeroed k (by omega) q ?_
        exact hpq
    · have hcontra : ¬ (∀ k, k < size / PGSIZE → ∀ p',
          pathL0 s1 pt (va + k * PGSIZE) = some p' →
          ¬ (q = p' ∧ j = PX 0 (va + k * PGSIZE))) := by
        intro hall
        exact heq (U.frame q j hall)
      push_neg at hcontra
      obtain ⟨k, hk, p', hp', hqp⟩ := hcontra
      left
      rw [hqp.2, hqp.1]
      exact U.zeroed k hk p' hp'

theorem C2_witness :
    uvmunmap C2state1 4096 0 (PGSIZE / PGSIZE) true = .ok C2state2 ∧
      walkaddr C2state2 4096 0 = walkaddr C2state 4096 0 := by
  have hmap : mappages C2state 4096 0 PGSIZE 20480 (PTE_R ||| PTE_U) =
      .ok (0, C2state1) := by rfl
  obtain ⟨s2, hok, hwa, hz, hd⟩ := C2_map_unmap_roundtrip C2state C2state1
    4096 0 PGSIZE 20480 (PTE_R ||| PTE_U)
    (WF_zero (fun _ _ => 0) [8192, 12288] 4096 ⟨by decide, by decide⟩ (by decide)
      (by intro q hq; simp only [List.mem_cons, List.not_mem_nil, or_false] at hq
          rcases hq with rfl | rfl <;> decide)
      (by intro q hq; simp only [List.mem_cons, List.not_mem_nil, or_false] at hq
          rcases hq with rfl | rfl <;> decide))
    (by decide) (by decide) (by decide) (by decide) (by decide) (by decide)
    (by decide)
    (fun va' p _ _ hp => by
      rw [pathL0_some_iff] at hp
      exact (hp.1 (Nat.zero_and _)).elim)
    (by
      intro k hk
      have hk0 : k = 0 := by
        simp only [PGSIZE_def] at hk
        omega
      subst hk0
      decide)
    (by
      intro k hk
      have hk0 : k = 0 := by
        simp only [PGSIZE_def] at hk
        omega
      subst hk0
      rintro (h | ⟨i, hi, hv, _⟩ | ⟨i, j, hi, hj, hv, _, _⟩)
      · exact absurd h (by decide)
      · exact (hv (Nat.zero_and _)).elim
      · exact (hv (Nat.zero_and _)).elim)
    hmap
  have hs2 : s2 = C2state2 := by
    have hrfl : uvmunmap C2state1 4096 0 (PGSIZE / PGSIZE) true =
        .ok C2state2 := by rfl
    rw [hok] at hrfl
    exact Res.ok.inj hrfl
  subst hs2
  exact ⟨hok, hwa 0 (by decide)⟩

/-! ### `uvmalloc` and its rollback -/

/-- A level-0 table reached only after a tree-growing step was taken from
the free list: the old tree cannot contain it. -/
theorem path_new_not_tbl (s t : VMState) (pt va p : Nat)
    (hwft : WF t pt)
    (hvalidPres : ∀ q j, Tbls s pt q → validE (s.ptes q j) → t.ptes q j = s.ptes q j)
    (hnone : pathL0 s pt va = none) (hsome : pathL0 t pt va = some p) :
    ¬ Tbls s pt p := by
  obtain ⟨h2e, h1e, hpe⟩ := (pathL0_some_iff t pt va p).mp hsome
  rintro (hroot | ⟨i, hi, hv, hqe⟩ | ⟨i, j2, hi, hj2, hv, hv', hqe⟩)
  · exact hwft.ne_root_l0 _ _ (PX_lt 2 va) (PX_lt 1 va) h2e h1e
      (hpe.symm.trans hroot)
  · have he : t.ptes pt i = s.ptes pt i := hvalidPres pt i (Or.inl (Eq.refl _)) hv
    have hv1' : validE (t.ptes pt i) := by rw [he]; exact hv
    have hqe1 : p = PTE2PA (t.ptes pt i) := by rw [he]; exact hqe
    exact hwft.ne_l1_l0 _ _ i (PX_lt 2 va) (PX_lt 1 va) hi h2e h1e hv1'
      (hpe.symm.trans hqe1)
  · have hei : t.ptes pt i = s.ptes pt i := hvalidPres pt i (Or.inl (Eq.refl _)) hv
    have hviL : validE (t.ptes pt i) := by rw [hei]; exact hv
    have hej : t.ptes (PTE2PA (s.ptes pt i)) j2 = s.ptes (PTE2PA (s.ptes pt i)) j2 :=
      hvalidPres _ j2 (Or.inr (Or.inl ⟨i, hi, hv, Eq.refl _⟩)) hv'
    have hv'1 : validE (t.ptes (PTE2PA (t.ptes pt i)) j2) := by
      rw [hei, hej]
      exact hv'
    have hqe1 : p = PTE2PA (t.ptes (PTE2PA (t.ptes pt i)) j2) := by
      rw [hei, hej]
      exact hqe
    obtain ⟨hieq, hjeq⟩ := hwft.inj_l0 (PX 2 va) (PX 1 va) i j2 (PX_lt 2 va)
      (PX_lt 1 va) hi hj2 h2e h1e hviL hv'1 (hpe.symm.trans hqe1)
    rw [pathL0_none_iff] at hnone
    rcases hnone with hc | hc
    · rw [← hieq] at hv
      exact hc hv
    · rw [← hieq] at hv'
      rw [← hjeq] at hv'
      exact hc hv'

/-- Popping a page off the free list and `memset`ting it leaves the tree
untouched. -/
theorem WF_pop_clear (s : VMState) (pt pg : Nat) (rest : List Nat) (hwf : WF s pt)
    (hfl : s.freeList = pg :: rest) :
    WF (clearPage { s with freeList := rest } pg) pt ∧
      (∀ q, Tbls (clearPage { s with freeList := rest } pg) pt q ↔ Tbls s pt q) ∧
      (∀ va', pathL0 (clearPage { s with freeList := rest } pg) pt va' =
        pathL0 s pt va') ∧
      (∀ va', walkaddr (clearPage { s with freeList := rest } pg) pt va' =
        walkaddr s pt va') ∧
      (∀ q j, q ≠ pg →
        (clearPage { s with freeList := rest } pg).ptes q j = s.ptes q j) := by
  have hpgfree : pg ∈ s.freeList := by
    rw [hfl]
    exact List.mem_cons_self _ _
  have hpgntbl : ¬ Tbls s pt pg := hwf.fr_not_tbl pg hpgfree
  have hpg_ne_root : pg ≠ pt := fun he => hpgntbl (he ▸ Tbls_root s pt)
  have hrest_sub : ∀ q, q ∈ rest → q ∈ s.freeList := by
    intro q hq
    rw [hfl]
    exact List.mem_cons_of_mem _ hq
  have hother : ∀ q j, q ≠ pg →
      (clearPage { s with freeList := rest } pg).ptes q j = s.ptes q j := by
    intro q j h
    show (if q = pg then 0 else s.ptes q j) = s.ptes q j
    rw [if_neg h]
  have hroot : ∀ i, (clearPage { s with freeList := rest } pg).ptes pt i =
      s.ptes pt i := fun i => hother pt i (fun hc => hpg_ne_root hc.symm)
  have hL1ne : ∀ i, i < 512 → validE (s.ptes pt i) → PTE2PA (s.ptes pt i) ≠ pg := by
    intro i hi hv hc
    exact hpgntbl (hc ▸ Or.inr (Or.inl ⟨i, hi, hv, Eq.refl _⟩))
  have hL1read : ∀ i, i < 512 → validE (s.ptes pt i) → ∀ j,
      (clearPage { s with freeList := rest } pg).ptes (PTE2PA (s.ptes pt i)) j =
        s.ptes (PTE2PA (s.ptes pt i)) j :=
    fun i hi hv j => hother _ j (hL1ne i hi hv)
  have hL0ne : ∀ i j, i < 512 → j < 512 → validE (s.ptes pt i) →
      validE (s.ptes (PTE2PA (s.ptes pt i)) j) →
      PTE2PA (s.ptes (PTE2PA (s.ptes pt i)) j) ≠ pg := by
    intro i j hi hj hv hv' hc
    exact hpgntbl (hc ▸ Or.inr (Or.inr ⟨i, j, hi, hj, hv, hv', Eq.refl _⟩))
  have htbls : ∀ q, Tbls (clearPage { s with freeList := rest } pg) pt q ↔
      Tbls s pt q := by
    intro q
    constructor
    · rintro (h | ⟨i, hi, hv, hq⟩ | ⟨i, j, hi, hj, hv, hv', hq⟩)
      · exact Or.inl h
      · rw [hroot] at hv hq
        exact Or.inr (Or.inl ⟨i, hi, hv, hq⟩)
      · rw [hroot] at hv hv' hq
        rw [hL1read i hi hv] at hv' hq
        exact Or.inr (Or.inr ⟨i, j, hi, hj, hv, hv', hq⟩)
    · rintro (h | ⟨i, hi, hv, hq⟩ | ⟨i, j, hi, hj, hv, hv', hq⟩)
      · exact Or.inl h
      · refine Or.inr (Or.inl ⟨i, hi, ?_, ?_⟩)
        · rw [hroot]
          exact hv
        · rw [hroot]
          exact hq
      · refine Or.inr (Or.inr ⟨i, j, hi, hj, ?_, ?_, ?_⟩)
        · rw [hroot]
          exact hv
        · rw [hroot, hL1read i hi hv]
          exact hv'
        · rw [hroot, hL1read i hi hv]
          exact hq
  have hpath : ∀ va', pathL0 (clearPage { s with freeList := rest } pg) pt va' =
      pathL0 s pt va' := by
    intro va'
    by_cases h2 : validE (s.ptes pt (PX 2 va'))
    · rw [pathL0, pathL0, hroot, hL1read _ (PX_lt 2 va') h2]
    · rw [pathL0, pathL0, hroot, if_pos (not_not.mp h2), if_pos (not_not.mp h2)]
  have hwa : ∀ va', walkaddr (clearPage { s with freeList := rest } pg) pt va' =
      walkaddr s pt va' := by
    intro va'
    rw [walkaddr_eq, walkaddr_eq, hpath]
    by_cases hm : va' ≥ MAXVA
    · rw [if_pos hm, if_pos hm]
    · rw [if_neg hm, if_neg hm]
      cases hps : pathL0 s pt va' with
      | none => exact Eq.refl _
      | some p =>
        obtain ⟨h2, h1, hp⟩ := (pathL0_some_iff s pt va' p).mp hps
        have he : (clearPage { s with freeList := rest } pg).ptes p (PX 0 va') =
            s.ptes p (PX 0 va') := by
          refine hother p _ ?_
          rw [hp]
          exact hL0ne _ _ (PX_lt 2 va') (PX_lt 1 va') h2 h1
        simp only [he]
  refine ⟨?_, htbls, hpath, hwa, hother⟩
  refine {
    root_good := hwf.root_good
    fr_nodup := ?nodup, fr_good := ?frgood, fr_not_tbl := ?frntbl
    l2_intern := ?l2i, l2_good := ?l2g, l1_intern := ?l1i, l1_good := ?l1g
    ne_root_l1 := ?nr1, ne_root_l0 := ?nr0, ne_l1_l0 := ?n10
    inj_l1 := ?in1, inj_l0 := ?in0 }
  case nodup =>
    show rest.Nodup
    have hn := hwf.fr_nodup
    rw [hfl] at hn
    exact (List.nodup_cons.mp hn).2
  case frgood =>
    intro q hq
    exact hwf.fr_good q (hrest_sub q hq)
  case frntbl =>
    intro q hq
    rw [htbls]
    exact hwf.fr_not_tbl q (hrest_sub q hq)
  case l2i =>
    intro i hi hv
    rw [hroot] at hv ⊢
    exact hwf.l2_intern i hi hv
  case l2g =>
    intro i hi hv
    rw [hroot] at hv ⊢
    exact hwf.l2_good i hi hv
  case l1i =>
    intro i j hi hj hv hv'
    rw [hroot] at hv hv' ⊢
    rw [hL1read i hi hv] at hv' ⊢
    exact hwf.l1_intern i j hi hj hv hv'
  case l1g =>
    intro i j hi hj hv hv'
    rw [hroot] at hv hv' ⊢
    rw [hL1read i hi hv] at hv' ⊢
    exact hwf.l1_good i j hi hj hv hv'
  case nr1 =>
    intro i hi hv
    rw [hroot] at hv ⊢
    exact hwf.ne_root_l1 i hi hv
  case nr0 =>
    intro i j hi hj hv hv'
    rw [hroot] at hv hv' ⊢
    rw [hL1read i hi hv] at hv' ⊢
    exact hwf.ne_root_l0 i j hi hj hv hv'
  case n10 =>
    intro i j i' hi hj hi' hv hv' hv''
    simp only [hroot] at hv hv' hv'' ⊢
    rw [hL1read i hi hv] at hv' ⊢
    exact hwf.ne_l1_l0 i j i' hi hj hi' hv hv' hv''
  case in1 =>
    intro i i' hi hi' hv hv'
    simp only [hroot] at hv hv' ⊢
    exact hwf.inj_l1 i i' hi hi' hv hv'
  case in0 =>
    intro i j i' j' hi hj hi' hj' hv hv' hw hw'
    simp only [hroot] at hv hv' hw hw' ⊢
    rw [hL1read i hi hv] at hv' ⊢
    rw [hL1read i' hi' hw] at hw' ⊢
    exact hwf.inj_l0 i j i' j' hi hj hi' hj' hv hv' hw hw'

/-- A non-zero result of a one-page `mappages` can only come from `walk`
failing to allocate, which leaves a `Grows`-related state. -/
theorem mappages_single_fail (s : VMState) (pt a pa perm : Nat) (s' : VMState)
    (r : Int) (hwf : WF s pt) (ha : a % PGSIZE = 0) (haM : a < MAXVA)
    (hrun : mappages s pt a PGSIZE pa perm = .ok (r, s')) (hr : r ≠ 0) :
    Grows s s' pt := by
  have hgd : PGROUNDDOWN a = a := by
    rw [PGROUNDDOWN_def]
    simp only [PGSIZE_def] at ha
    omega
  have hcount : (PGROUNDDOWN (a + PGSIZE - 1) - PGROUNDDOWN a) / PGSIZE = 0 := by
    simp only [PGROUNDDOWN_def, PGSIZE_def]
    simp only [PGSIZE_def] at ha
    omega
  rw [mappages, if_neg (by decide : ¬ PGSIZE = 0), hcount, hgd] at hrun
  obtain ⟨r0, s1, hwalk, hg, hsome, _⟩ := walk_alloc_spec s pt a hwf haM
  rw [mapLoop, hwalk] at hrun
  cases r0 with
  | none =>
    dsimp only at hrun
    injection hrun with h
    injection h with h1 h2
    subst h2
    exact hg
  | some pi =>
    obtain ⟨p0, i0⟩ := pi
    dsimp only at hrun
    by_cases hv : s1.ptes p0 i0 &&& PTE_V ≠ 0
    · rw [if_pos hv] at hrun
      exact Res.noConfusion hrun
    · rw [if_neg hv] at hrun
      injection hrun with h
      injection h with h1 h2
      exact absurd h1.symm hr

/-- The page a level-0 path ends in is one of the tree's tables. -/
theorem Tbls_of_pathL0 (s : VMState) (pt va p : Nat)
    (hp : pathL0 s pt va = some p) : Tbls s pt p := by
  obtain ⟨h2, h1, he⟩ := (pathL0_some_iff s pt va p).mp hp
  exact Or.inr (Or.inr ⟨_, _, PX_lt 2 _, PX_lt 1 _, h2, h1, he⟩)

/-- `Tbls` reads only the `ptes` view. -/
theorem Tbls_congr (s t : VMState) (pt q : Nat) (hp : t.ptes = s.ptes) :
    Tbls t pt q ↔ Tbls s pt q := by
  rw [Tbls, Tbls, hp]

/-- Unmapping the `i` pages recorded by the allocation invariant restores
every translation of the pre-call state. -/
theorem rollback_restores (s0 t : VMState) (pt b i : Nat)
    (hb : b % PGSIZE = 0) (hwft : WF t pt) (hM : b + i * PGSIZE < MAXVA)
    (hwaF : ∀ va', va' < MAXVA →
        (∀ k, k < i → va' / PGSIZE ≠ (b + k * PGSIZE) / PGSIZE) →
        walkaddr t pt va' = walkaddr s0 pt va')
    (hex : ∀ k, k < i → pathL0 t pt (b + k * PGSIZE) ≠ none)
    (hgood : ∀ k, k < i → ∀ p, pathL0 t pt (b + k * PGSIZE) = some p →
        validE (t.ptes p (PX 0 (b + k * PGSIZE))) ∧
        PTE_FLAGS (t.ptes p (PX 0 (b + k * PGSIZE))) ≠ PTE_V ∧
        PTE2PA (t.ptes p (PX 0 (b + k * PGSIZE))) % PGSIZE = 0 ∧
        PTE2PA (t.ptes p (PX 0 (b + k * PGSIZE))) ∉ t.freeList ∧
        ¬ Tbls t pt (PTE2PA (t.ptes p (PX 0 (b + k * PGSIZE)))))
    (hdist : ∀ k k' p p', k < i → k' < i → k ≠ k' →
        pathL0 t pt (b + k * PGSIZE) = some p →
        pathL0 t pt (b + k' * PGSIZE) = some p' →
        PTE2PA (t.ptes p (PX 0 (b + k * PGSIZE))) ≠
          PTE2PA (t.ptes p' (PX 0 (b + k' * PGSIZE))))
    (hs0clean : ∀ va' p, b ≤ va' → va' < MAXVA → pathL0 s0 pt va' = some p →
        ¬ validE (s0.ptes p (PX 0 va'))) :
    ∃ s2, unmapLoop t pt b true i = .ok s2 ∧ WF s2 pt ∧
      (∀ va', va' < MAXVA → walkaddr s2 pt va' = walkaddr s0 pt va') ∧
      (∀ q, q ∈ t.freeList → q ∈ s2.freeList) ∧
      (∀ q, Tbls t pt q → Tbls s2 pt q) ∧
      (∀ k, k < i → ∀ p, pathL0 t pt (b + k * PGSIZE) = some p →
        PTE2PA (t.ptes p (PX 0 (b + k * PGSIZE))) ∈ s2.freeList) := by
  obtain ⟨s2, hok, U⟩ := unmapLoop_ok pt i t b hwft hb hM hex hgood hdist
  refine ⟨s2, hok, U.wf, ?_, U.flSub, fun q h => (U.tblsEq q).mpr h, U.freed⟩
  intro va' hva'
  by_cases hin : ∃ k, k < i ∧ va' / PGSIZE = (b + k * PGSIZE) / PGSIZE
  · obtain ⟨k, hk, hpg⟩ := hin
    have hbk38 : b + k * PGSIZE < 2 ^ 38 := by
      rw [← lt_MAXVA_iff]
      have h1 : k * PGSIZE ≤ i * PGSIZE := Nat.mul_le_mul_right _ (by omega)
      omega
    have hva38 : va' < 2 ^ 38 := (lt_MAXVA_iff _).mp hva'
    have hpg' : va' / 4096 = (b + k * PGSIZE) / 4096 := by
      simp only [PGSIZE_def] at hpg
      exact hpg
    obtain ⟨hpeq, hpxeq⟩ := same_page_path t pt va' (b + k * PGSIZE) hva38 hbk38 hpg'
    cases hpk : pathL0 t pt (b + k * PGSIZE) with
    | none => exact absurd hpk (hex k hk)
    | some p =>
      have hz := U.zeroed k hk p hpk
      have hpath2 : pathL0 s2 pt va' = some p := by
        rw [U.pathEq va', hpeq]
        exact hpk
      have hwa2 : walkaddr s2 pt va' = 0 := by
        rw [walkaddr_eq, if_neg (not_le.mpr hva'), hpath2]
        dsimp only
        rw [hpxeq, hz, if_pos (Nat.zero_and _)]
      have hge : b ≤ va' := by
        have hb' := hb
        simp only [PGSIZE_def] at hb'
        omega
      have hwas : walkaddr s0 pt va' = 0 := by
        rw [walkaddr_eq, if_neg (not_le.mpr hva')]
        cases hpv : pathL0 s0 pt va' with
        | none => exact Eq.refl _
        | some pv =>
          dsimp only
          have hninv := hs0clean va' pv hge hva' hpv
          rw [if_pos (not_not.mp hninv)]
      rw [hwa2, hwas]
  · push_neg at hin
    rw [U.waOut va' hva' hin]
    exact hwaF va' hva' hin

/-- Popping a free page leaves the allocation invariant intact. -/
theorem AllocInv_pop (s0 s : VMState) (pt b i pg : Nat) (rest : List Nat)
    (inv : AllocInv s0 s pt b i) (hfl : s.freeList = pg :: rest) :
    AllocInv s0 { s with freeList := rest } pt b i where
  wf := {
    root_good := inv.wf.root_good
    l2_intern := inv.wf.l2_intern
    l2_good := inv.wf.l2_good
    l1_intern := inv.wf.l1_intern
    l1_good := inv.wf.l1_good
    ne_root_l1 := inv.wf.ne_root_l1
    ne_root_l0 := inv.wf.ne_root_l0
    ne_l1_l0 := inv.wf.ne_l1_l0
    inj_l1 := inv.wf.inj_l1
    inj_l0 := inv.wf.inj_l0
    fr_nodup := by
      show rest.Nodup
      have hn := inv.wf.fr_nodup
      rw [hfl] at hn
      exact (List.nodup_cons.mp hn).2
    fr_good := fun q hq => inv.wf.fr_good q (by
      rw [hfl]
      exact List.mem_cons_of_mem _ hq)
    fr_not_tbl := fun q hq => inv.wf.fr_not_tbl q (by
      rw [hfl]
      exact List.mem_cons_of_mem _ hq) }
  waFrame := fun va' h1 h2 => by
    rw [walkaddr_congr { s with freeList := rest } s pt va' (Eq.refl _)]
    exact inv.waFrame va' h1 h2
  pathsome := fun k hk => by
    rw [pathL0_congr { s with freeList := rest } s pt _ (Eq.refl _)]
    exact inv.pathsome k hk
  good := fun k hk p hp => by
    rw [pathL0_congr { s with freeList := rest } s pt _ (Eq.refl _)] at hp
    obtain ⟨h1, h2, h3, h4, h5⟩ := inv.good k hk p hp
    refine ⟨h1, h2, h3, ?_, h5⟩
    intro hc
    exact h4 (by rw [hfl]; exact List.mem_cons_of_mem _ hc)
  dist := fun k k' p p' hk hk' hne hp hp' => by
    rw [pathL0_congr { s with freeList := rest } s pt _ (Eq.refl _)] at hp hp'
    exact inv.dist k k' p p' hk hk' hne hp hp'
  clean := fun va' p h1 h2 hp => by
    rw [pathL0_congr { s with freeList := rest } s pt _ (Eq.refl _)] at hp
    exact inv.clean va' p h1 h2 hp

/-- After a failed one-page `mappages` (state related by `Grows` to the
popped-and-cleared state) and the `kfree` of the unused page, the rollback
hypotheses still hold. -/
theorem AllocInv_fail_state (s0 s s3 : VMState) (pt b i pg : Nat) (rest : List Nat)
    (inv : AllocInv s0 s pt b i) (hfl : s.freeList = pg :: rest)
    (hg3 : Grows (clearPage { s with freeList := rest } pg) s3 pt) :
    WF (kfree s3 pg) pt ∧
      (∀ va', va' < MAXVA →
          (∀ k, k < i → va' / PGSIZE ≠ (b + k * PGSIZE) / PGSIZE) →
          walkaddr (kfree s3 pg) pt va' = walkaddr s0 pt va') ∧
      (∀ k, k < i → pathL0 (kfree s3 pg) pt (b + k * PGSIZE) ≠ none) ∧
      (∀ k, k < i → ∀ p, pathL0 (kfree s3 pg) pt (b + k * PGSIZE) = some p →
          validE ((kfree s3 pg).ptes p (PX 0 (b + k * PGSIZE))) ∧
          PTE_FLAGS ((kfree s3 pg).ptes p (PX 0 (b + k * PGSIZE))) ≠ PTE_V ∧
          PTE2PA ((kfree s3 pg).ptes p (PX 0 (b + k * PGSIZE))) % PGSIZE = 0 ∧
          PTE2PA ((kfree s3 pg).ptes p (PX 0 (b + k * PGSIZE))) ∉
            (kfree s3 pg).freeList ∧
          ¬ Tbls (kfree s3 pg) pt
            (PTE2PA ((kfree s3 pg).ptes p (PX 0 (b + k * PGSIZE))))) ∧
      (∀ k k' p p', k < i → k' < i → k ≠ k' →
          pathL0 (kfree s3 pg) pt (b + k * PGSIZE) = some p →
          pathL0 (kfree s3 pg) pt (b + k' * PGSIZE) = some p' →
          PTE2PA ((kfree s3 pg).ptes p (PX 0 (b + k * PGSIZE))) ≠
            PTE2PA ((kfree s3 pg).ptes p' (PX 0 (b + k' * PGSIZE)))) := by
  obtain ⟨hwf2, htbls2, hpath2, hwa2, hother2⟩ := WF_pop_clear s pt pg rest inv.wf hfl
  have hpgfree : pg ∈ s.freeList := by
    rw [hfl]
    exact List.mem_cons_self _ _
  have hpgal : pg % PGSIZE = 0 := inv.wf.fr_good pg hpgfree
  have hpgntbl : ¬ Tbls s pt pg := inv.wf.fr_not_tbl pg hpgfree
  have hpgnrest : pg ∉ rest := by
    have hn := inv.wf.fr_nodup
    rw [hfl] at hn
    exact (List.nodup_cons.mp hn).1
  obtain ⟨m3, hm3⟩ := hg3.drop
  have hsub3 : ∀ q, q ∈ s3.freeList → q ∈ rest := by
    intro q hq
    rw [hm3] at hq
    exact List.drop_subset _ _ hq
  have hntbl3 : ∀ q, ¬ Tbls s pt q → q ∉ rest → ¬ Tbls s3 pt q := by
    intro q h1 h2 hc
    rcases hg3.tblGrow q hc with h | ⟨h, _⟩
    · exact h1 ((htbls2 q).mp h)
    · exact h2 h
  have hwfk : WF (kfree s3 pg) pt :=
    WF_kfree s3 pt pg hg3.wf hpgal (fun hc => hpgnrest (hsub3 pg hc))
      (hntbl3 pg hpgntbl hpgnrest)
  -- original path entries survive unchanged
  have hpres : ∀ k, k < i → ∀ p, pathL0 s pt (b + k * PGSIZE) = some p →
      pathL0 s3 pt (b + k * PGSIZE) = some p ∧
      s3.ptes p (PX 0 (b + k * PGSIZE)) = s.ptes p (PX 0 (b + k * PGSIZE)) := by
    intro k hk p hp
    have hp2 : pathL0 (clearPage { s with freeList := rest } pg) pt
        (b + k * PGSIZE) = some p := by
      rw [hpath2]
      exact hp
    have hptbl : Tbls s pt p := by
      obtain ⟨h2, h1, he⟩ := (pathL0_some_iff s pt _ p).mp hp
      exact Or.inr (Or.inr ⟨_, _, PX_lt 2 _, PX_lt 1 _, h2, h1, he⟩)
    have hpne : p ≠ pg := fun hc => hpgntbl (hc ▸ hptbl)
    have he2 : (clearPage { s with freeList := rest } pg).ptes p
        (PX 0 (b + k * PGSIZE)) = s.ptes p (PX 0 (b + k * PGSIZE)) :=
      hother2 p _ hpne
    have hval : validE (s.ptes p (PX 0 (b + k * PGSIZE))) :=
      (inv.good k hk p hp).1
    refine ⟨hg3.pathPres _ p hp2, ?_⟩
    rw [hg3.validPres p _ ((htbls2 p).mpr hptbl) (by rw [he2]; exact hval), he2]
  refine ⟨hwfk, ?_, ?_, ?_, ?_⟩
  · intro va' h1 h2
    rw [walkaddr_congr (kfree s3 pg) s3 pt va' (Eq.refl _), hg3.waPres va',
      hwa2 va']
    exact inv.waFrame va' h1 h2
  · intro k hk
    cases hp : pathL0 s pt (b + k * PGSIZE) with
    | none => exact absurd hp (inv.pathsome k hk)
    | some p =>
      rw [pathL0_congr (kfree s3 pg) s3 pt _ (Eq.refl _), (hpres k hk p hp).1]
      exact fun hc => Option.noConfusion hc
  · intro k hk p hp
    rw [pathL0_congr (kfree s3 pg) s3 pt _ (Eq.refl _)] at hp
    cases hps : pathL0 s pt (b + k * PGSIZE) with
    | none => exact absurd hps (inv.pathsome k hk)
    | some p' =>
      obtain ⟨hp3, he3⟩ := hpres k hk p' hps
      rw [hp3] at hp
      have hpp : p = p' := (Option.some.inj hp).symm
      subst hpp
      have hek : (kfree s3 pg).ptes p (PX 0 (b + k * PGSIZE)) =
          s.ptes p (PX 0 (b + k * PGSIZE)) := he3
      rw [hek]
      obtain ⟨h1, h2, h3, h4, h5⟩ := inv.good k hk p hps
      refine ⟨h1, h2, h3, ?_, ?_⟩
      · intro hc
        rw [kfree_freeList] at hc
        rcases List.mem_cons.mp hc with hc1 | hc2
        · exact h4 (hc1 ▸ hpgfree)
        · exact h4 (by rw [hfl]; exact List.mem_cons_of_mem _ (hsub3 _ hc2))
      · intro hc
        exact hntbl3 _ h5 (fun hc2 => h4 (by
          rw [hfl]
          exact List.mem_cons_of_mem _ hc2)) hc
  · intro k k' p p' hk hk' hne hp hp'
    rw [pathL0_congr (kfree s3 pg) s3 pt _ (Eq.refl _)] at hp hp'
    cases hps : pathL0 s pt (b + k * PGSIZE) with
    | none => exact absurd hps (inv.pathsome k hk)
    | some q =>
      cases hps' : pathL0 s pt (b + k' * PGSIZE) with
      | none => exact absurd hps' (inv.pathsome k' hk')
      | some q' =>
        obtain ⟨hp3, he3⟩ := hpres k hk q hps
        obtain ⟨hp3', he3'⟩ := hpres k' hk' q' hps'
        rw [hp3] at hp
        rw [hp3'] at hp'
        have : p = q := (Option.some.inj hp).symm
        subst this
        have : p' = q' := (Option.some.inj hp').symm
        subst this
        have hek : (kfree s3 pg).ptes p (PX 0 (b + k * PGSIZE)) =
            s.ptes p (PX 0 (b + k * PGSIZE)) := he3
        have hek' : (kfree s3 pg).ptes p' (PX 0 (b + k' * PGSIZE)) =
            s.ptes p' (PX 0 (b + k' * PGSIZE)) := he3'
        rw [hek, hek']
        exact inv.dist k k' p p' hk hk' hne hps hps'

/-- A successful one-page `mappages` of a fresh allocator page extends the
allocation invariant by one page. -/
theorem AllocInv_step (s0 s s3 : VMState) (pt b i pg : Nat) (rest : List Nat)
    (hb : b % PGSIZE = 0)
    (inv : AllocInv s0 s pt b i) (hfl : s.freeList = pg :: rest)
    (hMv : b + (i + 1) * PGSIZE < MAXVA)
    (M : MapOk (clearPage { s with freeList := rest } pg) s3 pt
      (b + i * PGSIZE) pg (PTE_W ||| PTE_X ||| PTE_R ||| PTE_U) 0) :
    AllocInv s0 s3 pt b (i + 1) := by
  obtain ⟨hwf2, htbls2, hpath2, hwa2, hother2⟩ := WF_pop_clear s pt pg rest inv.wf hfl
  have hpgfree : pg ∈ s.freeList := by
    rw [hfl]
    exact List.mem_cons_self _ _
  have hpgal : pg % PGSIZE = 0 := inv.wf.fr_good pg hpgfree
  have hpgntbl : ¬ Tbls s pt pg := inv.wf.fr_not_tbl pg hpgfree
  have hpgnrest : pg ∉ rest := by
    have hn := inv.wf.fr_nodup
    rw [hfl] at hn
    exact (List.nodup_cons.mp hn).1
  obtain ⟨m3, hm3⟩ := M.drop
  have hsub3 : ∀ q, q ∈ s3.freeList → q ∈ rest := by
    intro q hq
    rw [hm3] at hq
    exact List.drop_subset _ _ hq
  have hntbl3 : ∀ q, ¬ Tbls s pt q → q ∉ rest → ¬ Tbls s3 pt q := by
    intro q h1 h2 hc
    rcases M.tblGrow q hc with h | ⟨h, _⟩
    · exact h1 ((htbls2 q).mp h)
    · exact h2 h
  obtain ⟨pI, hpI, heI⟩ := M.installed 0 (Nat.le_refl 0)
  simp only [Nat.zero_mul, Nat.add_zero] at hpI heI
  obtain ⟨_, _, hvalI, hpteI, hflagsI⟩ :=
    leaf_entry_facts pg (PTE_W ||| PTE_X ||| PTE_R ||| PTE_U) hpgal (by decide)
  have hpres : ∀ k, k < i → ∀ p, pathL0 s pt (b + k * PGSIZE) = some p →
      pathL0 s3 pt (b + k * PGSIZE) = some p ∧
      s3.ptes p (PX 0 (b + k * PGSIZE)) = s.ptes p (PX 0 (b + k * PGSIZE)) := by
    intro k hk p hp
    have hp2 : pathL0 (clearPage { s with freeList := rest } pg) pt
        (b + k * PGSIZE) = some p := by
      rw [hpath2]
      exact hp
    have hptbl : Tbls s pt p := by
      obtain ⟨h2, h1, he⟩ := (pathL0_some_iff s pt _ p).mp hp
      exact Or.inr (Or.inr ⟨_, _, PX_lt 2 _, PX_lt 1 _, h2, h1, he⟩)
    have hpne : p ≠ pg := fun hc => hpgntbl (hc ▸ hptbl)
    have he2 : (clearPage { s with freeList := rest } pg).ptes p
        (PX 0 (b + k * PGSIZE)) = s.ptes p (PX 0 (b + k * PGSIZE)) :=
      hother2 p _ hpne
    have hval : validE (s.ptes p (PX 0 (b + k * PGSIZE))) :=
      (inv.good k hk p hp).1
    refine ⟨M.pathPres _ p hp2, ?_⟩
    rw [M.validPres p _ ((htbls2 p).mpr hptbl) (by rw [he2]; exact hval), he2]
  refine {
    wf := M.wf
    waFrame := ?_, pathsome := ?_, good := ?_, dist := ?_, clean := ?_ }
  · intro va' h1 h2
    have hMF := M.waFrame va' h1 (by
      intro k hk
      have hk0 : k = 0 := Nat.le_zero.mp hk
      subst hk0
      simp only [Nat.zero_mul, Nat.add_zero]
      exact h2 i (by omega))
    rw [hMF, hwa2 va']
    exact inv.waFrame va' h1 (fun k hk => h2 k (by omega))
  · intro k hk
    by_cases hki : k = i
    · subst hki
      rw [hpI]
      exact fun hc => Option.noConfusion hc
    · have hk' : k < i := by omega
      cases hps : pathL0 s pt (b + k * PGSIZE) with
      | none => exact absurd hps (inv.pathsome k hk')
      | some p =>
        rw [(hpres k hk' p hps).1]
        exact fun hc => Option.noConfusion hc
  · intro k hk p hp
    by_cases hki : k = i
    · subst hki
      rw [hpI] at hp
      have hpp : p = pI := (Option.some.inj hp).symm
      subst hpp
      rw [heI]
      refine ⟨hvalI, ?_, ?_, ?_, ?_⟩
      · rw [hflagsI, PTE_V]
        exact or_one_ne_one _ (by decide)
      · rw [hpteI]
        exact hpgal
      · rw [hpteI]
        intro hc
        exact hpgnrest (hsub3 pg hc)
      · rw [hpteI]
        exact hntbl3 pg hpgntbl hpgnrest
    · have hk' : k < i := by omega
      cases hps : pathL0 s pt (b + k * PGSIZE) with
      | none => exact absurd hps (inv.pathsome k hk')
      | some p' =>
        obtain ⟨hp3, he3⟩ := hpres k hk' p' hps
        rw [hp3] at hp
        have hpp : p = p' := (Option.some.inj hp).symm
        subst hpp
        rw [he3]
        obtain ⟨h1, h2, h3, h4, h5⟩ := inv.good k hk' p hps
        refine ⟨h1, h2, h3, ?_, ?_⟩
        · intro hc
          exact h4 (by rw [hfl]; exact List.mem_cons_of_mem _ (hsub3 _ hc))
        · exact hntbl3 _ h5 (fun hc2 => h4 (by
            rw [hfl]
            exact List.mem_cons_of_mem _ hc2))
  · intro k k' p p' hk hk' hne hp hp'
    by_cases hki : k = i
    · subst hki
      have hk'' : k' < k := by omega
      rw [hpI] at hp
      have hpp : p = pI := (Option.some.inj hp).symm
      subst hpp
      cases hps' : pathL0 s pt (b + k' * PGSIZE) with
      | none => exact absurd hps' (inv.pathsome k' hk'')
      | some q' =>
        obtain ⟨hp3', he3'⟩ := hpres k' hk'' q' hps'
        rw [hp3'] at hp'
        have : p' = q' := (Option.some.inj hp').symm
        subst this
        rw [heI, he3', hpteI]
        intro hc
        exact (inv.good k' hk'' p' hps').2.2.2.1 (hc ▸ hpgfree)
    · by_cases hki' : k' = i
      · subst hki'
        have hk'' : k < k' := by omega
        rw [hpI] at hp'
        have hpp : p' = pI := (Option.some.inj hp').symm
        subst hpp
        cases hps : pathL0 s pt (b + k * PGSIZE) with
        | none => exact absurd hps (inv.pathsome k hk'')
        | some q =>
          obtain ⟨hp3, he3⟩ := hpres k hk'' q hps
          rw [hp3] at hp
          have : p = q := (Option.some.inj hp).symm
          subst this
          rw [heI, he3, hpteI]
          intro hc
          exact (inv.good k hk'' p hps).2.2.2.1 (hc.symm ▸ hpgfree)
      · have h1 : k < i := by omega
        have h2 : k' < i := by omega
        cases hps : pathL0 s pt (b + k * PGSIZE) with
        | none => exact absurd hps (inv.pathsome k h1)
        | some q =>
          cases hps' : pathL0 s pt (b + k' * PGSIZE) with
          | none => exact absurd hps' (inv.pathsome k' h2)
          | some q' =>
            obtain ⟨hp3, he3⟩ := hpres k h1 q hps
            obtain ⟨hp3', he3'⟩ := hpres k' h2 q' hps'
            rw [hp3] at hp
            rw [hp3'] at hp'
            have : p = q := (Option.some.inj hp).symm
            subst this
            have : p' = q' := (Option.some.inj hp').symm
            subst this
            rw [he3, he3']
            exact inv.dist k k' p p' h1 h2 hne hps hps'
  · intro va' p h1 h2 hp
    have hge : b + i * PGSIZE ≤ va' := by
      rw [Nat.succ_mul] at h1
      omega
    have hnotpageI : pathL0 s3 pt (b + i * PGSIZE) = some p →
        PX 0 va' = PX 0 (b + i * PGSIZE) → False := by
      intro hq hpx
      obtain ⟨h2e, h1e⟩ := pathL0_px_inj s3 pt M.wf va' (b + i * PGSIZE) p hp hq
      have hdiv := (px_all_eq_iff va' (b + i * PGSIZE) ((lt_MAXVA_iff _).mp h2)
        ((lt_MAXVA_iff _).mp (by rw [Nat.succ_mul] at hMv; omega))).mp
        ⟨h2e, h1e, hpx⟩
      rw [Nat.succ_mul] at h1
      simp only [PGSIZE_def] at hdiv h1
      omega
    cases hps : pathL0 s pt va' with
    | some p' =>
      have hp2 : pathL0 (clearPage { s with freeList := rest } pg) pt va' =
          some p' := by
        rw [hpath2]
        exact hps
      have hp3 : pathL0 s3 pt va' = some p' := M.pathPres _ p' hp2
      rw [hp3] at hp
      have hpp : p = p' := (Option.some.inj hp).symm
      subst hpp
      have hptbl : Tbls s pt p := by
        obtain ⟨h2v, h1v, he⟩ := (pathL0_some_iff s pt _ p).mp hps
        exact Or.inr (Or.inr ⟨_, _, PX_lt 2 _, PX_lt 1 _, h2v, h1v, he⟩)
      have hpne : p ≠ pg := fun hc => hpgntbl (hc ▸ hptbl)
      obtain ⟨h2v, h1v, he⟩ :=
        (pathL0_some_iff (clearPage { s with freeList := rest } pg) pt va' p).mp hp2
      rcases M.l0Pres p ⟨PX 2 va', PX 1 va', PX_lt 2 va', PX_lt 1 va',
          h2v, h1v, he⟩ (PX 0 va') with he' | ⟨k, hk, hpk, hjk⟩
      · rw [he', hother2 p _ hpne]
        exact inv.clean va' p hge h2 hps
      · have hk0 : k = 0 := Nat.le_zero.mp hk
        subst hk0
        simp only [Nat.zero_mul, Nat.add_zero] at hpk hjk
        exact absurd hpk (fun hq => hnotpageI hq hjk)
    | none =>
      have hfresh := path_new_not_tbl (clearPage { s with freeList := rest } pg)
        s3 pt va' p M.wf M.validPres (by rw [hpath2]; exact hps) hp
      obtain ⟨h2v, h1v, he⟩ := (pathL0_some_iff s3 pt va' p).mp hp
      rcases M.l0New p ⟨PX 2 va', PX 1 va', PX_lt 2 va', PX_lt 1 va',
          h2v, h1v, he⟩ hfresh (PX 0 va') with h0 | ⟨k, hk, hpk, hjk⟩
      · rw [h0, validE_iff]
        omega
      · have hk0 : k = 0 := Nat.le_zero.mp hk
        subst hk0
        simp only [Nat.zero_mul, Nat.add_zero] at hpk hjk
        exact absurd hpk (fun hq => hnotpageI hq hjk)

/-- `uvmdealloc` from the current position back to the base `b` restores
the pre-call translations. -/
theorem uvmdealloc_rollback (s0 t : VMState) (pt b i : Nat)
    (hb : b % PGSIZE = 0) (hwft : WF t pt) (hM : b + i * PGSIZE < MAXVA)
    (hwaF : ∀ va', va' < MAXVA →
        (∀ k, k < i → va' / PGSIZE ≠ (b + k * PGSIZE) / PGSIZE) →
        walkaddr t pt va' = walkaddr s0 pt va')
    (hex : ∀ k, k < i → pathL0 t pt (b + k * PGSIZE) ≠ none)
    (hgood : ∀ k, k < i → ∀ p, pathL0 t pt (b + k * PGSIZE) = some p →
        validE (t.ptes p (PX 0 (b + k * PGSIZE))) ∧
        PTE_FLAGS (t.ptes p (PX 0 (b + k * PGSIZE))) ≠ PTE_V ∧
        PTE2PA (t.ptes p (PX 0 (b + k * PGSIZE))) % PGSIZE = 0 ∧
        PTE2PA (t.ptes p (PX 0 (b + k * PGSIZE))) ∉ t.freeList ∧
        ¬ Tbls t pt (PTE2PA (t.ptes p (PX 0 (b + k * PGSIZE)))))
    (hdist : ∀ k k' p p', k < i → k' < i → k ≠ k' →
        pathL0 t pt (b + k * PGSIZE) = some p →
        pathL0 t pt (b + k' * PGSIZE) = some p' →
        PTE2PA (t.ptes p (PX 0 (b + k * PGSIZE))) ≠
          PTE2PA (t.ptes p' (PX 0 (b + k' * PGSIZE))))
    (hs0clean : ∀ va' p, b ≤ va' → va' < MAXVA → pathL0 s0 pt va' = some p →
        ¬ validE (s0.ptes p (PX 0 va'))) :
    ∃ v s2, uvmdealloc t pt (b + i * PGSIZE) b = .ok (v, s2) ∧ WF s2 pt ∧
      (∀ va', va' < MAXVA → walkaddr s2 pt va' = walkaddr s0 pt va') ∧
      (∀ q, q ∈ t.freeList → q ∈ s2.freeList) ∧
      (∀ q, Tbls t pt q → Tbls s2 pt q) ∧
      (∀ k, k < i → ∀ p, pathL0 t pt (b + k * PGSIZE) = some p →
        PTE2PA (t.ptes p (PX 0 (b + k * PGSIZE))) ∈ s2.freeList) := by
  by_cases hi : i = 0
  · subst hi
    refine ⟨b + 0 * PGSIZE, t, ?_, hwft, ?_, fun q h => h, fun q h => h,
      fun k hk => absurd hk (by omega)⟩
    · rw [uvmdealloc, if_pos (by omega : b ≥ b + 0 * PGSIZE)]
    · intro va' hva'
      exact hwaF va' hva' (fun k hk => absurd hk (by omega))
  · obtain ⟨s2, hok, hwf2, hwa, hflS, htbS, hfrS⟩ := rollback_restores s0 t pt b i
      hb hwft hM hwaF hex hgood hdist hs0clean
    have hipos : 0 < i * PGSIZE := Nat.mul_pos (Nat.pos_of_ne_zero hi) (by decide)
    have hgb : PGROUNDUP b = b := by
      rw [PGROUNDUP_def]
      have hb' := hb
      simp only [PGSIZE_def] at hb'
      omega
    have hga : PGROUNDUP (b + i * PGSIZE) = b + i * PGSIZE := by
      rw [PGROUNDUP_def]
      have hb' := hb
      simp only [PGSIZE_def] at hb' ⊢
      omega
    refine ⟨b, s2, ?_, hwf2, hwa, hflS, htbS, hfrS⟩
    rw [uvmdealloc, if_neg (by omega : ¬ b ≥ b + i * PGSIZE),
      if_pos (by rw [hgb, hga]; omega), hgb, hga]
    have hnp : (b + i * PGSIZE - b) / PGSIZE = i := by
      simp only [PGSIZE_def]
      omega
    rw [hnp, uvmunmap, if_neg (fun hc => hc hb), hok]

/-- The induction behind `uvmalloc`: if its loop reports failure, the
address space translates exactly as before the call. -/
theorem uvmallocLoop_spec (pt b newsz : Nat) (hb : b % PGSIZE = 0)
    (hnz : 0 < newsz) (s0 : VMState)
    (hs0clean : ∀ va' p, b ≤ va' → va' < MAXVA → pathL0 s0 pt va' = some p →
        ¬ validE (s0.ptes p (PX 0 va'))) :
    ∀ n s i, AllocInv s0 s pt b i → b + (i + n) * PGSIZE < MAXVA →
      ∀ r s', uvmallocLoop pt b newsz s (b + i * PGSIZE) n = .ok (r, s') →
        r = 0 →
        WF s' pt ∧
        (∀ va', va' < MAXVA → walkaddr s' pt va' = walkaddr s0 pt va') ∧
        (∀ q, Tbls s pt q → Tbls s' pt q) ∧
        (∀ q, q ∈ s.freeList → q ∈ s'.freeList ∨ Tbls s' pt q ∨ q = 0) ∧
        (∀ k, k < i → ∀ p, pathL0 s pt (b + k * PGSIZE) = some p →
          PTE2PA (s.ptes p (PX 0 (b + k * PGSIZE))) ∈ s'.freeList) := by
  intro n
  induction n with
  | zero =>
    intro s i inv hMv r s' hrun hr0
    rw [uvmallocLoop] at hrun
    injection hrun with h
    injection h with h1 h2
    exact absurd (h1.trans hr0) (by omega)
  | succ n ih =>
    intro s i inv hMv r s' hrun hr0
    have hiM : b + i * PGSIZE < MAXVA := by
      have h1 : i * PGSIZE ≤ (i + (n + 1)) * PGSIZE :=
        Nat.mul_le_mul_right _ (by omega)
      omega
    rw [uvmallocLoop] at hrun
    cases hfl : s.freeList with
    | nil =>
      rw [show kalloc s = (0, s) from by rw [kalloc, hfl]] at hrun
      dsimp only at hrun
      rw [if_pos (Eq.refl 0)] at hrun
      obtain ⟨v, s2, hok, hwf2, hwa, hflS, htbS, hfrS⟩ := uvmdealloc_rollback s0 s
        pt b i hb inv.wf hiM inv.waFrame inv.pathsome inv.good inv.dist hs0clean
      rw [hok] at hrun
      dsimp only at hrun
      injection hrun with h
      injection h with h1 h2
      subst h2
      exact ⟨hwf2, hwa, htbS, fun q hq => absurd hq (List.not_mem_nil q), hfrS⟩
    | cons pg rest =>
      rw [show kalloc s = (pg, { s with freeList := rest }) from by
        rw [kalloc, hfl]] at hrun
      dsimp only at hrun
      by_cases hpg : pg = 0
      · subst hpg
        rw [if_pos (Eq.refl 0)] at hrun
        have invP := AllocInv_pop s0 s pt b i 0 rest inv hfl
        obtain ⟨v, s2, hok, hwf2, hwa, hflS, htbS, hfrS⟩ := uvmdealloc_rollback s0
          { s with freeList := rest } pt b i hb invP.wf hiM invP.waFrame
          invP.pathsome invP.good invP.dist hs0clean
        rw [hok] at hrun
        dsimp only at hrun
        injection hrun with h
        injection h with h1 h2
        subst h2
        refine ⟨hwf2, hwa, ?_, ?_, ?_⟩
        · intro q hq
          exact htbS q
            ((Tbls_congr s { s with freeList := rest } pt q (Eq.refl _)).mpr hq)
        · intro q hq
          rcases List.mem_cons.mp hq with h | h
          · exact Or.inr (Or.inr h)
          · exact Or.inl (hflS q h)
        · intro k hk p hp
          refine hfrS k hk p ?_
          rw [pathL0_congr { s with freeList := rest } s pt _ (Eq.refl _)]
          exact hp
      · rw [if_neg hpg] at hrun
        obtain ⟨hwf2, htbls2, hpath2, hwa2, hother2⟩ :=
          WF_pop_clear s pt pg rest inv.wf hfl
        have hpgfree : pg ∈ s.freeList := by
          rw [hfl]
          exact List.mem_cons_self _ _
        have hpgal : pg % PGSIZE = 0 := inv.wf.fr_good pg hpgfree
        have hpgntbl : ¬ Tbls s pt pg := inv.wf.fr_not_tbl pg hpgfree
        have haal : (b + i * PGSIZE) % PGSIZE = 0 := by
          have hb' := hb
          simp only [PGSIZE_def] at hb' ⊢
          omega
        have haM1 : b + i * PGSIZE + PGSIZE < MAXVA := by
          have h1 : (i + 1) * PGSIZE ≤ (i + (n + 1)) * PGSIZE :=
            Nat.mul_le_mul_right _ (by omega)
          rw [Nat.add_mul, Nat.one_mul] at h1
          omega
        cases hmp : mappages (clearPage { s with freeList := rest } pg) pt
            (b + i * PGSIZE) PGSIZE pg (PTE_W ||| PTE_X ||| PTE_R ||| PTE_U) with
        | panic =>
          rw [hmp] at hrun
          exact Res.noConfusion hrun
        | ok rs3 =>
          obtain ⟨r3, s3⟩ := rs3
          rw [hmp] at hrun
          dsimp only at hrun
          by_cases hr3 : r3 = 0
          · subst hr3
            rw [if_neg (show ¬ (0 : Int) ≠ 0 from fun hc => hc (Eq.refl _))] at hrun
            have hclear2 : ∀ va' p, b + i * PGSIZE ≤ va' →
                va' < b + i * PGSIZE + PGSIZE →
                pathL0 (clearPage { s with freeList := rest } pg) pt va' = some p →
                ¬ validE ((clearPage { s with freeList := rest } pg).ptes p
                  (PX 0 va')) := by
              intro va' p hlo hhi hpv
              rw [hpath2] at hpv
              have hptbl : Tbls s pt p := by
                obtain ⟨h2v, h1v, he⟩ := (pathL0_some_iff s pt _ p).mp hpv
                exact Or.inr (Or.inr ⟨_, _, PX_lt 2 _, PX_lt 1 _, h2v, h1v, he⟩)
              rw [hother2 p _ (fun hc => hpgntbl (hc ▸ hptbl))]
              exact inv.clean va' p hlo (by omega) hpv
            have M := mappages_ok (clearPage { s with freeList := rest } pg) pt
              (b + i * PGSIZE) PGSIZE pg (PTE_W ||| PTE_X ||| PTE_R ||| PTE_U) s3
              hwf2 haal hpgal (by decide) (by decide) (by decide) haM1 hclear2 hmp
            have M0 : MapOk (clearPage { s with freeList := rest } pg) s3 pt
                (b + i * PGSIZE) pg (PTE_W ||| PTE_X ||| PTE_R ||| PTE_U) 0 := M
            have invS := AllocInv_step s0 s s3 pt b i pg rest hb inv hfl
              (by rw [Nat.succ_mul]; omega) M0
            have haddr : b + i * PGSIZE + PGSIZE = b + (i + 1) * PGSIZE := by
              rw [Nat.succ_mul]
              omega
            rw [haddr] at hrun
            obtain ⟨Hwf, Hwa, Htb, Hfl, Hfr⟩ := ih s3 (i + 1) invS (by
              rw [show i + 1 + n = i + (n + 1) from by omega]
              exact hMv) r s' hrun hr0
            have hpresK : ∀ k, k < i → ∀ p, pathL0 s pt (b + k * PGSIZE) = some p →
                pathL0 s3 pt (b + k * PGSIZE) = some p ∧
                s3.ptes p (PX 0 (b + k * PGSIZE)) =
                  s.ptes p (PX 0 (b + k * PGSIZE)) := by
              intro k hk p hp
              have hptbl : Tbls s pt p := Tbls_of_pathL0 s pt _ p hp
              have hpc : pathL0 (clearPage { s with freeList := rest } pg) pt
                  (b + k * PGSIZE) = some p := by
                rw [hpath2]
                exact hp
              have hec : (clearPage { s with freeList := rest } pg).ptes p
                  (PX 0 (b + k * PGSIZE)) = s.ptes p (PX 0 (b + k * PGSIZE)) :=
                hother2 p _ (fun hc => hpgntbl (hc ▸ hptbl))
              have hvc : validE ((clearPage { s with freeList := rest } pg).ptes p
                  (PX 0 (b + k * PGSIZE))) := by
                rw [hec]
                exact (inv.good k hk p hp).1
              have htc : Tbls (clearPage { s with freeList := rest } pg) pt p :=
                (htbls2 p).mpr hptbl
              refine ⟨M.pathPres _ p hpc, ?_⟩
              rw [M.validPres p _ htc hvc, hec]
            refine ⟨Hwf, Hwa, ?_, ?_, ?_⟩
            · intro q hq
              exact Htb q (M.tblMono q ((htbls2 q).mpr hq))
            · intro q hq
              rcases List.mem_cons.mp hq with h | h
              · obtain ⟨pI, hpI, heI⟩ := M.installed 0 (Nat.le_refl 0)
                simp only [Nat.zero_mul, Nat.add_zero] at hpI heI
                have hfr_i := Hfr i (by omega) pI hpI
                rw [heI, (leaf_entry_facts pg (PTE_W ||| PTE_X ||| PTE_R ||| PTE_U)
                  hpgal (by decide)).2.2.2.1] at hfr_i
                rw [h]
                exact Or.inl hfr_i
              · rcases M.flAcct q h with h2 | h2 | h2
                · exact Hfl q h2
                · exact Or.inr (Or.inl (Htb q h2))
                · exact Or.inr (Or.inr h2)
            · intro k hk p hp
              obtain ⟨hp3, he3⟩ := hpresK k hk p hp
              have hmem := Hfr k (by omega) p hp3
              rw [he3] at hmem
              exact hmem
          · rw [if_pos hr3] at hrun
            have G := mappages_single_fail (clearPage { s with freeList := rest } pg)
              pt (b + i * PGSIZE) pg (PTE_W ||| PTE_X ||| PTE_R ||| PTE_U) s3 r3
              hwf2 haal hiM hmp hr3
            obtain ⟨hwfk, hwaF, hex, hgood, hdist⟩ :=
              AllocInv_fail_state s0 s s3 pt b i pg rest inv hfl G
            obtain ⟨v, s2, hok, hwf2', hwa, hflS, htbS, hfrS⟩ := uvmdealloc_rollback
              s0 (kfree s3 pg) pt b i hb hwfk hiM hwaF hex hgood hdist hs0clean
            rw [hok] at hrun
            dsimp only at hrun
            injection hrun with h
            injection h with h1 h2
            subst h2
            have hpresK : ∀ k, k < i → ∀ p, pathL0 s pt (b + k * PGSIZE) = some p →
                pathL0 (kfree s3 pg) pt (b + k * PGSIZE) = some p ∧
                (kfree s3 pg).ptes p (PX 0 (b + k * PGSIZE)) =
                  s.ptes p (PX 0 (b + k * PGSIZE)) := by
              intro k hk p hp
              have hptbl : Tbls s pt p := Tbls_of_pathL0 s pt _ p hp
              have hpc : pathL0 (clearPage { s with freeList := rest } pg) pt
                  (b + k * PGSIZE) = some p := by
                rw [hpath2]
                exact hp
              have hec : (clearPage { s with freeList := rest } pg).ptes p
                  (PX 0 (b + k * PGSIZE)) = s.ptes p (PX 0 (b + k * PGSIZE)) :=
                hother2 p _ (fun hc => hpgntbl (hc ▸ hptbl))
              have hvc : validE ((clearPage { s with freeList := rest } pg).ptes p
                  (PX 0 (b + k * PGSIZE))) := by
                rw [hec]
                exact (inv.good k hk p hp).1
              have htc : Tbls (clearPage { s with freeList := rest } pg) pt p :=
                (htbls2 p).mpr hptbl
              have hp3 : pathL0 s3 pt (b + k * PGSIZE) = some p := G.pathPres _ p hpc
              refine ⟨?_, ?_⟩
              · rw [pathL0_congr (kfree s3 pg) s3 pt _ (Eq.refl _)]
                exact hp3
              · show s3.ptes p (PX 0 (b + k * PGSIZE)) =
                  s.ptes p (PX 0 (b + k * PGSIZE))
                rw [G.validPres p _ htc hvc, hec]
            refine ⟨hwf2', hwa, ?_, ?_, ?_⟩
            · intro q hq
              exact htbS q ((Tbls_congr s3 (kfree s3 pg) pt q (Eq.refl _)).mpr
                (G.tblMono q ((htbls2 q).mpr hq)))
            · intro q hq
              rcases List.mem_cons.mp hq with h | h
              · rw [h]
                exact Or.inl (hflS pg (List.mem_cons_self _ _))
              · rcases G.flAcct q h with h2 | h2 | h2
                · exact Or.inl (hflS q (List.mem_cons_of_mem _ h2))
                · exact Or.inr (Or.inl (htbS q
                    ((Tbls_congr s3 (kfree s3 pg) pt q (Eq.refl _)).mpr h2)))
                · exact Or.inr (Or.inr h2)
            · intro k hk p hp
              obtain ⟨hp3, he3⟩ := hpresK k hk p hp
              have hmem := hfrS k hk p hp3
              rw [he3] at hmem
              exact hmem

/-! ### Claim C4 -/

/-- **C4.** When `uvmalloc(pt, oldsz, newsz)` with `newsz >= oldsz` fails
partway (returning `0`), it has rolled back: the table is well formed, every
translation is exactly as before the call — no partially grown address space
remains — and no page is leaked: every page of the pre-call free list is
either back on the free list (data pages are unmapped and freed again) or
serves as a page-table node of the tree. -/
theorem C4_uvmalloc_rollback (s s' : VMState) (pt oldsz newsz r : Nat)
    (hwf : WF s pt) (hle : oldsz ≤ newsz) (hnewM : PGROUNDUP newsz < MAXVA)
    (h0 : 0 ∉ s.freeList)
    (hclean : ∀ va' p, PGROUNDUP oldsz ≤ va' → va' < MAXVA →
        pathL0 s pt va' = some p → ¬ validE (s.ptes p (PX 0 va')))
    (hrun : uvmalloc s pt oldsz newsz = .ok (r, s')) (hr : r = 0) :
    WF s' pt ∧
      (∀ va', va' < MAXVA → walkaddr s' pt va' = walkaddr s pt va') ∧
      (∀ q, q ∈ s.freeList → q ∈ s'.freeList ∨ Tbls s' pt q) := by
  by_cases hnz : newsz = 0
  · subst hnz
    have hoz : oldsz = 0 := by omega
    subst hoz
    rw [uvmalloc, if_neg (by omega : ¬ (0 : Nat) < 0)] at hrun
    rw [show (0 - PGROUNDUP 0 + PGSIZE - 1) / PGSIZE = 0 from by decide,
      show PGROUNDUP 0 = 0 from by decide] at hrun
    rw [uvmallocLoop] at hrun
    injection hrun with h
    injection h with h1 h2
    subst h2
    exact ⟨hwf, fun va' _ => Eq.refl _, fun q hq => Or.inl hq⟩
  · have hbal : PGROUNDUP oldsz % PGSIZE = 0 := by
      rw [PGROUNDUP_def]
      simp only [PGSIZE_def]
      omega
    have inv0 : AllocInv s s pt (PGROUNDUP oldsz) 0 := {
      wf := hwf
      waFrame := fun va' _ _ => Eq.refl _
      pathsome := fun k hk => absurd hk (by omega)
      good := fun k hk => absurd hk (by omega)
      dist := fun k k' p p' hk => absurd hk (by omega)
      clean := fun va' p h1 h2 hp => hclean va' p (by omega) h2 hp }
    have hbound : PGROUNDUP oldsz +
        (0 + (newsz - PGROUNDUP oldsz + PGSIZE - 1) / PGSIZE) * PGSIZE < MAXVA := by
      rw [PGROUNDUP_def] at hnewM ⊢
      simp only [PGSIZE_def] at hnewM ⊢
      omega
    rw [uvmalloc, if_neg (by omega : ¬ newsz < oldsz)] at hrun
    obtain ⟨Hwf, Hwa, _, Hfl, _⟩ := uvmallocLoop_spec pt (PGROUNDUP oldsz) newsz
      hbal (by omega) s (fun va' p h1 h2 hp => hclean va' p h1 h2 hp)
      ((newsz - PGROUNDUP oldsz + PGSIZE - 1) / PGSIZE) s 0 inv0 hbound r s' (by
        rw [show PGROUNDUP oldsz + 0 * PGSIZE = PGROUNDUP oldsz from by omega]
        exact hrun) hr
    refine ⟨Hwf, Hwa, ?_⟩
    intro q hq
    rcases Hfl q hq with h | h | h
    · exact Or.inl h
    · exact Or.inr h
    · exact absurd (h ▸ hq) h0

theorem C4_witness :
    uvmalloc C4state 4096 0 4096 = .ok (0, C4state') ∧
      walkaddr C4state' 4096 0 = walkaddr C4state 4096 0 ∧
      (8192 ∈ C4state'.freeList ∨ Tbls C4state' 4096 8192) := by
  have hrun : uvmalloc C4state 4096 0 4096 = .ok (0, C4state') := by rfl
  have h := C4_uvmalloc_rollback C4state C4state' 4096 0 4096 0
    (WF_zero (fun _ _ => 0) [8192] 4096 ⟨by decide, by decide⟩ (by decide)
      (by intro q hq; simp only [List.mem_cons, List.not_mem_nil, or_false] at hq
          subst hq; decide)
      (by intro q hq; simp only [List.mem_cons, List.not_mem_nil, or_false] at hq
          subst hq; decide))
    (by decide) (by decide) (by decide)
    (fun va' p _ _ hp => by
      rw [pathL0_some_iff] at hp
      exact (hp.1 (Nat.zero_and _)).elim)
    hrun (Eq.refl _)
  exact ⟨hrun, h.2.1 0 (by decide), h.2.2 8192 (by decide)⟩

/-! ### Claim C7 -/

theorem freewalkLoop_zero (child : VMState → Nat → Res VMState) (s : VMState)
    (p i : Nat) : freewalkLoop child 0 s p i = .ok (kfree s p) := rfl

theorem freewalkLoop_succ (child : VMState → Nat → Res VMState) (k : Nat)
    (s : VMState) (p i : Nat) :
    freewalkLoop child (k + 1) s p i =
      (if s.ptes p i &&& PTE_V ≠ 0 then
        if s.ptes p i &&& (PTE_R ||| PTE_W ||| PTE_X) = 0 then
          match child s (PTE2PA (s.ptes p i)) with
          | .panic => .panic
          | .ok s1 => freewalkLoop child k (setPte s1 p i 0) p (i + 1)
        else .panic
      else freewalkLoop child k s p (i + 1)) := rfl

/-- A state reached from `s` by clearing some entries keeps every entry
either unchanged or zero; a valid entry is therefore unchanged. -/
theorem zf_valid (s t : VMState) (q j : Nat)
    (hzf : ∀ q2 j2, t.ptes q2 j2 = s.ptes q2 j2 ∨ t.ptes q2 j2 = 0)
    (hv : validE (t.ptes q j)) : t.ptes q j = s.ptes q j := by
  rcases hzf q j with h | h
  · exact h
  · rw [h] at hv
    exact (hv (Nat.zero_and _)).elim

/-- `midShape` survives clearing entries. -/
theorem midShape_zf (s t : VMState) (c : Nat)
    (hzf : ∀ q2 j2, t.ptes q2 j2 = s.ptes q2 j2 ∨ t.ptes q2 j2 = 0)
    (h : midShape s c) : midShape t c := by
  intro j hj hv
  have he := zf_valid s t c j hzf hv
  rw [he] at hv ⊢
  obtain ⟨h1, h2, h3⟩ := h j hj hv
  refine ⟨h1, h2, ?_⟩
  intro jj hjj hvjj
  have he2 := zf_valid s t _ jj hzf hvjj
  rw [he2] at hvjj ⊢
  exact h3 jj hjj hvjj

/-- A reachable level-0 entry in the cleared state was already reachable. -/
theorem midLeaf_zf (s t : VMState) (c : Nat)
    (hzf : ∀ q2 j2, t.ptes q2 j2 = s.ptes q2 j2 ∨ t.ptes q2 j2 = 0)
    (h : midLeaf t c) : midLeaf s c := by
  obtain ⟨j, hj, hv, jj, hjj, hvjj⟩ := h
  have he := zf_valid s t c j hzf hv
  rw [he] at hv hvjj
  have he2 := zf_valid s t _ jj hzf hvjj
  rw [he2] at hvjj
  exact ⟨j, hj, hv, jj, hjj, hvjj⟩

/-- Scanning a range of invalid entries only frees the table's page. -/
theorem freewalkLoop_empty (child : VMState → Nat → Res VMState) (d : Nat) :
    ∀ k s i, (∀ j, i ≤ j → j < i + k → ¬ validE (s.ptes d j)) →
    freewalkLoop child k s d i = .ok (kfree s d) := by
  intro k
  induction k with
  | zero => intro s i _; exact freewalkLoop_zero child s d i
  | succ k ih =>
    intro s i h
    have hv2 : ¬ s.ptes d i &&& PTE_V ≠ 0 := h i (le_refl i) (by omega)
    rw [freewalkLoop_succ, if_neg hv2]
    exact ih s (i + 1) (fun j h1 h2 => h j (by omega) (by omega))

/-- Scanning a table of leaves that still holds a valid entry panics. -/
theorem freewalkLoop_leaf (child : VMState → Nat → Res VMState) (d : Nat) :
    ∀ k s i, i + k ≤ 512 → leafTable s d →
    (∃ j, i ≤ j ∧ j < i + k ∧ validE (s.ptes d j)) →
    freewalkLoop child k s d i = .panic := by
  intro k
  induction k with
  | zero =>
    rintro s i hik hl ⟨j, h1, h2, _⟩
    exact absurd h2 (by omega)
  | succ k ih =>
    rintro s i hik hl ⟨j, h1, h2, hv⟩
    by_cases hvi : validE (s.ptes d i)
    · have hni : ¬ s.ptes d i &&& (PTE_R ||| PTE_W ||| PTE_X) = 0 :=
        hl i (by omega) hvi
      have hv2 : s.ptes d i &&& PTE_V ≠ 0 := hvi
      rw [freewalkLoop_succ, if_pos hv2, if_neg hni]
    · have hv2 : ¬ s.ptes d i &&& PTE_V ≠ 0 := hvi
      have hji : j ≠ i := fun hc => hvi (hc ▸ hv)
      rw [freewalkLoop_succ, if_neg hv2]
      exact ih s (i + 1) (by omega) hl ⟨j, by omega, by omega, hv⟩

/-- One level-1 table under `freewalk`: with fuel for the level below, the
scan panics exactly when some child still holds a valid (leaf) entry, and
otherwise succeeds, freeing the table and its children and writing only the
table's own slots (to zero). -/
theorem freewalkLoop_mid (g c : Nat) :
    ∀ k s i, i + k ≤ 512 → midShape s c →
    ((∃ j, i ≤ j ∧ j < i + k ∧ validE (s.ptes c j) ∧
        leafIn s (PTE2PA (s.ptes c j))) →
      freewalkLoop (freewalkGo (g + 1)) k s c i = .panic) ∧
    ((∀ j, i ≤ j → j < i + k → validE (s.ptes c j) →
        ¬ leafIn s (PTE2PA (s.ptes c j))) →
      ∃ s2, freewalkLoop (freewalkGo (g + 1)) k s c i = .ok s2 ∧
        (∀ q j2, q ≠ c → s2.ptes q j2 = s.ptes q j2) ∧
        (∀ j2, s2.ptes c j2 = s.ptes c j2 ∨ s2.ptes c j2 = 0) ∧
        (∀ x, x ∈ s.freeList → x ∈ s2.freeList) ∧ c ∈ s2.freeList) := by
  intro k
  induction k with
  | zero =>
    intro s i hik hm
    constructor
    · rintro ⟨j, h1, h2, _, _⟩
      exact absurd h2 (by omega)
    · intro _
      exact ⟨kfree s c, freewalkLoop_zero _ s c i, fun q j2 _ => rfl,
        fun j2 => Or.inl rfl, fun x hx => List.mem_cons_of_mem _ hx,
        List.mem_cons_self _ _⟩
  | succ k ih =>
    intro s i hik hm
    by_cases hvi : validE (s.ptes c i)
    · obtain ⟨hin, hnec, hleafT⟩ := hm i (by omega) hvi
      have hv2 : s.ptes c i &&& PTE_V ≠ 0 := hvi
      have hi2 : s.ptes c i &&& (PTE_R ||| PTE_W ||| PTE_X) = 0 := hin
      have heq : freewalkGo (g + 1) s (PTE2PA (s.ptes c i)) =
          freewalkLoop (freewalkGo g) 512 s (PTE2PA (s.ptes c i)) 0 := rfl
      by_cases hlf : leafIn s (PTE2PA (s.ptes c i))
      · obtain ⟨jj, hjj, hvjj⟩ := hlf
        have hpan : freewalkLoop (freewalkGo g) 512 s (PTE2PA (s.ptes c i)) 0 =
            .panic :=
          freewalkLoop_leaf (freewalkGo g) (PTE2PA (s.ptes c i)) 512 s 0
            (by omega) hleafT ⟨jj, by omega, by omega, hvjj⟩
        constructor
        · intro _
          rw [freewalkLoop_succ, if_pos hv2, if_pos hi2, heq, hpan]
        · intro hno
          exact absurd (⟨jj, hjj, hvjj⟩ : leafIn s (PTE2PA (s.ptes c i)))
            (hno i (by omega) (by omega) hvi)
      · have hok : freewalkLoop (freewalkGo g) 512 s (PTE2PA (s.ptes c i)) 0 =
            .ok (kfree s (PTE2PA (s.ptes c i))) :=
          freewalkLoop_empty (freewalkGo g) (PTE2PA (s.ptes c i)) 512 s 0
            (fun j h1 h2 hv => hlf ⟨j, by omega, hv⟩)
        have hred : freewalkLoop (freewalkGo (g + 1)) (k + 1) s c i =
            freewalkLoop (freewalkGo (g + 1)) k
              (setPte (kfree s (PTE2PA (s.ptes c i))) c i 0) c (i + 1) := by
          rw [freewalkLoop_succ, if_pos hv2, if_pos hi2, heq, hok]
        have hsp : ∀ q j2,
            (setPte (kfree s (PTE2PA (s.ptes c i))) c i 0).ptes q j2 =
              if q = c ∧ j2 = i then 0 else s.ptes q j2 := fun q j2 => rfl
        have hzf : ∀ q j2,
            (setPte (kfree s (PTE2PA (s.ptes c i))) c i 0).ptes q j2 =
                s.ptes q j2 ∨
              (setPte (kfree s (PTE2PA (s.ptes c i))) c i 0).ptes q j2 = 0 := by
          intro q j2
          rw [hsp]
          by_cases hcd : (q = c ∧ j2 = i)
          · rw [if_pos hcd]; exact Or.inr rfl
          · rw [if_neg hcd]; exact Or.inl rfl
        have hm2 : midShape (setPte (kfree s (PTE2PA (s.ptes c i))) c i 0) c :=
          midShape_zf s _ c hzf hm
        obtain ⟨IHp, IHo⟩ := ih (setPte (kfree s (PTE2PA (s.ptes c i))) c i 0)
          (i + 1) (by omega) hm2
        have hce : ∀ j, j ≠ i →
            (setPte (kfree s (PTE2PA (s.ptes c i))) c i 0).ptes c j =
              s.ptes c j := by
          intro j hj
          rw [hsp, if_neg (fun hcd => hj hcd.2)]
        constructor
        · rintro ⟨j, h1, h2, hv, hlfj⟩
          have hji : j ≠ i := by
            intro hcj
            rw [hcj] at hlfj
            exact hlf hlfj
          rw [hred]
          apply IHp
          refine ⟨j, by omega, by omega, ?_, ?_⟩
          · rw [hce j hji]; exact hv
          · rw [hce j hji]
            obtain ⟨jj, hjj, hvjj⟩ := hlfj
            have hnecj : PTE2PA (s.ptes c j) ≠ c := (hm j (by omega) hv).2.1
            refine ⟨jj, hjj, ?_⟩
            rw [hsp, if_neg (fun hcd => hnecj hcd.1)]
            exact hvjj
        · intro hno
          have hno2 : ∀ j, i + 1 ≤ j → j < (i + 1) + k →
              validE ((setPte (kfree s (PTE2PA (s.ptes c i))) c i 0).ptes c j) →
              ¬ leafIn (setPte (kfree s (PTE2PA (s.ptes c i))) c i 0)
                (PTE2PA
                  ((setPte (kfree s (PTE2PA (s.ptes c i))) c i 0).ptes c j)) := by
            intro j h1 h2 hv hlfj
            rw [hce j (by omega)] at hv hlfj
            refine hno j (by omega) (by omega) hv ?_
            obtain ⟨jj, hjj, hvjj⟩ := hlfj
            rw [zf_valid s _ _ jj hzf hvjj] at hvjj
            exact ⟨jj, hjj, hvjj⟩
          obtain ⟨s2, h1, h2, h3, h4, h5⟩ := IHo hno2
          refine ⟨s2, by rw [hred]; exact h1, ?_, ?_, ?_, h5⟩
          · intro q j2 hq
            rw [h2 q j2 hq, hsp, if_neg (fun hcd => hq hcd.1)]
          · intro j2
            rcases h3 j2 with h | h
            · rw [h, hsp]
              by_cases hcd : (c = c ∧ j2 = i)
              · rw [if_pos hcd]; exact Or.inr rfl
              · rw [if_neg hcd]; exact Or.inl rfl
            · exact Or.inr h
          · intro x hx
            exact h4 x (List.mem_cons_of_mem _ hx)
    · have hv2 : ¬ s.ptes c i &&& PTE_V ≠ 0 := hvi
      have hred : freewalkLoop (freewalkGo (g + 1)) (k + 1) s c i =
          freewalkLoop (freewalkGo (g + 1)) k s c (i + 1) := by
        rw [freewalkLoop_succ, if_neg hv2]
      obtain ⟨IHp, IHo⟩ := ih s (i + 1) (by omega) hm
      constructor
      · rintro ⟨j, h1, h2, hv, hlfj⟩
        have hji : j ≠ i := fun hc => hvi (hc ▸ hv)
        rw [hred]
        exact IHp ⟨j, by omega, by omega, hv, hlfj⟩
      · intro hno
        obtain ⟨s2, h1, h2, h3, h4, h5⟩ := IHo
          (fun j hj1 hj2 => hno j (by omega) (by omega))
        exact ⟨s2, by rw [hred]; exact h1, h2, h3, h4, h5⟩

/-- The root table under `freewalk`: on a three-level shape the scan panics
exactly when some level-0 entry is still valid, and otherwise succeeds,
freeing the root page and every level-1 table while keeping the pages that
were already free. -/
theorem freewalkLoop_root (g pt : Nat) :
    ∀ k s i, i + k ≤ 512 →
    (∀ i2, i ≤ i2 → i2 < i + k → validE (s.ptes pt i2) →
      internE (s.ptes pt i2) ∧ PTE2PA (s.ptes pt i2) ≠ pt ∧
        midShape s (PTE2PA (s.ptes pt i2)) ∧
        (∀ j, j < 512 → validE (s.ptes (PTE2PA (s.ptes pt i2)) j) →
          PTE2PA (s.ptes (PTE2PA (s.ptes pt i2)) j) ≠ pt)) →
    (∀ i1 i2, i ≤ i1 → i1 < i + k → i ≤ i2 → i2 < i + k →
      validE (s.ptes pt i1) → validE (s.ptes pt i2) →
      ∀ j, j < 512 → validE (s.ptes (PTE2PA (s.ptes pt i1)) j) →
        PTE2PA (s.ptes (PTE2PA (s.ptes pt i1)) j) ≠ PTE2PA (s.ptes pt i2)) →
    ((∃ i2, i ≤ i2 ∧ i2 < i + k ∧ validE (s.ptes pt i2) ∧
        midLeaf s (PTE2PA (s.ptes pt i2))) →
      freewalkLoop (freewalkGo (g + 2)) k s pt i = .panic) ∧
    ((∀ i2, i ≤ i2 → i2 < i + k → validE (s.ptes pt i2) →
        ¬ midLeaf s (PTE2PA (s.ptes pt i2))) →
      ∃ s2, freewalkLoop (freewalkGo (g + 2)) k s pt i = .ok s2 ∧
        pt ∈ s2.freeList ∧ (∀ x, x ∈ s.freeList → x ∈ s2.freeList) ∧
        (∀ i2, i ≤ i2 → i2 < i + k → validE (s.ptes pt i2) →
          PTE2PA (s.ptes pt i2) ∈ s2.freeList)) := by
  intro k
  induction k with
  | zero =>
    intro s i hik hshape hsep
    constructor
    · rintro ⟨i2, h1, h2, _, _⟩
      exact absurd h2 (by omega)
    · intro _
      exact ⟨kfree s pt, freewalkLoop_zero _ s pt i, List.mem_cons_self _ _,
        fun x hx => List.mem_cons_of_mem _ hx,
        fun i2 h1 h2 _ => absurd h2 (by omega)⟩
  | succ k ih =>
    intro s i hik hshape hsep
    by_cases hvi : validE (s.ptes pt i)
    · obtain ⟨hin, hcpt, hmid, hgpt⟩ := hshape i (by omega) (by omega) hvi
      have hv2 : s.ptes pt i &&& PTE_V ≠ 0 := hvi
      have hi2 : s.ptes pt i &&& (PTE_R ||| PTE_W ||| PTE_X) = 0 := hin
      have heq : freewalkGo (g + 2) s (PTE2PA (s.ptes pt i)) =
          freewalkLoop (freewalkGo (g + 1)) 512 s (PTE2PA (s.ptes pt i)) 0 := rfl
      obtain ⟨MP, MO⟩ :=
        freewalkLoop_mid g (PTE2PA (s.ptes pt i)) 512 s 0 (by omega) hmid
      by_cases hml : midLeaf s (PTE2PA (s.ptes pt i))
      · obtain ⟨j, hj, hvj, hlfj⟩ := hml
        have hpan : freewalkLoop (freewalkGo (g + 1)) 512 s
            (PTE2PA (s.ptes pt i)) 0 = .panic :=
          MP ⟨j, by omega, by omega, hvj, hlfj⟩
        constructor
        · intro _
          rw [freewalkLoop_succ, if_pos hv2, if_pos hi2, heq, hpan]
        · intro hno
          exact absurd (⟨j, hj, hvj, hlfj⟩ : midLeaf s (PTE2PA (s.ptes pt i)))
            (hno i (by omega) (by omega) hvi)
      · have hnol : ∀ j, 0 ≤ j → j < 0 + 512 →
            validE (s.ptes (PTE2PA (s.ptes pt i)) j) →
            ¬ leafIn s (PTE2PA (s.ptes (PTE2PA (s.ptes pt i)) j)) := by
          intro j h1 h2 hv hlfv
          exact hml ⟨j, by omega, hv, hlfv⟩
        obtain ⟨s1, hok, hfr1, hz1, hmono1, hcin1⟩ := MO hnol
        have hred : freewalkLoop (freewalkGo (g + 2)) (k + 1) s pt i =
            freewalkLoop (freewalkGo (g + 2)) k (setPte s1 pt i 0) pt (i + 1) := by
          rw [freewalkLoop_succ, if_pos hv2, if_pos hi2, heq, hok]
        have htp : ∀ q j2, (setPte s1 pt i 0).ptes q j2 =
            if q = pt ∧ j2 = i then 0 else s1.ptes q j2 := fun q j2 => rfl
        have hzf : ∀ q j2, (setPte s1 pt i 0).ptes q j2 = s.ptes q j2 ∨
            (setPte s1 pt i 0).ptes q j2 = 0 := by
          intro q j2
          rw [htp]
          by_cases hcd : (q = pt ∧ j2 = i)
          · rw [if_pos hcd]; exact Or.inr rfl
          · rw [if_neg hcd]
            by_cases hqc : q = PTE2PA (s.ptes pt i)
            · subst hqc
              exact hz1 j2
            · rw [hfr1 q j2 hqc]; exact Or.inl rfl
        have hrp : ∀ i2, i + 1 ≤ i2 →
            (setPte s1 pt i 0).ptes pt i2 = s.ptes pt i2 := by
          intro i2 h
          rw [htp, if_neg (fun hcd => absurd hcd.2 (by omega))]
          exact hfr1 pt i2 (Ne.symm hcpt)
        have hshape2 : ∀ i2, i + 1 ≤ i2 → i2 < (i + 1) + k →
            validE ((setPte s1 pt i 0).ptes pt i2) →
            internE ((setPte s1 pt i 0).ptes pt i2) ∧
              PTE2PA ((setPte s1 pt i 0).ptes pt i2) ≠ pt ∧
              midShape (setPte s1 pt i 0)
                (PTE2PA ((setPte s1 pt i 0).ptes pt i2)) ∧
              (∀ j, j < 512 →
                validE ((setPte s1 pt i 0).ptes
                  (PTE2PA ((setPte s1 pt i 0).ptes pt i2)) j) →
                PTE2PA ((setPte s1 pt i 0).ptes
                  (PTE2PA ((setPte s1 pt i 0).ptes pt i2)) j) ≠ pt) := by
          intro i2 h1 h2 hvv
          rw [hrp i2 h1] at hvv ⊢
          obtain ⟨ha, hb, hc2, hd⟩ := hshape i2 (by omega) (by omega) hvv
          refine ⟨ha, hb, midShape_zf s (setPte s1 pt i 0) _ hzf hc2, ?_⟩
          intro j hj hvj
          have he := zf_valid s (setPte s1 pt i 0) _ j hzf hvj
          rw [he] at hvj ⊢
          exact hd j hj hvj
        have hsep2 : ∀ i1 i2, i + 1 ≤ i1 → i1 < (i + 1) + k →
            i + 1 ≤ i2 → i2 < (i + 1) + k →
            validE ((setPte s1 pt i 0).ptes pt i1) →
            validE ((setPte s1 pt i 0).ptes pt i2) →
            ∀ j, j < 512 →
              validE ((setPte s1 pt i 0).ptes
                (PTE2PA ((setPte s1 pt i 0).ptes pt i1)) j) →
              PTE2PA ((setPte s1 pt i 0).ptes
                  (PTE2PA ((setPte s1 pt i 0).ptes pt i1)) j) ≠
                PTE2PA ((setPte s1 pt i 0).ptes pt i2) := by
          intro i1 i2 ha hb hc2 hd hva hvb j hj hvj
          rw [hrp i1 (by omega)] at hva hvj ⊢
          rw [hrp i2 (by omega)] at hvb ⊢
          have he := zf_valid s (setPte s1 pt i 0) _ j hzf hvj
          rw [he] at hvj ⊢
          exact hsep i1 i2 (by omega) (by omega) (by omega) (by omega)
            hva hvb j hj hvj
        obtain ⟨IHp, IHo⟩ := ih (setPte s1 pt i 0) (i + 1) (by omega)
          hshape2 hsep2
        constructor
        · rintro ⟨i2, h1, h2, hvv, hml2⟩
          have hne : i2 ≠ i := fun hc => hml (hc ▸ hml2)
          rw [hred]
          apply IHp
          refine ⟨i2, by omega, by omega, ?_, ?_⟩
          · rw [hrp i2 (by omega)]; exact hvv
          · rw [hrp i2 (by omega)]
            have hc2c : PTE2PA (s.ptes pt i2) ≠ PTE2PA (s.ptes pt i) :=
              fun hc => hml (hc ▸ hml2)
            obtain ⟨j, hj, hvj, hlfj⟩ := hml2
            have hc2pt : PTE2PA (s.ptes pt i2) ≠ pt :=
              (hshape i2 (by omega) (by omega) hvv).2.1
            have he : (setPte s1 pt i 0).ptes (PTE2PA (s.ptes pt i2)) j =
                s.ptes (PTE2PA (s.ptes pt i2)) j := by
              rw [htp, if_neg (fun hcd => hc2pt hcd.1)]
              exact hfr1 _ j hc2c
            refine ⟨j, hj, ?_, ?_⟩
            · rw [he]; exact hvj
            · rw [he]
              obtain ⟨jj, hjj, hvjj⟩ := hlfj
              have hgc : PTE2PA (s.ptes (PTE2PA (s.ptes pt i2)) j) ≠
                  PTE2PA (s.ptes pt i) :=
                hsep i2 i (by omega) (by omega) (by omega) (by omega)
                  hvv hvi j hj hvj
              have hgpt2 : PTE2PA (s.ptes (PTE2PA (s.ptes pt i2)) j) ≠ pt :=
                (hshape i2 (by omega) (by omega) hvv).2.2.2 j hj hvj
              have he2 : (setPte s1 pt i 0).ptes
                  (PTE2PA (s.ptes (PTE2PA (s.ptes pt i2)) j)) jj =
                    s.ptes (PTE2PA (s.ptes (PTE2PA (s.ptes pt i2)) j)) jj := by
                rw [htp, if_neg (fun hcd => hgpt2 hcd.1)]
                exact hfr1 _ jj hgc
              exact ⟨jj, hjj, by rw [he2]; exact hvjj⟩
        · intro hno
          have hno2 : ∀ i2, i + 1 ≤ i2 → i2 < (i + 1) + k →
              validE ((setPte s1 pt i 0).ptes pt i2) →
              ¬ midLeaf (setPte s1 pt i 0)
                (PTE2PA ((setPte s1 pt i 0).ptes pt i2)) := by
            intro i2 h1 h2 hvv hml2
            rw [hrp i2 h1] at hvv hml2
            exact hno i2 (by omega) (by omega) hvv
              (midLeaf_zf s (setPte s1 pt i 0) _ hzf hml2)
          obtain ⟨s2, h1, h2, h3, h4⟩ := IHo hno2
          refine ⟨s2, by rw [hred]; exact h1, h2, ?_, ?_⟩
          · intro x hx
            exact h3 x (hmono1 x hx)
          · intro i2 ha hb hvv
            by_cases hcase : i2 = i
            · subst hcase
              exact h3 _ hcin1
            · have h5 := h4 i2 (by omega) (by omega)
                (by rw [hrp i2 (by omega)]; exact hvv)
              rw [hrp i2 (by omega)] at h5
              exact h5
    · have hv2 : ¬ s.ptes pt i &&& PTE_V ≠ 0 := hvi
      have hred : freewalkLoop (freewalkGo (g + 2)) (k + 1) s pt i =
          freewalkLoop (freewalkGo (g + 2)) k s pt (i + 1) := by
        rw [freewalkLoop_succ, if_neg hv2]
      obtain ⟨IHp, IHo⟩ := ih s (i + 1) (by omega)
        (fun i2 h1 h2 => hshape i2 (by omega) (by omega))
        (fun i1 i2 ha hb hc2 hd => hsep i1 i2 (by omega) (by omega)
          (by omega) (by omega))
      constructor
      · rintro ⟨i2, h1, h2, hvv, hml2⟩
        have hne : i2 ≠ i := fun hc => hvi (hc ▸ hvv)
        rw [hred]
        exact IHp ⟨i2, by omega, by omega, hvv, hml2⟩
      · intro hno
        obtain ⟨s2, h1, h2, h3, h4⟩ := IHo
          (fun i2 ha hb => hno i2 (by omega) (by omega))
        refine ⟨s2, by rw [hred]; exact h1, h2, h3, ?_⟩
        intro i2 ha hb hvv
        have hne : i2 ≠ i := fun hc => hvi (hc ▸ hvv)
        exact h4 i2 (by omega) (by omega) hvv

/-- **C7.** `freewalk` (as invoked by `uvmfree`) visits all 512 entries of a
table, recursing through valid internal entries before clearing their slots:
on a well-formed tree whose level-0 tables hold only leaf entries, it aborts
fatally (`panic`) whenever any valid leaf entry remains, and when every
reachable leaf entry was unmapped first it never aborts — it frees the root
table's own page and every level-1 table page while keeping every page that
was already free. -/
theorem C7_freewalk (s : VMState) (pt fuel : Nat) (hwf : WF s pt)
    (hfuel : 3 ≤ fuel)
    (hleaves : ∀ i j, i < 512 → j < 512 → validE (s.ptes pt i) →
      validE (s.ptes (PTE2PA (s.ptes pt i)) j) →
      leafTable s (PTE2PA (s.ptes (PTE2PA (s.ptes pt i)) j))) :
    ((∃ i, i < 512 ∧ validE (s.ptes pt i) ∧ midLeaf s (PTE2PA (s.ptes pt i))) →
      freewalk fuel s pt = .panic) ∧
    ((∀ i, i < 512 → validE (s.ptes pt i) → ¬ midLeaf s (PTE2PA (s.ptes pt i))) →
      ∃ s2, freewalk fuel s pt = .ok s2 ∧ pt ∈ s2.freeList ∧
        (∀ x, x ∈ s.freeList → x ∈ s2.freeList) ∧
        (∀ i, i < 512 → validE (s.ptes pt i) →
          PTE2PA (s.ptes pt i) ∈ s2.freeList)) := by
  obtain ⟨g, hg⟩ : ∃ g, fuel = g + 3 := ⟨fuel - 3, by omega⟩
  subst hg
  have heq : freewalk (g + 3) s pt =
      freewalkLoop (freewalkGo (g + 2)) 512 s pt 0 := rfl
  have hshape : ∀ i2, 0 ≤ i2 → i2 < 0 + 512 → validE (s.ptes pt i2) →
      internE (s.ptes pt i2) ∧ PTE2PA (s.ptes pt i2) ≠ pt ∧
        midShape s (PTE2PA (s.ptes pt i2)) ∧
        (∀ j, j < 512 → validE (s.ptes (PTE2PA (s.ptes pt i2)) j) →
          PTE2PA (s.ptes (PTE2PA (s.ptes pt i2)) j) ≠ pt) := by
    intro i2 _ h2 hv
    refine ⟨hwf.l2_intern i2 (by omega) hv, hwf.ne_root_l1 i2 (by omega) hv,
      ?_, ?_⟩
    · intro j hj hvj
      exact ⟨hwf.l1_intern i2 j (by omega) hj hv hvj,
        hwf.ne_l1_l0 i2 j i2 (by omega) hj (by omega) hv hvj hv,
        hleaves i2 j (by omega) hj hv hvj⟩
    · intro j hj hvj
      exact hwf.ne_root_l0 i2 j (by omega) hj hv hvj
  have hsep : ∀ i1 i2, 0 ≤ i1 → i1 < 0 + 512 → 0 ≤ i2 → i2 < 0 + 512 →
      validE (s.ptes pt i1) → validE (s.ptes pt i2) →
      ∀ j, j < 512 → validE (s.ptes (PTE2PA (s.ptes pt i1)) j) →
        PTE2PA (s.ptes (PTE2PA (s.ptes pt i1)) j) ≠ PTE2PA (s.ptes pt i2) := by
    intro i1 i2 _ h1 _ h2 hv1 hvb j hj hvj
    exact hwf.ne_l1_l0 i1 j i2 (by omega) hj (by omega) hv1 hvj hvb
  obtain ⟨RP, RO⟩ := freewalkLoop_root g pt 512 s 0 (by omega) hshape hsep
  constructor
  · rintro ⟨i, hi, hv, hml⟩
    rw [heq]
    exact RP ⟨i, by omega, by omega, hv, hml⟩
  · intro hno
    obtain ⟨s2, h1, h2, h3, h4⟩ := RO (fun i2 ha hb => hno i2 (by omega))
    exact ⟨s2, by rw [heq]; exact h1, h2, h3,
      fun i hi hv => h4 i (by omega) (by omega) hv⟩

set_option maxRecDepth 100000 in
theorem C7_witness :
    freewalk 3 C7state 4096 = .ok C7state' ∧ 4096 ∈ C7state'.freeList := by
  have hrun : freewalk 3 C7state 4096 = .ok C7state' := by rfl
  have h := (C7_freewalk C7state 4096 3
    (WF_zero (fun _ _ => 0) [] 4096 ⟨by decide, by decide⟩ (by decide)
      (fun q hq => absurd hq (List.not_mem_nil q))
      (fun q hq => absurd hq (List.not_mem_nil q)))
    (by omega)
    (fun i j hi hj hva => absurd (Nat.zero_and PTE_V) hva)).2
    (fun i hi hv => absurd (Nat.zero_and PTE_V) hv)
  obtain ⟨s2, h1, h2, _, _⟩ := h
  have hs2 : s2 = C7state' := Res.ok.inj (h1.symm.trans hrun)
  rw [hs2] at h2
  exact ⟨hrun, h2⟩

/-! ### Claim C8 -/

/-- **C8.** `walk(table, va, alloc)` panics for every `va` at or beyond
`MAXVA`.  Below `MAXVA` it descends levels 2 then 1 through valid entries:
with allocation disabled it is a pure read returning the null result exactly
when an upper-level entry is invalid, and with allocation enabled on a
well-formed tree it returns `ok` — the tree grows only by fresh zeroed
internal nodes taken from the free list (`Grows`), the returned location is
the level-0 entry at `va`'s level-0 index, and the result is null only on
allocator exhaustion (two non-null free pages rule it out). -/
theorem C8_walk_spec (s : VMState) (pt va : Nat) :
    (va ≥ MAXVA → ∀ alloc, walk s pt va alloc = .panic) ∧
    (va < MAXVA →
      walk s pt va false =
        .ok ((pathL0 s pt va).map (fun p => (p, PX 0 va)), s) ∧
      (pathL0 s pt va = none ↔
        ¬ validE (s.ptes pt (PX 2 va)) ∨
        ¬ validE (s.ptes (PTE2PA (s.ptes pt (PX 2 va))) (PX 1 va)))) ∧
    (va < MAXVA → WF s pt →
      ∃ r s2, walk s pt va true = .ok (r, s2) ∧ Grows s s2 pt ∧
        (∀ p0 i0, r = some (p0, i0) → i0 = PX 0 va ∧
          pathL0 s2 pt va = some p0 ∧
          ((s2.ptes p0 (PX 0 va) = s.ptes p0 (PX 0 va) ∧
              pathL0 s pt va = some p0) ∨
            (p0 ∈ s.freeList ∧ ∀ j, s2.ptes p0 j = 0))) ∧
        (2 ≤ s.freeList.length → 0 ∉ s.freeList → r ≠ none)) := by
  refine ⟨?_, ?_, ?_⟩
  · intro h alloc
    rw [walk, if_pos h]
  · intro hva
    have hnm : ¬ va ≥ MAXVA := not_le.mpr hva
    constructor
    · rw [walk_false_eq, if_neg hnm]
    · exact pathL0_none_iff s pt va
  · intro hva hwf
    exact walk_alloc_spec s pt va hwf hva

theorem C8_witness :
    walk C3state 4096 MAXVA false = .panic ∧
    walk C3state 4096 0 false = .ok (none, C3state) ∧
    walk C3state 4096 0 true = .ok (C8r, C8state') ∧ C8r ≠ none := by
  have hrun : walk C3state 4096 0 true = .ok (C8r, C8state') := by rfl
  have hA := (C8_walk_spec C3state 4096 MAXVA).1 (le_refl MAXVA) false
  have hB := ((C8_walk_spec C3state 4096 0).2.1 (by decide)).1
  have hwf : WF C3state 4096 :=
    WF_zero (fun _ _ => 0) [8192, 12288] 4096 ⟨by decide, by decide⟩ (by decide)
      (by intro q hq
          simp only [List.mem_cons, List.not_mem_nil, or_false] at hq
          rcases hq with hq | hq <;> (subst hq; decide))
      (by intro q hq
          simp only [List.mem_cons, List.not_mem_nil, or_false] at hq
          rcases hq with hq | hq <;> (subst hq; decide))
  obtain ⟨r, s2, hw, hg, hsome, hprog⟩ :=
    (C8_walk_spec C3state 4096 0).2.2 (by decide) hwf
  have hp := Res.ok.inj (hrun.symm.trans hw)
  have hr : C8r = r := congrArg Prod.fst hp
  refine ⟨hA, ?_, hrun, ?_⟩
  · rw [hB]
    rfl
  · rw [hr]
    exact hprog (by decide) (by decide)

/-! ### Claim C5 -/

theorem or_one_of_odd (x : Nat) (h : x % 2 = 1) : x ||| 1 = x := by
  apply Nat.eq_of_testBit_eq
  intro i
  rw [Nat.testBit_or]
  cases i with
  | zero =>
    rw [Nat.testBit_zero, Nat.testBit_zero, h]
    decide
  | succ i =>
    rw [Nat.testBit_succ, Nat.testBit_succ]
    rw [show (1 : Nat) / 2 = 0 from Eq.refl _, Nat.zero_testBit, Bool.or_false]

theorem PTE_FLAGS_lt (e : Nat) : PTE_FLAGS e < 1024 := by
  rw [PTE_FLAGS]
  exact Nat.lt_of_le_of_lt Nat.and_le_right (by decide)

theorem PTE_FLAGS_odd (e : Nat) (h : validE e) : PTE_FLAGS e % 2 = 1 := by
  rw [validE_iff] at h
  rw [PTE_FLAGS, ← Nat.and_one_is_mod, Nat.and_assoc,
    show (0x3FF &&& 1 : Nat) = 1 from by decide, Nat.and_one_is_mod]
  exact h

/-- The flags of a valid entry absorb another `PTE_V`. -/
theorem PTE_FLAGS_or_V (e : Nat) (h : validE e) :
    PTE_FLAGS e ||| PTE_V = PTE_FLAGS e := by
  rw [PTE_V]
  exact or_one_of_odd _ (PTE_FLAGS_odd e h)

/-- A state agreeing with `s0` on every table of the tree translates paths
identically. -/
theorem pathL0_eq_of_tbl_eq (s0 s : VMState) (pt va : Nat)
    (h : ∀ q, Tbls s0 pt q → ∀ j, s.ptes q j = s0.ptes q j) :
    pathL0 s pt va = pathL0 s0 pt va := by
  simp only [pathL0]
  have hroot : s.ptes pt (PX 2 va) = s0.ptes pt (PX 2 va) :=
    h pt (Or.inl (Eq.refl _)) _
  rw [hroot]
  by_cases h2 : s0.ptes pt (PX 2 va) &&& PTE_V = 0
  · rw [if_pos h2, if_pos h2]
  · have hv2 : validE (s0.ptes pt (PX 2 va)) := h2
    have hl1 : s.ptes (PTE2PA (s0.ptes pt (PX 2 va))) (PX 1 va) =
        s0.ptes (PTE2PA (s0.ptes pt (PX 2 va))) (PX 1 va) :=
      h _ (Or.inr (Or.inl ⟨PX 2 va, PX_lt 2 va, hv2, Eq.refl _⟩)) _
    rw [if_neg h2, if_neg h2, hl1]

/-- A state agreeing with `s0` on every table of the tree translates
addresses identically. -/
theorem walkaddr_eq_of_tbl_eq (s0 s : VMState) (pt va : Nat)
    (h : ∀ q, Tbls s0 pt q → ∀ j, s.ptes q j = s0.ptes q j) :
    walkaddr s pt va = walkaddr s0 pt va := by
  rw [walkaddr_eq, walkaddr_eq, pathL0_eq_of_tbl_eq s0 s pt va h]
  by_cases hva : va ≥ MAXVA
  · rw [if_pos hva, if_pos hva]
  · rw [if_neg hva, if_neg hva]
    cases hp : pathL0 s0 pt va with
    | none => rfl
    | some p =>
      dsimp only
      rw [h p (Tbls_of_pathL0 s0 pt va p hp) (PX 0 va)]

/-- The allocation invariant only reads the `ptes` view and the free
list. -/
theorem AllocInv_congr (s0 s t : VMState) (pt b i : Nat)
    (hp : t.ptes = s.ptes) (hf : t.freeList = s.freeList)
    (inv : AllocInv s0 s pt b i) : AllocInv s0 t pt b i where
  wf := {
    root_good := inv.wf.root_good
    l2_intern := by rw [hp]; exact inv.wf.l2_intern
    l2_good := by rw [hp]; exact inv.wf.l2_good
    l1_intern := by rw [hp]; exact inv.wf.l1_intern
    l1_good := by rw [hp]; exact inv.wf.l1_good
    ne_root_l1 := by rw [hp]; exact inv.wf.ne_root_l1
    ne_root_l0 := by rw [hp]; exact inv.wf.ne_root_l0
    ne_l1_l0 := by rw [hp]; exact inv.wf.ne_l1_l0
    inj_l1 := by rw [hp]; exact inv.wf.inj_l1
    inj_l0 := by rw [hp]; exact inv.wf.inj_l0
    fr_nodup := by rw [hf]; exact inv.wf.fr_nodup
    fr_good := by rw [hf]; exact inv.wf.fr_good
    fr_not_tbl := fun q hq hc => inv.wf.fr_not_tbl q (hf ▸ hq)
      ((Tbls_congr s t pt q hp).mp hc) }
  waFrame := fun va h1 h2 => by
    rw [walkaddr_congr t s pt va hp]
    exact inv.waFrame va h1 h2
  pathsome := fun k hk => by
    rw [pathL0_congr t s pt _ hp]
    exact inv.pathsome k hk
  good := fun k hk p hpv => by
    rw [pathL0_congr t s pt _ hp] at hpv
    obtain ⟨h1, h2, h3, h4, h5⟩ := inv.good k hk p hpv
    rw [hp, hf]
    exact ⟨h1, h2, h3, h4, fun hc => h5 ((Tbls_congr s t pt _ hp).mp hc)⟩
  dist := fun k k' p p' hk hk' hne hpv hpv' => by
    rw [pathL0_congr t s pt _ hp] at hpv hpv'
    rw [hp]
    exact inv.dist k k' p p' hk hk' hne hpv hpv'
  clean := fun va p h1 h2 hpv => by
    rw [pathL0_congr t s pt _ hp] at hpv
    rw [hp]
    exact inv.clean va p h1 h2 hpv

/-- A root table whose entries are all zero heads a well-formed (empty)
tree. -/
theorem WF_of_root_zero (s : VMState) (pt : Nat) (hpt : goodPage pt)
    (hz : ∀ j, s.ptes pt j = 0) (hnd : s.freeList.Nodup)
    (hal : ∀ q, q ∈ s.freeList → q % PGSIZE = 0)
    (hne : ∀ q, q ∈ s.freeList → q ≠ pt) : WF s pt where
  root_good := hpt
  l2_intern := fun i _ hv => by rw [hz i] at hv; exact (hv (Nat.zero_and _)).elim
  l2_good := fun i _ hv => by rw [hz i] at hv; exact (hv (Nat.zero_and _)).elim
  l1_intern := fun i _ _ _ hv _ => by
    rw [hz i] at hv; exact (hv (Nat.zero_and _)).elim
  l1_good := fun i _ _ _ hv _ => by
    rw [hz i] at hv; exact (hv (Nat.zero_and _)).elim
  ne_root_l1 := fun i _ hv => by
    rw [hz i] at hv; exact (hv (Nat.zero_and _)).elim
  ne_root_l0 := fun i _ _ _ hv _ => by
    rw [hz i] at hv; exact (hv (Nat.zero_and _)).elim
  ne_l1_l0 := fun i _ _ _ _ _ hv _ _ => by
    rw [hz i] at hv; exact (hv (Nat.zero_and _)).elim
  inj_l1 := fun i _ _ _ hv _ _ => by
    rw [hz i] at hv; exact (hv (Nat.zero_and _)).elim
  inj_l0 := fun i _ _ _ _ _ _ _ hv _ _ _ _ => by
    rw [hz i] at hv; exact (hv (Nat.zero_and _)).elim
  fr_nodup := hnd
  fr_good := hal
  fr_not_tbl := fun q hq => by
    rintro (h | ⟨i, _, hv, _⟩ | ⟨i, _, _, _, hv, _, _⟩)
    · exact hne q hq h
    · rw [hz i] at hv; exact (hv (Nat.zero_and _)).elim
    · rw [hz i] at hv; exact (hv (Nat.zero_and _)).elim

/-- After a failed one-page `mappages` from the state `u` holding the
allocation invariant, and the `kfree` of the unused page `pg`, the rollback
hypotheses still hold.  `pg` is the page `kalloc` popped just before `u`. -/
theorem AllocInv_fail_gen (s0 u s3 : VMState) (pt b i pg : Nat)
    (inv : AllocInv s0 u pt b i)
    (hpgal : pg % PGSIZE = 0) (hpgnfl : pg ∉ u.freeList)
    (hpgntbl : ¬ Tbls u pt pg)
    (hpgdist : ∀ k, k < i → ∀ p, pathL0 u pt (b + k * PGSIZE) = some p →
        PTE2PA (u.ptes p (PX 0 (b + k * PGSIZE))) ≠ pg)
    (hg3 : Grows u s3 pt) :
    WF (kfree s3 pg) pt ∧
      (∀ va', va' < MAXVA →
          (∀ k, k < i → va' / PGSIZE ≠ (b + k * PGSIZE) / PGSIZE) →
          walkaddr (kfree s3 pg) pt va' = walkaddr s0 pt va') ∧
      (∀ k, k < i → pathL0 (kfree s3 pg) pt (b + k * PGSIZE) ≠ none) ∧
      (∀ k, k < i → ∀ p, pathL0 (kfree s3 pg) pt (b + k * PGSIZE) = some p →
          validE ((kfree s3 pg).ptes p (PX 0 (b + k * PGSIZE))) ∧
          PTE_FLAGS ((kfree s3 pg).ptes p (PX 0 (b + k * PGSIZE))) ≠ PTE_V ∧
          PTE2PA ((kfree s3 pg).ptes p (PX 0 (b + k * PGSIZE))) % PGSIZE = 0 ∧
          PTE2PA ((kfree s3 pg).ptes p (PX 0 (b + k * PGSIZE))) ∉
            (kfree s3 pg).freeList ∧
          ¬ Tbls (kfree s3 pg) pt
            (PTE2PA ((kfree s3 pg).ptes p (PX 0 (b + k * PGSIZE))))) ∧
      (∀ k k' p p', k < i → k' < i → k ≠ k' →
          pathL0 (kfree s3 pg) pt (b + k * PGSIZE) = some p →
          pathL0 (kfree s3 pg) pt (b + k' * PGSIZE) = some p' →
          PTE2PA ((kfree s3 pg).ptes p (PX 0 (b + k * PGSIZE))) ≠
            PTE2PA ((kfree s3 pg).ptes p' (PX 0 (b + k' * PGSIZE)))) := by
  obtain ⟨m3, hm3⟩ := hg3.drop
  have hsub3 : ∀ q, q ∈ s3.freeList → q ∈ u.freeList := by
    intro q hq
    rw [hm3] at hq
    exact List.drop_subset _ _ hq
  have hntbl3 : ∀ q, ¬ Tbls u pt q → q ∉ u.freeList → ¬ Tbls s3 pt q := by
    intro q h1 h2 hc
    rcases hg3.tblGrow q hc with h | ⟨h, _⟩
    · exact h1 h
    · exact h2 h
  have hwfk : WF (kfree s3 pg) pt :=
    WF_kfree s3 pt pg hg3.wf hpgal (fun hc => hpgnfl (hsub3 pg hc))
      (hntbl3 pg hpgntbl hpgnfl)
  have hpres : ∀ k, k < i → ∀ p, pathL0 u pt (b + k * PGSIZE) = some p →
      pathL0 s3 pt (b + k * PGSIZE) = some p ∧
      s3.ptes p (PX 0 (b + k * PGSIZE)) = u.ptes p (PX 0 (b + k * PGSIZE)) := by
    intro k hk p hp
    exact ⟨hg3.pathPres _ p hp,
      hg3.validPres p _ (Tbls_of_pathL0 u pt _ p hp) (inv.good k hk p hp).1⟩
  refine ⟨hwfk, ?_, ?_, ?_, ?_⟩
  · intro va' h1 h2
    rw [walkaddr_congr (kfree s3 pg) s3 pt va' (Eq.refl _), hg3.waPres va']
    exact inv.waFrame va' h1 h2
  · intro k hk
    cases hp : pathL0 u pt (b + k * PGSIZE) with
    | none => exact absurd hp (inv.pathsome k hk)
    | some p =>
      rw [pathL0_congr (kfree s3 pg) s3 pt _ (Eq.refl _), (hpres k hk p hp).1]
      exact fun hc => Option.noConfusion hc
  · intro k hk p hp
    rw [pathL0_congr (kfree s3 pg) s3 pt _ (Eq.refl _)] at hp
    cases hps : pathL0 u pt (b + k * PGSIZE) with
    | none => exact absurd hps (inv.pathsome k hk)
    | some p' =>
      obtain ⟨hp3, he3⟩ := hpres k hk p' hps
      rw [hp3] at hp
      have hpp : p = p' := (Option.some.inj hp).symm
      subst hpp
      have hek : (kfree s3 pg).ptes p (PX 0 (b + k * PGSIZE)) =
          u.ptes p (PX 0 (b + k * PGSIZE)) := he3
      rw [hek]
      obtain ⟨h1, h2, h3, h4, h5⟩ := inv.good k hk p hps
      refine ⟨h1, h2, h3, ?_, ?_⟩
      · intro hc
        rw [kfree_freeList] at hc
        rcases List.mem_cons.mp hc with hc1 | hc2
        · exact hpgdist k hk p hps hc1
        · exact h4 (hsub3 _ hc2)
      · exact hntbl3 _ h5 h4
  · intro k k' p p' hk hk' hne hp hp'
    rw [pathL0_congr (kfree s3 pg) s3 pt _ (Eq.refl _)] at hp hp'
    cases hps : pathL0 u pt (b + k * PGSIZE) with
    | none => exact absurd hps (inv.pathsome k hk)
    | some q =>
      cases hps' : pathL0 u pt (b + k' * PGSIZE) with
      | none => exact absurd hps' (inv.pathsome k' hk')
      | some q' =>
        obtain ⟨hp3, he3⟩ := hpres k hk q hps
        obtain ⟨hp3', he3'⟩ := hpres k' hk' q' hps'
        rw [hp3] at hp
        rw [hp3'] at hp'
        have hq1 : p = q := (Option.some.inj hp).symm
        subst hq1
        have hq2 : p' = q' := (Option.some.inj hp').symm
        subst hq2
        have hek : (kfree s3 pg).ptes p (PX 0 (b + k * PGSIZE)) =
            u.ptes p (PX 0 (b + k * PGSIZE)) := he3
        have hek' : (kfree s3 pg).ptes p' (PX 0 (b + k' * PGSIZE)) =
            u.ptes p' (PX 0 (b + k' * PGSIZE)) := he3'
        rw [hek, hek']
        exact inv.dist k k' p p' hk hk' hne hps hps'

/-- A successful one-page `mappages` of the popped page `pg` with arbitrary
leaf flags `perm`, run from a state `u` holding the allocation invariant,
extends the invariant by one page. -/
theorem AllocInv_step_gen (s0 u s3 : VMState) (pt b i pg perm : Nat)
    (hb : b % PGSIZE = 0)
    (inv : AllocInv s0 u pt b i)
    (hpgal : pg % PGSIZE = 0) (hpgnfl : pg ∉ u.freeList)
    (hpgntbl : ¬ Tbls u pt pg)
    (hpgdist : ∀ k, k < i → ∀ p, pathL0 u pt (b + k * PGSIZE) = some p →
        PTE2PA (u.ptes p (PX 0 (b + k * PGSIZE))) ≠ pg)
    (hperm : perm < 1024) (hpermV : perm ||| PTE_V ≠ PTE_V)
    (hMv : b + (i + 1) * PGSIZE < MAXVA)
    (M : MapOk u s3 pt (b + i * PGSIZE) pg perm 0) :
    AllocInv s0 s3 pt b (i + 1) := by
  obtain ⟨m3, hm3⟩ := M.drop
  have hsub3 : ∀ q, q ∈ s3.freeList → q ∈ u.freeList := by
    intro q hq
    rw [hm3] at hq
    exact List.drop_subset _ _ hq
  have hntbl3 : ∀ q, ¬ Tbls u pt q → q ∉ u.freeList → ¬ Tbls s3 pt q := by
    intro q h1 h2 hc
    rcases M.tblGrow q hc with h | ⟨h, _⟩
    · exact h1 h
    · exact h2 h
  obtain ⟨pI, hpI, heI⟩ := M.installed 0 (Nat.le_refl 0)
  simp only [Nat.zero_mul, Nat.add_zero] at hpI heI
  obtain ⟨_, _, hvalI, hpteI, hflagsI⟩ := leaf_entry_facts pg perm hpgal hperm
  have hpres : ∀ k, k < i → ∀ p, pathL0 u pt (b + k * PGSIZE) = some p →
      pathL0 s3 pt (b + k * PGSIZE) = some p ∧
      s3.ptes p (PX 0 (b + k * PGSIZE)) = u.ptes p (PX 0 (b + k * PGSIZE)) := by
    intro k hk p hp
    exact ⟨M.pathPres _ p hp,
      M.validPres p _ (Tbls_of_pathL0 u pt _ p hp) (inv.good k hk p hp).1⟩
  refine {
    wf := M.wf
    waFrame := ?_, pathsome := ?_, good := ?_, dist := ?_, clean := ?_ }
  · intro va' h1 h2
    have hMF := M.waFrame va' h1 (by
      intro k hk
      have hk0 : k = 0 := Nat.le_zero.mp hk
      subst hk0
      simp only [Nat.zero_mul, Nat.add_zero]
      exact h2 i (by omega))
    rw [hMF]
    exact inv.waFrame va' h1 (fun k hk => h2 k (by omega))
  · intro k hk
    by_cases hki : k = i
    · subst hki
      rw [hpI]
      exact fun hc => Option.noConfusion hc
    · have hk' : k < i := by omega
      cases hps : pathL0 u pt (b + k * PGSIZE) with
      | none => exact absurd hps (inv.pathsome k hk')
      | some p =>
        rw [(hpres k hk' p hps).1]
        exact fun hc => Option.noConfusion hc
  · intro k hk p hp
    by_cases hki : k = i
    · subst hki
      rw [hpI] at hp
      have hpp : p = pI := (Option.some.inj hp).symm
      subst hpp
      rw [heI]
      refine ⟨hvalI, ?_, ?_, ?_, ?_⟩
      · rw [hflagsI]
        exact hpermV
      · rw [hpteI]
        exact hpgal
      · rw [hpteI]
        intro hc
        exact hpgnfl (hsub3 pg hc)
      · rw [hpteI]
        exact hntbl3 pg hpgntbl hpgnfl
    · have hk' : k < i := by omega
      cases hps : pathL0 u pt (b + k * PGSIZE) with
      | none => exact absurd hps (inv.pathsome k hk')
      | some p' =>
        obtain ⟨hp3, he3⟩ := hpres k hk' p' hps
        rw [hp3] at hp
        have hpp : p = p' := (Option.some.inj hp).symm
        subst hpp
        rw [he3]
        obtain ⟨h1, h2, h3, h4, h5⟩ := inv.good k hk' p hps
        refine ⟨h1, h2, h3, ?_, ?_⟩
        · intro hc
          exact h4 (hsub3 _ hc)
        · exact hntbl3 _ h5 h4
  · intro k k' p p' hk hk' hne hp hp'
    by_cases hki : k = i
    · subst hki
      have hk'' : k' < k := by omega
      rw [hpI] at hp
      have hpp : p = pI := (Option.some.inj hp).symm
      subst hpp
      cases hps' : pathL0 u pt (b + k' * PGSIZE) with
      | none => exact absurd hps' (inv.pathsome k' hk'')
      | some q' =>
        obtain ⟨hp3', he3'⟩ := hpres k' hk'' q' hps'
        rw [hp3'] at hp'
        have hq2 : p' = q' := (Option.some.inj hp').symm
        subst hq2
        rw [heI, he3', hpteI]
        intro hc
        exact hpgdist k' hk'' p' hps' hc.symm
    · by_cases hki' : k' = i
      · subst hki'
        have hk'' : k < k' := by omega
        rw [hpI] at hp'
        have hpp : p' = pI := (Option.some.inj hp').symm
        subst hpp
        cases hps : pathL0 u pt (b + k * PGSIZE) with
        | none => exact absurd hps (inv.pathsome k hk'')
        | some q =>
          obtain ⟨hp3, he3⟩ := hpres k hk'' q hps
          rw [hp3] at hp
          have hq1 : p = q := (Option.some.inj hp).symm
          subst hq1
          rw [heI, he3, hpteI]
          exact hpgdist k hk'' p hps
      · have h1 : k < i := by omega
        have h2 : k' < i := by omega
        cases hps : pathL0 u pt (b + k * PGSIZE) with
        | none => exact absurd hps (inv.pathsome k h1)
        | some q =>
          cases hps' : pathL0 u pt (b + k' * PGSIZE) with
          | none => exact absurd hps' (inv.pathsome k' h2)
          | some q' =>
            obtain ⟨hp3, he3⟩ := hpres k h1 q hps
            obtain ⟨hp3', he3'⟩ := hpres k' h2 q' hps'
            rw [hp3] at hp
            rw [hp3'] at hp'
            have hq1 : p = q := (Option.some.inj hp).symm
            subst hq1
            have hq2 : p' = q' := (Option.some.inj hp').symm
            subst hq2
            rw [he3, he3']
            exact inv.dist k k' p p' h1 h2 hne hps hps'
  · intro va' p h1 h2 hp
    have hge : b + i * PGSIZE ≤ va' := by
      rw [Nat.succ_mul] at h1
      omega
    have hnotpageI : pathL0 s3 pt (b + i * PGSIZE) = some p →
        PX 0 va' = PX 0 (b + i * PGSIZE) → False := by
      intro hq hpx
      obtain ⟨h2e, h1e⟩ := pathL0_px_inj s3 pt M.wf va' (b + i * PGSIZE) p hp hq
      have hdiv := (px_all_eq_iff va' (b + i * PGSIZE) ((lt_MAXVA_iff _).mp h2)
        ((lt_MAXVA_iff _).mp (by rw [Nat.succ_mul] at hMv; omega))).mp
        ⟨h2e, h1e, hpx⟩
      rw [Nat.succ_mul] at h1
      simp only [PGSIZE_def] at hdiv h1
      omega
    cases hps : pathL0 u pt va' with
    | some p' =>
      have hp3 : pathL0 s3 pt va' = some p' := M.pathPres _ p' hps
      rw [hp3] at hp
      have hpp : p = p' := (Option.some.inj hp).symm
      subst hpp
      obtain ⟨h2v, h1v, he⟩ := (pathL0_some_iff u pt va' p).mp hps
      rcases M.l0Pres p ⟨PX 2 va', PX 1 va', PX_lt 2 va', PX_lt 1 va',
          h2v, h1v, he⟩ (PX 0 va') with he' | ⟨k, hk, hpk, hjk⟩
      · rw [he']
        exact inv.clean va' p hge h2 hps
      · have hk0 : k = 0 := Nat.le_zero.mp hk
        subst hk0
        simp only [Nat.zero_mul, Nat.add_zero] at hpk hjk
        exact absurd hpk (fun hq => hnotpageI hq hjk)
    | none =>
      have hfresh := path_new_not_tbl u s3 pt va' p M.wf M.validPres hps hp
      obtain ⟨h2v, h1v, he⟩ := (pathL0_some_iff s3 pt va' p).mp hp
      rcases M.l0New p ⟨PX 2 va', PX 1 va', PX_lt 2 va', PX_lt 1 va',
          h2v, h1v, he⟩ hfresh (PX 0 va') with h0 | ⟨k, hk, hpk, hjk⟩
      · rw [h0, validE_iff]
        omega
      · have hk0 : k = 0 := Nat.le_zero.mp hk
        subst hk0
        simp only [Nat.zero_mul, Nat.add_zero] at hpk hjk
        exact absurd hpk (fun hq => hnotpageI hq hjk)

/-- `uvmcopy`'s failure path: unmapping the `k` destination pages restores
every destination translation and leaves the source and all other memory
untouched. -/
theorem copy_rollback (s0 t : VMState) (old new k : Nat)
    (hwfO : WF s0 old)
    (hdisj : ∀ q, Tbls s0 old q → ¬ Tbls s0 new q)
    (hkM : k * PGSIZE < MAXVA)
    (hwft : WF t new)
    (hwaF : ∀ va', va' < MAXVA →
        (∀ k2, k2 < k → va' / PGSIZE ≠ (0 + k2 * PGSIZE) / PGSIZE) →
        walkaddr t new va' = walkaddr s0 new va')
    (hex : ∀ k2, k2 < k → pathL0 t new (0 + k2 * PGSIZE) ≠ none)
    (hgood : ∀ k2, k2 < k → ∀ p, pathL0 t new (0 + k2 * PGSIZE) = some p →
        validE (t.ptes p (PX 0 (0 + k2 * PGSIZE))) ∧
        PTE_FLAGS (t.ptes p (PX 0 (0 + k2 * PGSIZE))) ≠ PTE_V ∧
        PTE2PA (t.ptes p (PX 0 (0 + k2 * PGSIZE))) % PGSIZE = 0 ∧
        PTE2PA (t.ptes p (PX 0 (0 + k2 * PGSIZE))) ∉ t.freeList ∧
        ¬ Tbls t new (PTE2PA (t.ptes p (PX 0 (0 + k2 * PGSIZE)))))
    (hdist : ∀ k2 k2' p p', k2 < k → k2' < k → k2 ≠ k2' →
        pathL0 t new (0 + k2 * PGSIZE) = some p →
        pathL0 t new (0 + k2' * PGSIZE) = some p' →
        PTE2PA (t.ptes p (PX 0 (0 + k2 * PGSIZE))) ≠
          PTE2PA (t.ptes p' (PX 0 (0 + k2' * PGSIZE))))
    (hs0clean : ∀ va' p, 0 ≤ va' → va' < MAXVA → pathL0 s0 new va' = some p →
        ¬ validE (s0.ptes p (PX 0 va')))
    (holdt : ∀ q, Tbls s0 old q → ∀ j, t.ptes q j = s0.ptes q j)
    (hbyt : ∀ q, q ∉ s0.freeList → ∀ o, t.bytes q o = s0.bytes q o)
    (hgrow : ∀ q, Tbls t new q → Tbls s0 new q ∨ q ∈ s0.freeList)
    (hacct : ∀ q, q ∈ s0.freeList → q ∈ t.freeList ∨ Tbls t new q ∨ q = 0 ∨
        (∃ k2, k2 < k ∧ ∃ p, pathL0 t new (k2 * PGSIZE) = some p ∧
          q = PTE2PA (t.ptes p (PX 0 (k2 * PGSIZE))))) :
    ∃ s2, unmapLoop t new 0 true k = .ok s2 ∧ CopyFail s0 s2 old new := by
  have h0M : (0 : Nat) + k * PGSIZE < MAXVA := by omega
  obtain ⟨s2, hok, hwf2, hwa, _, _, _⟩ := rollback_restores s0 t new 0 k (by decide)
    hwft h0M hwaF hex hgood hdist hs0clean
  obtain ⟨s2', hok', U⟩ := unmapLoop_ok new k t 0 hwft (by decide) h0M
    hex hgood hdist
  have hss : s2' = s2 := Res.ok.inj (hok'.symm.trans hok)
  subst hss
  refine ⟨s2', hok,
    { wf := hwf2, waNew := hwa, oldPtes := ?_, bytesPres := ?_, flAcct := ?_ }⟩
  · intro q hq j
    have hnin0 : q ∉ s0.freeList := fun hc => hwfO.fr_not_tbl q hc hq
    have hfr : s2'.ptes q j = t.ptes q j := by
      refine U.frame q j ?_
      intro k2 hk2 p hp hc
      rcases hgrow p (Tbls_of_pathL0 t new _ p hp) with h | h
      · exact hdisj q hq (hc.1 ▸ h)
      · exact hnin0 (hc.1 ▸ h)
    rw [hfr]
    exact holdt q hq j
  · intro q hq o
    rw [U.bytesEq]
    exact hbyt q hq o
  · intro q hq
    rcases hacct q hq with h | h | h | ⟨k2, hk2, p, hp, hqe⟩
    · exact Or.inl (U.flSub q h)
    · exact Or.inr (Or.inl ((U.tblsEq q).mpr h))
    · exact Or.inr (Or.inr h)
    · have hf := U.freed k2 hk2 p (by rw [Nat.zero_add]; exact hp)
      rw [Nat.zero_add] at hf
      rw [hqe]
      exact Or.inl hf

/-- The state `uvmcopy` reaches just before its per-page `mappages` call:
the free page `mem` has been popped and the source page's bytes copied into
it.  The allocation invariant and the freshness facts about `mem` carry
over. -/
theorem CopyInv_ustate (s0 s : VMState) (old new k mem pa2 : Nat)
    (rest : List Nat)
    (inv : CopyInv s0 s old new k) (hfl : s.freeList = mem :: rest) :
    AllocInv s0 (copyPageBytes { s with freeList := rest } mem pa2) new 0 k ∧
      mem % PGSIZE = 0 ∧ mem ∈ s0.freeList ∧
      mem ∉ (copyPageBytes { s with freeList := rest } mem pa2).freeList ∧
      ¬ Tbls (copyPageBytes { s with freeList := rest } mem pa2) new mem ∧
      (∀ k2, k2 < k → ∀ p,
        pathL0 (copyPageBytes { s with freeList := rest } mem pa2) new
          (0 + k2 * PGSIZE) = some p →
        PTE2PA ((copyPageBytes { s with freeList := rest } mem pa2).ptes p
          (PX 0 (0 + k2 * PGSIZE))) ≠ mem) := by
  have hmemfree : mem ∈ s.freeList := by
    rw [hfl]
    exact List.mem_cons_self _ _
  have hmemnrest : mem ∉ rest := by
    have hn := inv.dest.wf.fr_nodup
    rw [hfl] at hn
    exact (List.nodup_cons.mp hn).1
  refine ⟨AllocInv_congr s0 { s with freeList := rest } _ new 0 k (Eq.refl _)
      (Eq.refl _) (AllocInv_pop s0 s new 0 k mem rest inv.dest hfl),
    inv.dest.wf.fr_good mem hmemfree, inv.flSub mem hmemfree, hmemnrest, ?_, ?_⟩
  · intro hc
    exact inv.dest.wf.fr_not_tbl mem hmemfree
      ((Tbls_congr s (copyPageBytes { s with freeList := rest } mem pa2) new mem
        (Eq.refl _)).mp hc)
  · intro k2 hk2 p hp
    rw [pathL0_congr (copyPageBytes { s with freeList := rest } mem pa2) s new _
      (Eq.refl _)] at hp
    intro hc
    have hc2 : PTE2PA (s.ptes p (PX 0 (0 + k2 * PGSIZE))) = mem := hc
    exact (inv.dest.good k2 hk2 p hp).2.2.2.1 (by rw [hc2]; exact hmemfree)

set_option maxHeartbeats 1000000 in
/-- One successful `uvmcopy` iteration: popping `mem`, copying the source
page's bytes into it, and mapping it with the source leaf's flags extends
the copy invariant by one page. -/
theorem CopyInv_step (s0 s s3 : VMState) (old new k mem srcp : Nat)
    (rest : List Nat)
    (hwfO : WF s0 old)
    (hdisj : ∀ q, Tbls s0 old q → ¬ Tbls s0 new q)
    (inv : CopyInv s0 s old new k) (hfl : s.freeList = mem :: rest)
    (hsp0 : pathL0 s0 old (k * PGSIZE) = some srcp)
    (hsv0 : validE (s0.ptes srcp (PX 0 (k * PGSIZE))))
    (hsfl0 : PTE_FLAGS (s0.ptes srcp (PX 0 (k * PGSIZE))) ≠ PTE_V)
    (hsnin0 : PTE2PA (s0.ptes srcp (PX 0 (k * PGSIZE))) ∉ s0.freeList)
    (hM1 : (k + 1) * PGSIZE < MAXVA)
    (M : MapOk (copyPageBytes { s with freeList := rest } mem
        (PTE2PA (s0.ptes srcp (PX 0 (k * PGSIZE))))) s3 new (k * PGSIZE) mem
        (PTE_FLAGS (s0.ptes srcp (PX 0 (k * PGSIZE)))) 0) :
    CopyInv s0 s3 old new (k + 1) := by
  obtain ⟨invU, hmemal, hmem0, hmemnflU, hmemntblU, hmemdist⟩ :=
    CopyInv_ustate s0 s old new k mem
      (PTE2PA (s0.ptes srcp (PX 0 (k * PGSIZE)))) rest inv hfl
  have hM0 : MapOk (copyPageBytes { s with freeList := rest } mem
      (PTE2PA (s0.ptes srcp (PX 0 (k * PGSIZE))))) s3 new (0 + k * PGSIZE) mem
      (PTE_FLAGS (s0.ptes srcp (PX 0 (k * PGSIZE)))) 0 := by
    rw [Nat.zero_add]
    exact M
  have hpermV : PTE_FLAGS (s0.ptes srcp (PX 0 (k * PGSIZE))) ||| PTE_V ≠
      PTE_V := by
    rw [PTE_FLAGS_or_V _ hsv0]
    exact hsfl0
  have hMv : (0 : Nat) + (k + 1) * PGSIZE < MAXVA := by omega
  have invS := AllocInv_step_gen s0
    (copyPageBytes { s with freeList := rest } mem
      (PTE2PA (s0.ptes srcp (PX 0 (k * PGSIZE))))) s3 new 0 k mem
    (PTE_FLAGS (s0.ptes srcp (PX 0 (k * PGSIZE)))) (by decide) invU hmemal
    hmemnflU hmemntblU hmemdist (PTE_FLAGS_lt _) hpermV hMv hM0
  obtain ⟨m3, hm3⟩ := M.drop
  have hsub3 : ∀ q, q ∈ s3.freeList → q ∈ rest := by
    intro q hq
    rw [hm3] at hq
    exact List.drop_subset _ _ hq
  have hrest_sub : ∀ q, q ∈ rest → q ∈ s.freeList := by
    intro q hq
    rw [hfl]
    exact List.mem_cons_of_mem _ hq
  have hmemfree : mem ∈ s.freeList := by
    rw [hfl]
    exact List.mem_cons_self _ _
  have hold3 : ∀ q, Tbls s0 old q → ∀ j, s3.ptes q j = s0.ptes q j := by
    intro q hq j
    have hnin0 : q ∉ s0.freeList := fun hc => hwfO.fr_not_tbl q hc hq
    have h1 : ¬ Tbls (copyPageBytes { s with freeList := rest } mem
        (PTE2PA (s0.ptes srcp (PX 0 (k * PGSIZE))))) new q := by
      intro hc
      rcases inv.newGrow q ((Tbls_congr s _ new q (Eq.refl _)).mp hc) with h | h
      · exact hdisj q hq h
      · exact hnin0 h
    have h2 : q ∉ rest := fun hc => hnin0 (inv.flSub q (hrest_sub q hc))
    have he : s3.ptes q j = s.ptes q j := M.ptesOut q h1 h2 j
    rw [he]
    exact inv.oldPtes q hq j
  have hpresC : ∀ k2, k2 < k → ∀ p, pathL0 s new (k2 * PGSIZE) = some p →
      pathL0 s3 new (k2 * PGSIZE) = some p ∧
      s3.ptes p (PX 0 (k2 * PGSIZE)) = s.ptes p (PX 0 (k2 * PGSIZE)) := by
    intro k2 hk2 p hp
    have hpu : pathL0 (copyPageBytes { s with freeList := rest } mem
        (PTE2PA (s0.ptes srcp (PX 0 (k * PGSIZE))))) new (k2 * PGSIZE) =
        some p := by
      rw [pathL0_congr (copyPageBytes { s with freeList := rest } mem
        (PTE2PA (s0.ptes srcp (PX 0 (k * PGSIZE))))) s new (k2 * PGSIZE)
        (Eq.refl _)]
      exact hp
    have hg := inv.dest.good k2 hk2 p (by rw [Nat.zero_add]; exact hp)
    rw [Nat.zero_add] at hg
    refine ⟨M.pathPres _ p hpu, ?_⟩
    exact M.validPres p _ ((Tbls_congr s (copyPageBytes
      { s with freeList := rest } mem (PTE2PA (s0.ptes srcp (PX 0 (k * PGSIZE)))))
      new p (Eq.refl _)).mpr (Tbls_of_pathL0 s new _ p hp)) hg.1
  refine {
    dest := invS
    oldPtes := hold3
    bytesPres := ?_, flSub := ?_, newGrow := ?_, copied := ?_, acct := ?_ }
  · intro q hq o
    have hqs : q ∉ s.freeList := fun hc => hq (inv.flSub q hc)
    have hqrest : q ∉ rest := fun hc => hqs (hrest_sub q hc)
    have hqmem : q ≠ mem := fun hc => hq (hc ▸ hmem0)
    have he : s3.bytes q o = (copyPageBytes { s with freeList := rest } mem
        (PTE2PA (s0.ptes srcp (PX 0 (k * PGSIZE))))).bytes q o :=
      M.bytesOut q hqrest o
    rw [he]
    have he2 : (copyPageBytes { s with freeList := rest } mem
        (PTE2PA (s0.ptes srcp (PX 0 (k * PGSIZE))))).bytes q o =
        s.bytes q o := by
      show (if q = mem ∧ o < PGSIZE then
        ({ s with freeList := rest } : VMState).bytes
          (PTE2PA (s0.ptes srcp (PX 0 (k * PGSIZE)))) o
        else s.bytes q o) = s.bytes q o
      rw [if_neg (fun hc => hqmem hc.1)]
    rw [he2]
    exact inv.bytesPres q hq o
  · intro q hq
    exact inv.flSub q (hrest_sub q (hsub3 q hq))
  · intro q hq
    rcases M.tblGrow q hq with h | ⟨h, _⟩
    · rcases inv.newGrow q ((Tbls_congr s _ new q (Eq.refl _)).mp h) with h2 | h2
      · exact Or.inl h2
      · exact Or.inr h2
    · exact Or.inr (inv.flSub q (hrest_sub q h))
  · intro k2 hk2 p srcp2 hp hp0
    by_cases hkk : k2 = k
    · subst hkk
      obtain ⟨pI, hpI, heI⟩ := M.installed 0 (Nat.le_refl 0)
      simp only [Nat.zero_mul, Nat.add_zero] at hpI heI
      have hpp : p = pI := Option.some.inj (hp.symm.trans hpI)
      subst hpp
      have hsrc2 : srcp2 = srcp := Option.some.inj (hp0.symm.trans hsp0)
      subst hsrc2
      obtain ⟨hassoc, hlt1024, hvalI, hpteI, hflagsI⟩ := leaf_entry_facts mem
        (PTE_FLAGS (s0.ptes srcp2 (PX 0 (k2 * PGSIZE)))) hmemal (PTE_FLAGS_lt _)
      refine ⟨?_, ?_, ?_⟩
      · rw [heI, hflagsI, PTE_FLAGS_or_V _ hsv0]
      · rw [heI, hpteI]
        exact hmem0
      · intro o ho
        rw [heI, hpteI]
        have he : s3.bytes mem o = (copyPageBytes { s with freeList := rest } mem
            (PTE2PA (s0.ptes srcp2 (PX 0 (k2 * PGSIZE))))).bytes mem o :=
          M.bytesOut mem hmemnflU o
        rw [he]
        have he2 : (copyPageBytes { s with freeList := rest } mem
            (PTE2PA (s0.ptes srcp2 (PX 0 (k2 * PGSIZE))))).bytes mem o =
            s.bytes (PTE2PA (s0.ptes srcp2 (PX 0 (k2 * PGSIZE)))) o := by
          show (if mem = mem ∧ o < PGSIZE then
            ({ s with freeList := rest } : VMState).bytes
              (PTE2PA (s0.ptes srcp2 (PX 0 (k2 * PGSIZE)))) o
            else ({ s with freeList := rest } : VMState).bytes mem o) =
            s.bytes (PTE2PA (s0.ptes srcp2 (PX 0 (k2 * PGSIZE)))) o
          rw [if_pos ⟨Eq.refl _, ho⟩]
        rw [he2]
        exact inv.bytesPres _ hsnin0 o
    · have hk2' : k2 < k := by omega
      cases hps : pathL0 s new (k2 * PGSIZE) with
      | none =>
        have hps' := inv.dest.pathsome k2 hk2'
        rw [Nat.zero_add] at hps'
        exact absurd hps hps'
      | some q =>
        have hpu : pathL0 (copyPageBytes { s with freeList := rest } mem
            (PTE2PA (s0.ptes srcp (PX 0 (k * PGSIZE))))) new (k2 * PGSIZE) =
            some q := by
          rw [pathL0_congr (copyPageBytes { s with freeList := rest } mem
            (PTE2PA (s0.ptes srcp (PX 0 (k * PGSIZE))))) s new (k2 * PGSIZE)
            (Eq.refl _)]
          exact hps
        have hp3 : pathL0 s3 new (k2 * PGSIZE) = some q := M.pathPres _ q hpu
        have hq1 : q = p := Option.some.inj (hp3.symm.trans hp)
        subst hq1
        have hg := inv.dest.good k2 hk2' q (by rw [Nat.zero_add]; exact hps)
        rw [Nat.zero_add] at hg
        have hvq : validE (s.ptes q (PX 0 (k2 * PGSIZE))) := hg.1
        have he3 : s3.ptes q (PX 0 (k2 * PGSIZE)) =
            s.ptes q (PX 0 (k2 * PGSIZE)) :=
          M.validPres q (PX 0 (k2 * PGSIZE))
            ((Tbls_congr s _ new q (Eq.refl _)).mpr (Tbls_of_pathL0 s new _ q hps))
            hvq
        obtain ⟨hfe, hin0, hby⟩ := inv.copied k2 hk2' q srcp2 hps hp0
        rw [he3]
        refine ⟨hfe, hin0, ?_⟩
        intro o ho
        have hd_nin_s : PTE2PA (s.ptes q (PX 0 (k2 * PGSIZE))) ∉ s.freeList :=
          hg.2.2.2.1
        have hd_nrest : PTE2PA (s.ptes q (PX 0 (k2 * PGSIZE))) ∉ rest :=
          fun hc => hd_nin_s (hrest_sub _ hc)
        have hd_nmem : PTE2PA (s.ptes q (PX 0 (k2 * PGSIZE))) ≠ mem :=
          fun hc => hd_nin_s (by rw [hc]; exact hmemfree)
        have hb1 : s3.bytes (PTE2PA (s.ptes q (PX 0 (k2 * PGSIZE)))) o =
            (copyPageBytes { s with freeList := rest } mem
              (PTE2PA (s0.ptes srcp (PX 0 (k * PGSIZE))))).bytes
              (PTE2PA (s.ptes q (PX 0 (k2 * PGSIZE)))) o :=
          M.bytesOut _ hd_nrest o
        have hb2 : (copyPageBytes { s with freeList := rest } mem
            (PTE2PA (s0.ptes srcp (PX 0 (k * PGSIZE))))).bytes
            (PTE2PA (s.ptes q (PX 0 (k2 * PGSIZE)))) o =
            s.bytes (PTE2PA (s.ptes q (PX 0 (k2 * PGSIZE)))) o := by
          show (if PTE2PA (s.ptes q (PX 0 (k2 * PGSIZE))) = mem ∧ o < PGSIZE then
            ({ s with freeList := rest } : VMState).bytes
              (PTE2PA (s0.ptes srcp (PX 0 (k * PGSIZE)))) o
            else ({ s with freeList := rest } : VMState).bytes
              (PTE2PA (s.ptes q (PX 0 (k2 * PGSIZE)))) o) =
            s.bytes (PTE2PA (s.ptes q (PX 0 (k2 * PGSIZE)))) o
          rw [if_neg (fun hc => hd_nmem hc.1)]
        rw [hb1, hb2]
        exact hby o ho
  · intro q hq
    rcases inv.acct q hq with h | h | h | ⟨k2, hk2, p, hp, hqe⟩
    · rw [hfl] at h
      rcases List.mem_cons.mp h with h2 | h2
      · obtain ⟨pI, hpI, heI⟩ := M.installed 0 (Nat.le_refl 0)
        simp only [Nat.zero_mul, Nat.add_zero] at hpI heI
        refine Or.inr (Or.inr (Or.inr ⟨k, by omega, pI, hpI, ?_⟩))
        rw [heI, (leaf_entry_facts mem
          (PTE_FLAGS (s0.ptes srcp (PX 0 (k * PGSIZE)))) hmemal
          (PTE_FLAGS_lt _)).2.2.2.1]
        exact h2
      · rcases M.flAcct q h2 with h3 | h3 | h3
        · exact Or.inl h3
        · exact Or.inr (Or.inl h3)
        · exact Or.inr (Or.inr (Or.inl h3))
    · exact Or.inr (Or.inl (M.tblMono q ((Tbls_congr s (copyPageBytes
        { s with freeList := rest } mem
        (PTE2PA (s0.ptes srcp (PX 0 (k * PGSIZE))))) new q (Eq.refl _)).mpr h)))
    · exact Or.inr (Or.inr (Or.inl h))
    · obtain ⟨hp3, he3⟩ := hpresC k2 hk2 p hp
      refine Or.inr (Or.inr (Or.inr ⟨k2, by omega, p, hp3, ?_⟩))
      rw [he3]
      exact hqe

/-- One failed `uvmcopy` iteration (the per-page `mappages` returned `-1`):
after freeing the unused page, unmapping the `k` already-copied pages
restores the pre-call state. -/
theorem CopyInv_fail (s0 s s3 : VMState) (old new k mem srcpa : Nat)
    (rest : List Nat)
    (hwfO : WF s0 old)
    (hdisj : ∀ q, Tbls s0 old q → ¬ Tbls s0 new q)
    (hkM : k * PGSIZE < MAXVA)
    (hs0clean : ∀ va' p, 0 ≤ va' → va' < MAXVA → pathL0 s0 new va' = some p →
        ¬ validE (s0.ptes p (PX 0 va')))
    (inv : CopyInv s0 s old new k) (hfl : s.freeList = mem :: rest)
    (G : Grows (copyPageBytes { s with freeList := rest } mem srcpa) s3 new) :
    ∃ s2, unmapLoop (kfree s3 mem) new 0 true k = .ok s2 ∧
      CopyFail s0 s2 old new := by
  obtain ⟨invU, hmemal, hmem0, hmemnflU, hmemntblU, hmemdist⟩ :=
    CopyInv_ustate s0 s old new k mem srcpa rest inv hfl
  obtain ⟨hwfk, hwaF, hex, hgood, hdist⟩ := AllocInv_fail_gen s0
    (copyPageBytes { s with freeList := rest } mem srcpa) s3 new 0 k mem
    invU hmemal hmemnflU hmemntblU hmemdist G
  have hrest_sub : ∀ q, q ∈ rest → q ∈ s.freeList := by
    intro q hq
    rw [hfl]
    exact List.mem_cons_of_mem _ hq
  have hmemfree : mem ∈ s.freeList := by
    rw [hfl]
    exact List.mem_cons_self _ _
  obtain ⟨m3, hm3⟩ := G.drop
  have holdkf : ∀ q, Tbls s0 old q → ∀ j,
      (kfree s3 mem).ptes q j = s0.ptes q j := by
    intro q hq j
    have hnin0 : q ∉ s0.freeList := fun hc => hwfO.fr_not_tbl q hc hq
    have h1 : ¬ Tbls (copyPageBytes { s with freeList := rest } mem srcpa)
        new q := by
      intro hc
      rcases inv.newGrow q ((Tbls_congr s _ new q (Eq.refl _)).mp hc) with h | h
      · exact hdisj q hq h
      · exact hnin0 h
    have h2 : q ∉ rest := fun hc => hnin0 (inv.flSub q (hrest_sub q hc))
    have he : s3.ptes q j = s.ptes q j := G.ptesOut q h1 h2 j
    show s3.ptes q j = s0.ptes q j
    rw [he]
    exact inv.oldPtes q hq j
  have hbytkf : ∀ q, q ∉ s0.freeList → ∀ o,
      (kfree s3 mem).bytes q o = s0.bytes q o := by
    intro q hq o
    have hqs : q ∉ s.freeList := fun hc => hq (inv.flSub q hc)
    have hqrest : q ∉ rest := fun hc => hqs (hrest_sub q hc)
    have hqmem : q ≠ mem := fun hc => hq (hc ▸ hmem0)
    have he : s3.bytes q o =
        (copyPageBytes { s with freeList := rest } mem srcpa).bytes q o :=
      G.bytesOut q hqrest o
    show s3.bytes q o = s0.bytes q o
    rw [he]
    have he2 : (copyPageBytes { s with freeList := rest } mem srcpa).bytes q o =
        s.bytes q o := by
      show (if q = mem ∧ o < PGSIZE then
        ({ s with freeList := rest } : VMState).bytes srcpa o
        else s.bytes q o) = s.bytes q o
      rw [if_neg (fun hc => hqmem hc.1)]
    rw [he2]
    exact inv.bytesPres q hq o
  have hgrowkf : ∀ q, Tbls (kfree s3 mem) new q →
      Tbls s0 new q ∨ q ∈ s0.freeList := by
    intro q hq
    have hq3 : Tbls s3 new q :=
      (Tbls_congr s3 (kfree s3 mem) new q (Eq.refl _)).mp hq
    rcases G.tblGrow q hq3 with h | ⟨h, _⟩
    · rcases inv.newGrow q ((Tbls_congr s _ new q (Eq.refl _)).mp h) with h2 | h2
      · exact Or.inl h2
      · exact Or.inr h2
    · exact Or.inr (inv.flSub q (hrest_sub q h))
  have hpresF : ∀ k2, k2 < k → ∀ p, pathL0 s new (k2 * PGSIZE) = some p →
      pathL0 (kfree s3 mem) new (k2 * PGSIZE) = some p ∧
      (kfree s3 mem).ptes p (PX 0 (k2 * PGSIZE)) =
        s.ptes p (PX 0 (k2 * PGSIZE)) := by
    intro k2 hk2 p hp
    have hpu : pathL0 (copyPageBytes { s with freeList := rest } mem srcpa) new
        (k2 * PGSIZE) = some p := by
      rw [pathL0_congr (copyPageBytes { s with freeList := rest } mem srcpa) s
        new (k2 * PGSIZE) (Eq.refl _)]
      exact hp
    have hg := inv.dest.good k2 hk2 p (by rw [Nat.zero_add]; exact hp)
    rw [Nat.zero_add] at hg
    have hp3 : pathL0 s3 new (k2 * PGSIZE) = some p := G.pathPres _ p hpu
    refine ⟨?_, ?_⟩
    · rw [pathL0_congr (kfree s3 mem) s3 new _ (Eq.refl _)]
      exact hp3
    · show s3.ptes p (PX 0 (k2 * PGSIZE)) = s.ptes p (PX 0 (k2 * PGSIZE))
      exact G.validPres p _ ((Tbls_congr s (copyPageBytes
        { s with freeList := rest } mem srcpa) new p (Eq.refl _)).mpr
        (Tbls_of_pathL0 s new _ p hp)) hg.1
  have hacctkf : ∀ q, q ∈ s0.freeList → q ∈ (kfree s3 mem).freeList ∨
      Tbls (kfree s3 mem) new q ∨ q = 0 ∨
      (∃ k2, k2 < k ∧ ∃ p, pathL0 (kfree s3 mem) new (k2 * PGSIZE) = some p ∧
        q = PTE2PA ((kfree s3 mem).ptes p (PX 0 (k2 * PGSIZE)))) := by
    intro q hq
    rcases inv.acct q hq with h | h | h | ⟨k2, hk2, p, hp, hqe⟩
    · rw [hfl] at h
      rcases List.mem_cons.mp h with h2 | h2
      · rw [h2]
        exact Or.inl (List.mem_cons_self _ _)
      · rcases G.flAcct q h2 with h3 | h3 | h3
        · exact Or.inl (List.mem_cons_of_mem _ h3)
        · exact Or.inr (Or.inl
            ((Tbls_congr s3 (kfree s3 mem) new q (Eq.refl _)).mpr h3))
        · exact Or.inr (Or.inr (Or.inl h3))
    · exact Or.inr (Or.inl ((Tbls_congr s3 (kfree s3 mem) new q (Eq.refl _)).mpr
        (G.tblMono q ((Tbls_congr s (copyPageBytes { s with freeList := rest }
          mem srcpa) new q (Eq.refl _)).mpr h))))
    · exact Or.inr (Or.inr (Or.inl h))
    · obtain ⟨hp3, he3⟩ := hpresF k2 hk2 p hp
      refine Or.inr (Or.inr (Or.inr ⟨k2, hk2, p, hp3, ?_⟩))
      rw [he3]
      exact hqe
  exact copy_rollback s0 (kfree s3 mem) old new k hwfO hdisj hkM hwfk hwaF hex
    hgood hdist hs0clean holdkf hbytkf hgrowkf hacctkf

set_option maxHeartbeats 1000000 in
/-- The induction behind `uvmcopy`: from `k` copied pages, running the loop
for `n` more pages either returns `0` with the copy invariant extended to
all `k + n` pages, or returns `-1` with the destination rolled back to its
pre-call translations and the source untouched. -/
theorem uvmcopyLoop_spec (old new : Nat) (s0 : VMState)
    (hwfO : WF s0 old)
    (hdisj : ∀ q, Tbls s0 old q → ¬ Tbls s0 new q)
    (hs0clean : ∀ va' p, 0 ≤ va' → va' < MAXVA → pathL0 s0 new va' = some p →
        ¬ validE (s0.ptes p (PX 0 va'))) :
    ∀ n k s, CopyInv s0 s old new k →
      (∀ k2, k2 < k + n → ∃ p, pathL0 s0 old (k2 * PGSIZE) = some p ∧
        validE (s0.ptes p (PX 0 (k2 * PGSIZE))) ∧
        PTE_FLAGS (s0.ptes p (PX 0 (k2 * PGSIZE))) ≠ PTE_V ∧
        PTE2PA (s0.ptes p (PX 0 (k2 * PGSIZE))) ∉ s0.freeList) →
      (k + n) * PGSIZE < MAXVA →
      ∀ r s', uvmcopyLoop old new s (k * PGSIZE) n = .ok (r, s') →
        (r = 0 → CopyInv s0 s' old new (k + n)) ∧
        (r = -1 → CopyFail s0 s' old new) ∧ (r = 0 ∨ r = -1) := by
  intro n
  induction n with
  | zero =>
    intro k s inv hsrc hM r s' hrun
    rw [uvmcopyLoop] at hrun
    injection hrun with h
    injection h with h1 h2
    subst h2
    subst h1
    exact ⟨fun _ => inv, fun hc => absurd hc (by decide), Or.inl (Eq.refl _)⟩
  | succ n ih =>
    intro k s inv hsrc hM r s' hrun
    have hiM : k * PGSIZE < MAXVA := by
      have h1 : k * PGSIZE ≤ (k + (n + 1)) * PGSIZE :=
        Nat.mul_le_mul_right _ (by omega)
      omega
    have hiM1 : k * PGSIZE + PGSIZE < MAXVA := by
      have h1 : (k + 1) * PGSIZE ≤ (k + (n + 1)) * PGSIZE :=
        Nat.mul_le_mul_right _ (by omega)
      rw [Nat.add_mul, Nat.one_mul] at h1
      omega
    obtain ⟨srcp, hsp0, hsv0, hsfl0, hsnin0⟩ := hsrc k (by omega)
    have hpath : pathL0 s old (k * PGSIZE) = some srcp := by
      rw [pathL0_eq_of_tbl_eq s0 s old _ inv.oldPtes]
      exact hsp0
    have hentry : s.ptes srcp (PX 0 (k * PGSIZE)) =
        s0.ptes srcp (PX 0 (k * PGSIZE)) :=
      inv.oldPtes srcp (Tbls_of_pathL0 s0 old _ srcp hsp0) _
    have hnm : ¬ k * PGSIZE ≥ MAXVA := not_le.mpr hiM
    have hwalk : walk s old (k * PGSIZE) false =
        .ok (some (srcp, PX 0 (k * PGSIZE)), s) := by
      rw [walk_false_eq, if_neg hnm, hpath]
      rfl
    rw [uvmcopyLoop, hwalk] at hrun
    dsimp only at hrun
    have hvne : ¬ s.ptes srcp (PX 0 (k * PGSIZE)) &&& PTE_V = 0 := by
      rw [hentry]
      exact hsv0
    rw [if_neg hvne, hentry] at hrun
    have hdivk : k * PGSIZE / PGSIZE = k := by
      simp only [PGSIZE_def]
      omega
    cases hfl : s.freeList with
    | nil =>
      rw [show kalloc s = (0, s) from by rw [kalloc, hfl]] at hrun
      dsimp only at hrun
      rw [if_pos (Eq.refl 0)] at hrun
      rw [uvmunmap, if_neg (show ¬ (0 : Nat) % PGSIZE ≠ 0 from by decide),
        hdivk] at hrun
      obtain ⟨s2, hok, CF⟩ := copy_rollback s0 s old new k hwfO hdisj hiM
        inv.dest.wf inv.dest.waFrame inv.dest.pathsome inv.dest.good
        inv.dest.dist hs0clean inv.oldPtes inv.bytesPres inv.newGrow inv.acct
      rw [hok] at hrun
      dsimp only at hrun
      injection hrun with h
      injection h with h1 h2
      subst h2
      subst h1
      exact ⟨fun hc => absurd hc (by decide), fun _ => CF, Or.inr (Eq.refl _)⟩
    | cons mem rest =>
      rw [show kalloc s = (mem, { s with freeList := rest }) from by
        rw [kalloc, hfl]] at hrun
      dsimp only at hrun
      by_cases hmem : mem = 0
      · subst hmem
        rw [if_pos (Eq.refl 0)] at hrun
        rw [uvmunmap, if_neg (show ¬ (0 : Nat) % PGSIZE ≠ 0 from by decide),
          hdivk] at hrun
        have invP := AllocInv_pop s0 s new 0 k 0 rest inv.dest hfl
        obtain ⟨s2, hok, CF⟩ := copy_rollback s0 { s with freeList := rest } old
          new k hwfO hdisj hiM invP.wf invP.waFrame invP.pathsome invP.good
          invP.dist hs0clean
          (fun q hq j => inv.oldPtes q hq j)
          (fun q hq o => inv.bytesPres q hq o)
          (fun q hc => inv.newGrow q
            ((Tbls_congr s { s with freeList := rest } new q (Eq.refl _)).mp hc))
          (by
            intro q hq
            rcases inv.acct q hq with h | h | h | ⟨k2, hk2, p, hp, hqe⟩
            · rw [hfl] at h
              rcases List.mem_cons.mp h with h2 | h2
              · exact Or.inr (Or.inr (Or.inl h2))
              · exact Or.inl h2
            · exact Or.inr (Or.inl ((Tbls_congr s { s with freeList := rest }
                new q (Eq.refl _)).mpr h))
            · exact Or.inr (Or.inr (Or.inl h))
            · refine Or.inr (Or.inr (Or.inr ⟨k2, hk2, p, ?_, hqe⟩))
              rw [pathL0_congr { s with freeList := rest } s new _ (Eq.refl _)]
              exact hp)
        rw [hok] at hrun
        dsimp only at hrun
        injection hrun with h
        injection h with h1 h2
        subst h2
        subst h1
        exact ⟨fun hc => absurd hc (by decide), fun _ => CF, Or.inr (Eq.refl _)⟩
      · rw [if_neg hmem] at hrun
        cases hmp : mappages (copyPageBytes { s with freeList := rest } mem
            (PTE2PA (s0.ptes srcp (PX 0 (k * PGSIZE))))) new (k * PGSIZE) PGSIZE
            mem (PTE_FLAGS (s0.ptes srcp (PX 0 (k * PGSIZE)))) with
        | panic =>
          rw [hmp] at hrun
          exact Res.noConfusion hrun
        | ok rs3 =>
          obtain ⟨rm, s3⟩ := rs3
          rw [hmp] at hrun
          dsimp only at hrun
          obtain ⟨invU, hmemal, hmem0, hmemnflU, hmemntblU, hmemdist⟩ :=
            CopyInv_ustate s0 s old new k mem
              (PTE2PA (s0.ptes srcp (PX 0 (k * PGSIZE)))) rest inv hfl
          have hial : k * PGSIZE % PGSIZE = 0 := by
            simp only [PGSIZE_def]
            omega
          by_cases hrm : rm = 0
          · subst hrm
            rw [if_neg (show ¬ (0 : Int) ≠ 0 from fun hc => hc (Eq.refl _))]
              at hrun
            have hclearU : ∀ va' p, k * PGSIZE ≤ va' →
                va' < k * PGSIZE + PGSIZE →
                pathL0 (copyPageBytes { s with freeList := rest } mem
                  (PTE2PA (s0.ptes srcp (PX 0 (k * PGSIZE))))) new va' = some p →
                ¬ validE ((copyPageBytes { s with freeList := rest } mem
                  (PTE2PA (s0.ptes srcp (PX 0 (k * PGSIZE))))).ptes p
                  (PX 0 va')) := by
              intro va' p hlo hhi hpv
              rw [pathL0_congr (copyPageBytes { s with freeList := rest } mem
                (PTE2PA (s0.ptes srcp (PX 0 (k * PGSIZE))))) s new va'
                (Eq.refl _)] at hpv
              exact inv.dest.clean va' p (by omega) (by omega) hpv
            have M := mappages_ok (copyPageBytes { s with freeList := rest } mem
                (PTE2PA (s0.ptes srcp (PX 0 (k * PGSIZE))))) new (k * PGSIZE)
              PGSIZE mem (PTE_FLAGS (s0.ptes srcp (PX 0 (k * PGSIZE)))) s3
              invU.wf hial hmemal (by decide) (by decide) (PTE_FLAGS_lt _) hiM1
              hclearU hmp
            have M0 : MapOk (copyPageBytes { s with freeList := rest } mem
                (PTE2PA (s0.ptes srcp (PX 0 (k * PGSIZE))))) s3 new (k * PGSIZE)
                mem (PTE_FLAGS (s0.ptes srcp (PX 0 (k * PGSIZE)))) 0 := M
            have invS := CopyInv_step s0 s s3 old new k mem srcp rest hwfO hdisj
              inv hfl hsp0 hsv0 hsfl0 hsnin0
              (by rw [Nat.add_mul, Nat.one_mul]; omega) M0
            have haddr : k * PGSIZE + PGSIZE = (k + 1) * PGSIZE := by
              rw [Nat.add_mul, Nat.one_mul]
            rw [haddr] at hrun
            have hres := ih (k + 1) s3 invS
              (fun k2 hk2 => hsrc k2 (by omega))
              (by
                rw [show k + 1 + n = k + (n + 1) from by omega]
                exact hM) r s' hrun
            rw [show k + 1 + n = k + (n + 1) from by omega] at hres
            exact hres
          · rw [if_pos hrm] at hrun
            have G := mappages_single_fail (copyPageBytes
                { s with freeList := rest } mem
                (PTE2PA (s0.ptes srcp (PX 0 (k * PGSIZE))))) new (k * PGSIZE) mem
              (PTE_FLAGS (s0.ptes srcp (PX 0 (k * PGSIZE)))) s3 rm invU.wf hial
              hiM hmp hrm
            obtain ⟨s2, hok, CF⟩ := CopyInv_fail s0 s s3 old new k mem
              (PTE2PA (s0.ptes srcp (PX 0 (k * PGSIZE)))) rest hwfO hdisj hiM
              hs0clean inv hfl G
            rw [uvmunmap, if_neg (show ¬ (0 : Nat) % PGSIZE ≠ 0 from by decide),
              hdivk, hok] at hrun
            dsimp only at hrun
            injection hrun with h
            injection h with h1 h2
            subst h2
            subst h1
            exact ⟨fun hc => absurd hc (by decide), fun _ => CF, Or.inr (Eq.refl _)⟩

/-- **C5.** `uvmcopy(old, new, sz)` either returns `0` having installed, for
each page of `[0, sz)`, a destination leaf with exactly the source leaf's
flags, backed by a freshly allocated physical page distinct from the
source's page and holding a byte-for-byte copy of it — while leaving the
source tree's entries, its translations, and all bytes outside the consumed
free pages untouched, so mutating a destination page cannot change what the
source reaches — or it returns `-1` with the attempted destination range
fully unmapped (every destination translation reads `0` again), everything
already installed freed again — every pre-call free page is back on the free
list or serves as a page-table node of the destination tree, so no page is
leaked — and the source untouched. -/
theorem C5_uvmcopy (s0 s' : VMState) (old new sz : Nat) (r : Int)
    (hwfO : WF s0 old) (hwfN : WF s0 new)
    (hdisj : ∀ q, Tbls s0 old q → ¬ Tbls s0 new q)
    (hszM : PGROUNDUP sz < MAXVA) (h0 : 0 ∉ s0.freeList)
    (hsrc : ∀ k, k * PGSIZE < sz → ∃ p, pathL0 s0 old (k * PGSIZE) = some p ∧
        validE (s0.ptes p (PX 0 (k * PGSIZE))) ∧
        PTE_FLAGS (s0.ptes p (PX 0 (k * PGSIZE))) ≠ PTE_V ∧
        PTE2PA (s0.ptes p (PX 0 (k * PGSIZE))) ∉ s0.freeList)
    (hclean : ∀ va p, va < MAXVA → pathL0 s0 new va = some p →
        ¬ validE (s0.ptes p (PX 0 va)))
    (hrun : uvmcopy s0 old new sz = .ok (r, s')) :
    (r = 0 →
      (∀ k, k * PGSIZE < sz → ∃ p srcp,
        pathL0 s' new (k * PGSIZE) = some p ∧
        pathL0 s0 old (k * PGSIZE) = some srcp ∧
        validE (s'.ptes p (PX 0 (k * PGSIZE))) ∧
        PTE_FLAGS (s'.ptes p (PX 0 (k * PGSIZE))) =
          PTE_FLAGS (s0.ptes srcp (PX 0 (k * PGSIZE))) ∧
        PTE2PA (s'.ptes p (PX 0 (k * PGSIZE))) ≠
          PTE2PA (s0.ptes srcp (PX 0 (k * PGSIZE))) ∧
        (∀ o, o < PGSIZE →
          s'.bytes (PTE2PA (s'.ptes p (PX 0 (k * PGSIZE)))) o =
            s0.bytes (PTE2PA (s0.ptes srcp (PX 0 (k * PGSIZE)))) o)) ∧
      WF s' new ∧
      (∀ q, Tbls s0 old q → ∀ j, s'.ptes q j = s0.ptes q j) ∧
      (∀ va, walkaddr s' old va = walkaddr s0 old va) ∧
      (∀ q, q ∉ s0.freeList → ∀ o, s'.bytes q o = s0.bytes q o)) ∧
    (r = -1 →
      WF s' new ∧
      (∀ va, va < MAXVA → walkaddr s' new va = 0) ∧
      (∀ q, q ∈ s0.freeList → q ∈ s'.freeList ∨ Tbls s' new q) ∧
      (∀ q, Tbls s0 old q → ∀ j, s'.ptes q j = s0.ptes q j) ∧
      (∀ va, walkaddr s' old va = walkaddr s0 old va) ∧
      (∀ q, q ∉ s0.freeList → ∀ o, s'.bytes q o = s0.bytes q o)) ∧
    (r = 0 ∨ r = -1) := by
  have harith : ∀ k2 : Nat, k2 < 0 + (sz + PGSIZE - 1) / PGSIZE →
      k2 * PGSIZE < sz := by
    intro k2 hk2
    simp only [PGSIZE_def] at hk2 ⊢
    omega
  have harith2 : ∀ k2 : Nat, k2 * PGSIZE < sz →
      k2 < 0 + (sz + PGSIZE - 1) / PGSIZE := by
    intro k2 hk2
    simp only [PGSIZE_def] at hk2 ⊢
    omega
  have hM : (0 + (sz + PGSIZE - 1) / PGSIZE) * PGSIZE < MAXVA := by
    rw [PGROUNDUP_def] at hszM
    simp only [PGSIZE_def] at hszM ⊢
    omega
  have inv0 : CopyInv s0 s0 old new 0 := {
    dest := {
      wf := hwfN
      waFrame := fun va _ _ => Eq.refl _
      pathsome := fun k hk => absurd hk (by omega)
      good := fun k hk => absurd hk (by omega)
      dist := fun k k' p p' hk => absurd hk (by omega)
      clean := fun va p _ h2 hp => hclean va p h2 hp }
    oldPtes := fun q _ j => Eq.refl _
    bytesPres := fun q _ o => Eq.refl _
    flSub := fun q h => h
    newGrow := fun q h => Or.inl h
    copied := fun k2 hk2 => absurd hk2 (by omega)
    acct := fun q h => Or.inl h }
  obtain ⟨H0, H1, H2⟩ := uvmcopyLoop_spec old new s0 hwfO hdisj
    (fun va p _ h2 hp => hclean va p h2 hp) ((sz + PGSIZE - 1) / PGSIZE) 0 s0
    inv0 (fun k2 hk2 => hsrc k2 (harith k2 hk2)) hM r s' hrun
  refine ⟨?_, ?_, H2⟩
  · intro hr0
    have inv2 := H0 hr0
    refine ⟨?_, inv2.dest.wf, inv2.oldPtes, ?_, inv2.bytesPres⟩
    · intro k hk
      have hkn : k < 0 + (sz + PGSIZE - 1) / PGSIZE := harith2 k hk
      obtain ⟨p, hsp0, hsv0, hsfl0, hsnin0⟩ := hsrc k hk
      have hps2 := inv2.dest.pathsome k hkn
      rw [Nat.zero_add] at hps2
      cases hpd : pathL0 s' new (k * PGSIZE) with
      | none => exact absurd hpd hps2
      | some pd =>
        have hg := inv2.dest.good k hkn pd (by rw [Nat.zero_add]; exact hpd)
        rw [Nat.zero_add] at hg
        obtain ⟨hfe, hin0, hby⟩ := inv2.copied k hkn pd p hpd hsp0
        refine ⟨pd, p, Eq.refl _, hsp0, hg.1, hfe, ?_, hby⟩
        intro hc
        rw [hc] at hin0
        exact hsnin0 hin0
    · intro va
      exact walkaddr_eq_of_tbl_eq s0 s' old va inv2.oldPtes
  · intro hr1
    have CF := H1 hr1
    refine ⟨CF.wf, ?_, ?_, CF.oldPtes, ?_, CF.bytesPres⟩
    · intro va hva
      rw [CF.waNew va hva, walkaddr_eq, if_neg (not_le.mpr hva)]
      cases hp : pathL0 s0 new va with
      | none => exact Eq.refl _
      | some p =>
        dsimp only
        rw [if_pos (not_not.mp (hclean va p hva hp))]
    · intro q hq
      rcases CF.flAcct q hq with h | h | h
      · exact Or.inl h
      · exact Or.inr h
      · exact absurd (h ▸ hq) h0
    · intro va
      exact walkaddr_eq_of_tbl_eq s0 s' old va CF.oldPtes

set_option maxRecDepth 100000 in
theorem C5_witness :
    (uvmcopy C5state1 4096 45056 PGSIZE = .ok (0, C5state2) ∧
      walkaddr C5state2 4096 0 = walkaddr C5state1 4096 0 ∧
      C5state2.bytes 65536 7 = C5state1.bytes 65536 7) ∧
    (uvmcopy C5fstate1 4096 45056 (2 * PGSIZE) = .ok (-1, C5fstate2) ∧
      walkaddr C5fstate2 45056 0 = 0 ∧
      (16384 ∈ C5fstate2.freeList ∨ Tbls C5fstate2 45056 16384)) := by
  have hrun1 : mappages C5base 4096 0 PGSIZE 65536 (PTE_R ||| PTE_U) =
      .ok (0, C5state1) := by rfl
  have hwfB : WF C5base 4096 :=
    WF_zero (fun q o => if q = 65536 then o % 256 + 3 else 0)
      [8192, 12288, 16384, 20480, 24576] 4096 ⟨by decide, by decide⟩ (by decide)
      (by intro q hq
          simp only [List.mem_cons, List.not_mem_nil, or_false] at hq
          rcases hq with rfl | rfl | rfl | rfl | rfl <;> decide)
      (by intro q hq
          simp only [List.mem_cons, List.not_mem_nil, or_false] at hq
          rcases hq with rfl | rfl | rfl | rfl | rfl <;> decide)
  have M1 := mappages_ok C5base 4096 0 PGSIZE 65536 (PTE_R ||| PTE_U) C5state1
    hwfB (by decide) (by decide) (by decide) (by decide) (by decide) (by decide)
    (fun va' p _ _ hp => by
      rw [pathL0_some_iff] at hp
      exact (hp.1 (Nat.zero_and _)).elim)
    hrun1
  have hz_new : ∀ j, C5state1.ptes 45056 j = 0 := by
    intro j
    have hntbl : ¬ Tbls C5base 4096 45056 := by
      rintro (h | ⟨i, _, hv, _⟩ | ⟨i, _, _, _, hv, _, _⟩)
      · exact absurd h (by decide)
      · exact (hv (Nat.zero_and _)).elim
      · exact (hv (Nat.zero_and _)).elim
    have h := M1.ptesOut 45056 hntbl (by decide) j
    rw [h]
    rfl
  have hwfN1 : WF C5state1 45056 := by
    refine WF_of_root_zero C5state1 45056 ⟨by decide, by decide⟩ hz_new
      M1.wf.fr_nodup M1.wf.fr_good ?_
    intro q hq
    have hq0 : q ∈ C5base.freeList := by
      obtain ⟨m, hm⟩ := M1.drop
      rw [hm] at hq
      exact List.drop_subset _ _ hq
    have hq1 : q ∈ ([8192, 12288, 16384, 20480, 24576] : List Nat) := hq0
    simp only [List.mem_cons, List.not_mem_nil, or_false] at hq1
    rcases hq1 with rfl | rfl | rfl | rfl | rfl <;> decide
  have hdisjW : ∀ q, Tbls C5state1 4096 q → ¬ Tbls C5state1 45056 q := by
    intro q hq hc
    have hq45 : q = 45056 := by
      rcases hc with h | ⟨i, _, hv, _⟩ | ⟨i, _, _, _, hv, _, _⟩
      · exact h
      · rw [hz_new i] at hv
        exact (hv (Nat.zero_and _)).elim
      · rw [hz_new i] at hv
        exact (hv (Nat.zero_and _)).elim
    subst hq45
    rcases M1.tblGrow 45056 hq with h | ⟨h, _⟩
    · rcases h with h | ⟨i, _, hv, _⟩ | ⟨i, _, _, _, hv, _, _⟩
      · exact absurd h (by decide)
      · exact (hv (Nat.zero_and _)).elim
      · exact (hv (Nat.zero_and _)).elim
    · exact absurd h (by decide)
  have hsrcW : ∀ k, k * PGSIZE < PGSIZE →
      ∃ p, pathL0 C5state1 4096 (k * PGSIZE) = some p ∧
        validE (C5state1.ptes p (PX 0 (k * PGSIZE))) ∧
        PTE_FLAGS (C5state1.ptes p (PX 0 (k * PGSIZE))) ≠ PTE_V ∧
        PTE2PA (C5state1.ptes p (PX 0 (k * PGSIZE))) ∉ C5state1.freeList := by
    intro k hk
    have hk0 : k = 0 := by
      simp only [PGSIZE_def] at hk
      omega
    subst hk0
    simp only [Nat.zero_mul]
    obtain ⟨pI, hpI, heI⟩ := M1.installed 0 (Nat.le_refl 0)
    simp only [Nat.zero_mul, Nat.add_zero] at hpI heI
    refine ⟨pI, hpI, ?_, ?_, ?_⟩
    · rw [heI]
      decide
    · rw [heI]
      decide
    · rw [heI]
      decide
  have hcleanW : ∀ va p, va < MAXVA → pathL0 C5state1 45056 va = some p →
      ¬ validE (C5state1.ptes p (PX 0 va)) := by
    intro va p _ hp
    rw [pathL0_some_iff] at hp
    obtain ⟨h2, _, _⟩ := hp
    rw [hz_new (PX 2 va)] at h2
    exact (h2 (Nat.zero_and _)).elim
  have hrun2 : uvmcopy C5state1 4096 45056 PGSIZE = .ok (0, C5state2) := by rfl
  have H := (C5_uvmcopy C5state1 C5state2 4096 45056 PGSIZE 0 M1.wf hwfN1
    hdisjW (by decide) (by decide) hsrcW hcleanW hrun2).1 (Eq.refl 0)
  obtain ⟨_, _, _, hwaOld, hbytes⟩ := H
  have hrun1f : mappages C5base 4096 0 (2 * PGSIZE) 65536 (PTE_R ||| PTE_U) =
      .ok (0, C5fstate1) := by rfl
  have M1f := mappages_ok C5base 4096 0 (2 * PGSIZE) 65536 (PTE_R ||| PTE_U)
    C5fstate1 hwfB (by decide) (by decide) (by decide) (by decide) (by decide)
    (by decide)
    (fun va' p _ _ hp => by
      rw [pathL0_some_iff] at hp
      exact (hp.1 (Nat.zero_and _)).elim)
    hrun1f
  have hz_newf : ∀ j, C5fstate1.ptes 45056 j = 0 := by
    intro j
    have hntbl : ¬ Tbls C5base 4096 45056 := by
      rintro (h | ⟨i, _, hv, _⟩ | ⟨i, _, _, _, hv, _, _⟩)
      · exact absurd h (by decide)
      · exact (hv (Nat.zero_and _)).elim
      · exact (hv (Nat.zero_and _)).elim
    have h := M1f.ptesOut 45056 hntbl (by decide) j
    rw [h]
    rfl
  have hwfN1f : WF C5fstate1 45056 := by
    refine WF_of_root_zero C5fstate1 45056 ⟨by decide, by decide⟩ hz_newf
      M1f.wf.fr_nodup M1f.wf.fr_good ?_
    intro q hq
    have hq0 : q ∈ C5base.freeList := by
      obtain ⟨m, hm⟩ := M1f.drop
      rw [hm] at hq
      exact List.drop_subset _ _ hq
    have hq1 : q ∈ ([8192, 12288, 16384, 20480, 24576] : List Nat) := hq0
    simp only [List.mem_cons, List.not_mem_nil, or_false] at hq1
    rcases hq1 with rfl | rfl | rfl | rfl | rfl <;> decide
  have hdisjWf : ∀ q, Tbls C5fstate1 4096 q → ¬ Tbls C5fstate1 45056 q := by
    intro q hq hc
    have hq45 : q = 45056 := by
      rcases hc with h | ⟨i, _, hv, _⟩ | ⟨i, _, _, _, hv, _, _⟩
      · exact h
      · rw [hz_newf i] at hv
        exact (hv (Nat.zero_and _)).elim
      · rw [hz_newf i] at hv
        exact (hv (Nat.zero_and _)).elim
    subst hq45
    rcases M1f.tblGrow 45056 hq with h | ⟨h, _⟩
    · rcases h with h | ⟨i, _, hv, _⟩ | ⟨i, _, _, _, hv, _, _⟩
      · exact absurd h (by decide)
      · exact (hv (Nat.zero_and _)).elim
      · exact (hv (Nat.zero_and _)).elim
    · exact absurd h (by decide)
  have hsrcWf : ∀ k, k * PGSIZE < 2 * PGSIZE →
      ∃ p, pathL0 C5fstate1 4096 (k * PGSIZE) = some p ∧
        validE (C5fstate1.ptes p (PX 0 (k * PGSIZE))) ∧
        PTE_FLAGS (C5fstate1.ptes p (PX 0 (k * PGSIZE))) ≠ PTE_V ∧
        PTE2PA (C5fstate1.ptes p (PX 0 (k * PGSIZE))) ∉ C5fstate1.freeList := by
    intro k hk
    have hal : (65536 + k * PGSIZE) % PGSIZE = 0 := by
      simp only [PGSIZE_def]
      omega
    have hk2 : k ≤ 2 * PGSIZE / PGSIZE - 1 := by
      simp only [PGSIZE_def] at hk ⊢
      omega
    obtain ⟨pI, hpI, heI⟩ := M1f.installed k hk2
    rw [Nat.zero_add] at hpI heI
    refine ⟨pI, hpI, ?_, ?_, ?_⟩
    · rw [heI]
      exact (leaf_entry_facts (65536 + k * PGSIZE) (PTE_R ||| PTE_U) hal
        (by decide)).2.2.1
    · rw [heI, (leaf_entry_facts (65536 + k * PGSIZE) (PTE_R ||| PTE_U) hal
        (by decide)).2.2.2.2]
      decide
    · rw [heI, (leaf_entry_facts (65536 + k * PGSIZE) (PTE_R ||| PTE_U) hal
        (by decide)).2.2.2.1]
      intro hc
      obtain ⟨m, hm⟩ := M1f.drop
      rw [hm] at hc
      have hc2 : 65536 + k * PGSIZE ∈ C5base.freeList := List.drop_subset _ _ hc
      have hc3 : 65536 + k * PGSIZE ∈
          ([8192, 12288, 16384, 20480, 24576] : List Nat) := hc2
      simp only [List.mem_cons, List.not_mem_nil, or_false] at hc3
      simp only [PGSIZE_def] at hc3
      omega
  have hcleanWf : ∀ va p, va < MAXVA → pathL0 C5fstate1 45056 va = some p →
      ¬ validE (C5fstate1.ptes p (PX 0 va)) := by
    intro va p _ hp
    rw [pathL0_some_iff] at hp
    obtain ⟨h2, _, _⟩ := hp
    rw [hz_newf (PX 2 va)] at h2
    exact (h2 (Nat.zero_and _)).elim
  have hrun2f : uvmcopy C5fstate1 4096 45056 (2 * PGSIZE) =
      .ok (-1, C5fstate2) := by rfl
  have Hf := (C5_uvmcopy C5fstate1 C5fstate2 4096 45056 (2 * PGSIZE) (-1) M1f.wf
    hwfN1f hdisjWf (by decide) (by decide) hsrcWf hcleanWf hrun2f).2.1
    (Eq.refl (-1))
  obtain ⟨_, hwaNf, hfreedf, _, _, _⟩ := Hf
  exact ⟨⟨hrun2, hwaOld 0, hbytes 65536 (by decide) 7⟩,
    hrun2f, hwaNf 0 (by decide), hfreedf 16384 (by decide)⟩

end VM
